import Mathlib

/-!
Shallow embedding of the h3xy firmware-image core (Rust) in Lean 4.

Machine integers are modelled as `Nat` with explicit bounds: `u32` values
are naturals that the Rust type system keeps `≤ U32MAX`; checked/saturating
arithmetic is translated operation by operation.  Bytes are naturals `< 256`
(the bound only matters where arithmetic wraps, and there it is taken
explicitly with `% 256` etc.).  Fallible Rust functions return `Except`.

Sources: src/segment.rs, src/hexfile.rs, src/range.rs, src/ops/*.rs,
src/io/intel_hex.rs, src/io/srec.rs of the h3xy repository.
-/

namespace H3xy

/-- Largest value of a Rust `u32`. -/
def U32MAX : Nat := 4294967295

/-- Rust `u32::checked_add`. -/
def checkedAdd (a b : Nat) : Option Nat :=
  if a + b ≤ U32MAX then some (a + b) else none

/-- Rust `u32::checked_sub`. -/
def checkedSub (a b : Nat) : Option Nat :=
  if b ≤ a then some (a - b) else none

/-- Rust `u32::checked_mul`. -/
def checkedMul (a b : Nat) : Option Nat :=
  if a * b ≤ U32MAX then some (a * b) else none

/-- Rust `u32::saturating_add`. -/
def saturatingAdd (a b : Nat) : Nat := min (a + b) U32MAX

/-- Rust `u32::saturating_sub` (Nat subtraction already floors at 0). -/
def saturatingSub (a b : Nat) : Nat := a - b

/-! ### Segment (src/segment.rs) -/

/-- A pair of a base address and a run of bytes (src/segment.rs). -/
structure Segment where
  start_address : Nat
  data : List Nat
  deriving Repr, DecidableEq

namespace Segment

/-- Rust `Segment::end_address`: saturating at `u32::MAX` (src/segment.rs lines 19-28). -/
def end_address (s : Segment) : Nat :=
  if s.data.isEmpty then s.start_address
  else ((checkedAdd s.start_address s.data.length).bind (fun v => checkedSub v 1)).getD U32MAX

/-- Rust `Segment::len`. -/
def len (s : Segment) : Nat := s.data.length

/-- Rust `Segment::is_empty`. -/
def is_empty (s : Segment) : Bool := s.data.isEmpty

/-- Rust `Segment::is_contiguous_with` (src/segment.rs line 38). -/
def is_contiguous_with (a b : Segment) : Bool :=
  checkedAdd a.end_address 1 == some b.start_address

end Segment

/-! ### HexFile: the memory image (src/hexfile.rs) -/

/-- An insertion-ordered list of segments; overlaps resolve last-wins (src/hexfile.rs). -/
structure HexFile where
  segments : List Segment
  deriving Repr, DecidableEq

namespace HexFile

/-- Rust `HexFile::new`. -/
def new : HexFile := ⟨[]⟩

/-- Rust `HexFile::with_segments`: empty segments are filtered out. -/
def with_segments (segments : List Segment) : HexFile :=
  ⟨segments.filter (fun s => !s.is_empty)⟩

/-- Rust `HexFile::set_segments`. -/
def set_segments (_hf : HexFile) (segments : List Segment) : HexFile :=
  ⟨segments.filter (fun s => !s.is_empty)⟩

/-- Rust `HexFile::append_segment`: high priority, pushed at the tail. -/
def append_segment (hf : HexFile) (segment : Segment) : HexFile :=
  if segment.is_empty then hf else ⟨hf.segments ++ [segment]⟩

/-- Rust `HexFile::prepend_segment`: low priority, inserted at the head. -/
def prepend_segment (hf : HexFile) (segment : Segment) : HexFile :=
  if segment.is_empty then hf else ⟨segment :: hf.segments⟩

/-- Rust `HexFile::is_empty`. -/
def is_empty (hf : HexFile) : Bool := hf.segments.all (fun s => s.is_empty)

/-- Rust `HexFile::min_address`: minimum start over non-empty segments. -/
def min_address (hf : HexFile) : Option Nat :=
  ((hf.segments.filter (fun s => !s.is_empty)).map (fun s => s.start_address)).min?

/-- Rust `HexFile::max_address`: maximum end over non-empty segments. -/
def max_address (hf : HexFile) : Option Nat :=
  ((hf.segments.filter (fun s => !s.is_empty)).map (fun s => s.end_address)).max?

/-- Rust `HexFile::total_bytes`. -/
def total_bytes (hf : HexFile) : Nat :=
  (hf.segments.map (fun s => s.len)).sum

end HexFile

/-- The scan of `HexFile::read_byte` over an already-reversed segment list
(src/hexfile.rs lines 198-211): skip empty segments, return the first
in-range hit whose offset is inside the data. -/
def readByteList : List Segment → Nat → Option Nat
  | [], _ => none
  | s :: rest, addr =>
    if s.is_empty then readByteList rest addr
    else if s.start_address ≤ addr ∧ addr ≤ s.end_address then
      let offset := addr - s.start_address
      if h : offset < s.data.length then some (s.data.get ⟨offset, h⟩)
      else readByteList rest addr
    else readByteList rest addr

/-- Rust `HexFile::read_byte`: newest (last-appended) segment wins. -/
def HexFile.read_byte (hf : HexFile) (addr : Nat) : Option Nat :=
  readByteList hf.segments.reverse addr

/-- Rust `HexFile::write_bytes`: appends a fresh high-priority segment. -/
def HexFile.write_bytes (hf : HexFile) (addr : Nat) (data : List Nat) : HexFile :=
  if data.isEmpty then hf else ⟨hf.segments ++ [⟨addr, data⟩]⟩

/-! ### Lossy normalization (src/hexfile.rs lines 145-183, 273-361) -/

/-- Rust `truncate_segment_to_u32` (src/hexfile.rs lines 273-292). -/
def truncate_segment_to_u32 (s : Segment) : Option Segment :=
  if s.is_empty then none
  else
    let max_len := U32MAX - s.start_address + 1
    if max_len = 0 then none
    else
      let len := min s.data.length max_len
      if len = 0 then none
      else if len = s.data.length then some s
      else some ⟨s.start_address, s.data.take len⟩

/-- Inner state of `merge_adjacent_segments`: `cur` is the last element of the
output so far, which the Rust loop extends in place on contiguity. -/
def mergeAdjacentFrom (cur : Segment) : List Segment → List Segment
  | [] => [cur]
  | s :: rest =>
    if cur.is_contiguous_with s then
      mergeAdjacentFrom ⟨cur.start_address, cur.data ++ s.data⟩ rest
    else cur :: mergeAdjacentFrom s rest

/-- Rust `merge_adjacent_segments` (src/hexfile.rs lines 294-306). -/
def merge_adjacent_segments : List Segment → List Segment
  | [] => []
  | s :: rest => mergeAdjacentFrom s rest

/-- The loop of `overlay_segment` (src/hexfile.rs lines 308-360): `newSeg`
holds the overlay segment until it has been emitted. -/
def overlayCore (segStart segEnd : Nat) : List Segment → Option Segment → List Segment
  | [], newSeg => newSeg.toList
  | cur :: rest, newSeg =>
    if cur.end_address < segStart then
      cur :: overlayCore segStart segEnd rest newSeg
    else if segEnd < cur.start_address then
      newSeg.toList ++ cur :: overlayCore segStart segEnd rest none
    else
      let leftPart : List Segment :=
        if cur.start_address < segStart then
          let left_len := segStart - cur.start_address
          if 0 < left_len then [⟨cur.start_address, cur.data.take left_len⟩] else []
        else []
      if segEnd < cur.end_address then
        let rightPart : List Segment :=
          match checkedAdd segEnd 1 with
          | some right_start =>
            let right_offset := right_start - cur.start_address
            if right_offset < cur.data.length then
              [⟨right_start, cur.data.drop right_offset⟩]
            else []
          | none => []
        leftPart ++ newSeg.toList ++ rightPart ++ overlayCore segStart segEnd rest none
      else
        leftPart ++ overlayCore segStart segEnd rest newSeg

/-- Rust `overlay_segment` (src/hexfile.rs lines 308-361). -/
def overlay_segment (segments : List Segment) (seg : Segment) : List Segment :=
  if segments.isEmpty then [seg]
  else merge_adjacent_segments
    (overlayCore seg.start_address seg.end_address segments (some seg))

/-- Stable sort by start address.  Rust `sort_by_key` is a stable sort, and
a stable sort by a key is uniquely determined, so insertion sort (stable)
computes the same list. -/
def sortByStart (l : List Segment) : List Segment :=
  l.insertionSort (fun a b => a.start_address ≤ b.start_address)

/-- The overlap detection scan of `normalized_lossy` (src/hexfile.rs lines 158-166). -/
def hasOverlapChain (lastEnd : Nat) : List Segment → Bool
  | [] => false
  | s :: rest =>
    if s.start_address ≤ lastEnd then true else hasOverlapChain s.end_address rest

/-- Overlap test on the sorted list (src/hexfile.rs lines 156-166). -/
def has_overlap : List Segment → Bool
  | [] => false
  | s :: rest => hasOverlapChain s.end_address rest

/-- Rust `HexFile::normalized_lossy` (src/hexfile.rs lines 145-183). -/
def HexFile.normalized_lossy (hf : HexFile) : HexFile :=
  let truncated := hf.segments.filterMap truncate_segment_to_u32
  if truncated.isEmpty then ⟨[]⟩
  else if has_overlap (sortByStart truncated) then
    ⟨merge_adjacent_segments (sortByStart (truncated.foldl overlay_segment []))⟩
  else
    ⟨merge_adjacent_segments (sortByStart truncated)⟩

/-- A well-formed segment: non-empty data that fits below `u32::MAX`
(every segment produced by `normalized_lossy` satisfies this). -/
def segWF (s : Segment) : Bool :=
  !s.data.isEmpty && decide (s.start_address + s.data.length ≤ U32MAX + 1)

/-- The normalized-chain invariant from a previous segment: each following
segment is well formed and starts at least two addresses past the previous
end (sorted, non-overlapping, non-contiguous). -/
def chainFrom : Segment → List Segment → Bool
  | _, [] => true
  | prev, s :: rest =>
    segWF s && decide (prev.end_address + 2 ≤ s.start_address) && chainFrom s rest

/-- The full normalized-chain invariant: all segments well formed, sorted by
start address, pairwise non-overlapping and non-contiguous. -/
def chainWF : List Segment → Bool
  | [] => true
  | s :: rest => segWF s && chainFrom s rest

/-- The weak chain invariant from a previous segment: each following segment
is well formed and starts past the previous end (sorted and non-overlapping,
contiguity allowed). -/
def wchainFrom : Segment → List Segment → Bool
  | _, [] => true
  | prev, s :: rest =>
    segWF s && decide (prev.end_address + 1 ≤ s.start_address) && wchainFrom s rest

/-- The weak chain invariant for a whole list. -/
def wchainWF : List Segment → Bool
  | [] => true
  | s :: rest => segWF s && wchainFrom s rest

/-- Address-interval disjointness of two segments. -/
def disjSeg (a b : Segment) : Prop :=
  a.end_address < b.start_address ∨ b.end_address < a.start_address

/-! ### Range (src/range.rs) -/

/-- Error cases of range construction (src/range.rs lines 5-18); message
payloads are dropped, the variants are kept distinguishable. -/
inductive RangeError where
  | InvalidFormat : RangeError
  | InvalidNumber : RangeError
  | StartExceedsEnd (start «end» : Nat) : RangeError
  | ZeroLength (start : Nat) : RangeError
  deriving Repr, DecidableEq

/-- A closed inclusive address interval (src/range.rs lines 20-25). -/
structure Range where
  start : Nat
  «end» : Nat
  deriving Repr, DecidableEq

namespace Range

/-- Rust `Range::from_start_length` (src/range.rs lines 29-37). -/
def from_start_length (start length : Nat) : Except RangeError Range :=
  if length = 0 then .error (.ZeroLength start)
  else match checkedAdd start (length - 1) with
    | some e => .ok ⟨start, e⟩
    | none => .error .InvalidFormat

/-- Rust `Range::from_start_end` (src/range.rs lines 40-51). -/
def from_start_end (start «end» : Nat) : Except RangeError Range :=
  if start > «end» then .error (.StartExceedsEnd start «end»)
  else if start = 0 ∧ «end» = U32MAX then .error .InvalidFormat
  else .ok ⟨start, «end»⟩

/-- Rust `Range::length` (`end - start + 1`). -/
def length (r : Range) : Nat := r.«end» - r.start + 1

/-- Rust `Range::contains`. -/
def contains (r : Range) (addr : Nat) : Bool :=
  decide (r.start ≤ addr ∧ addr ≤ r.«end»)

/-- Rust `Range::overlaps`. -/
def overlaps (r other : Range) : Bool :=
  decide (r.start ≤ other.«end» ∧ other.start ≤ r.«end»)

/-- Rust `Range::intersection`. -/
def intersection (r other : Range) : Option Range :=
  if r.overlaps other then
    some ⟨max r.start other.start, min r.«end» other.«end»⟩
  else none

end Range

end H3xy

namespace H3xy

/-! ### Operation errors (src/ops/error.rs) -/

/-- Error cases of the operations (src/ops/error.rs); message strings are
dropped, structured payloads and the context wrapper are kept. -/
inductive OpsError where
  | AddressOverflow : OpsError
  | AddressNotDivisible (address divisor : Nat) : OpsError
  | LengthNotMultiple (length expected : Nat) : OpsError
  | InvalidAlignment (value : Nat) : OpsError
  | UnsupportedChecksumAlgorithm (index : Nat) : OpsError
  | InvalidRemapParams : OpsError
  | RangeNotCovered (start length : Nat) : OpsError
  | Context (context : String) (source : OpsError) : OpsError
  deriving Repr, DecidableEq

/-- Rust `OpsError::with_context` (src/ops/error.rs lines 34-44). -/
def OpsError.with_context : OpsError → String → OpsError
  | e@(.Context _ _), _ => e
  | other, context => .Context context other

/-! ### Filter, cut, fill, merge (src/ops/filter.rs) -/

/-- Fill options (src/ops/filter.rs lines 4-10). -/
structure FillOptions where
  pattern : List Nat
  overwrite : Bool
  deriving Repr, DecidableEq

/-- Merge mode (src/ops/filter.rs lines 21-29). -/
inductive MergeMode where
  | Overwrite : MergeMode
  | Preserve : MergeMode
  deriving Repr, DecidableEq

/-- Merge options (src/ops/filter.rs lines 31-39). -/
structure MergeOptions where
  mode : MergeMode
  offset : Int
  range : Option Range
  deriving Repr, DecidableEq

/-- Rust `HexFile::filter_ranges` (src/ops/filter.rs lines 58-84). -/
def HexFile.filter_ranges (hf : HexFile) (ranges : List Range) : HexFile :=
  if ranges.isEmpty then hf.set_segments []
  else
    hf.set_segments (hf.segments.flatMap (fun segment =>
      match Range.from_start_end segment.start_address segment.end_address with
      | .error _ => []
      | .ok seg_range =>
        ranges.flatMap (fun range =>
          match seg_range.intersection range with
          | some inter =>
            let start_offset := inter.start - segment.start_address
            let end_offset := inter.«end» - segment.start_address + 1
            [⟨inter.start, (segment.data.take end_offset).drop start_offset⟩]
          | none => [])))

/-- Rust `HexFile::filter_range`. -/
def HexFile.filter_range (hf : HexFile) (range : Range) : HexFile :=
  hf.filter_ranges [range]

/-- The per-segment body of `cut_ranges` (src/ops/filter.rs lines 96-119):
keep the prefix before the cut and the suffix after it. -/
def cutSegment (range : Range) (segment : Segment) : List Segment :=
  let seg_start := segment.start_address
  let seg_end := segment.end_address
  if seg_end < range.start ∨ seg_start > range.«end» then [segment]
  else
    (if seg_start < range.start then
      [⟨seg_start, segment.data.take (range.start - seg_start)⟩]
     else [])
    ++
    (if seg_end > range.«end» then
      [⟨range.«end» + 1, segment.data.drop (range.«end» - seg_start + 1)⟩]
     else [])

/-- Rust `HexFile::cut_ranges` (src/ops/filter.rs lines 92-123). -/
def HexFile.cut_ranges (hf : HexFile) (ranges : List Range) : HexFile :=
  ranges.foldl (fun hf range => hf.set_segments (hf.segments.flatMap (cutSegment range))) hf

/-- Rust `HexFile::cut`. -/
def HexFile.cut (hf : HexFile) (range : Range) : HexFile :=
  hf.cut_ranges [range]

/-- The tiled pattern data built by `fill_ranges` (src/ops/filter.rs lines 143-149). -/
def buildPattern (len : Nat) (pattern : List Nat) : List Nat :=
  (List.range len).map (fun i => pattern.getD (i % pattern.length) 0)

/-- Rust `HexFile::fill_ranges` (src/ops/filter.rs lines 132-154). -/
def HexFile.fill_ranges (hf : HexFile) (ranges : List Range) (options : FillOptions) : HexFile :=
  if options.pattern.isEmpty then hf
  else
    ranges.foldl (fun hf range =>
      let hf := if options.overwrite then hf.cut range else hf
      hf.prepend_segment ⟨range.start, buildPattern range.length options.pattern⟩) hf

/-- Rust `HexFile::fill`. -/
def HexFile.fill (hf : HexFile) (range : Range) (options : FillOptions) : HexFile :=
  hf.fill_ranges [range] options

/-- In-buffer overlay used by `fill_gaps` and `as_contiguous` to model
`data[offset..offset+len].copy_from_slice(&src)`. -/
def writeInto (buf : List Nat) (offset : Nat) (src : List Nat) : List Nat :=
  buf.take offset ++ src ++ buf.drop (offset + src.length)

/-- Rust `HexFile::fill_gaps` (src/ops/filter.rs lines 159-184); the
`span > usize::MAX` early return cannot fire for `u32` spans on 64-bit
targets and is not modelled. -/
def HexFile.fill_gaps (hf : HexFile) (fill_byte : Nat) : HexFile :=
  let normalized := hf.normalized_lossy
  match normalized.min_address, normalized.max_address with
  | some min_addr, some max_addr =>
    let total_len := max_addr - min_addr + 1
    let data := normalized.segments.foldl
      (fun data segment => writeInto data (segment.start_address - min_addr) segment.data)
      (List.replicate total_len fill_byte)
    hf.set_segments [⟨min_addr, data⟩]
  | _, _ => hf

/-- Rust `HexFile::offset_addresses` (src/ops/filter.rs lines 219-234);
`offset as u32` in the non-negative branch truncates mod 2^32. -/
def HexFile.offset_addresses (hf : HexFile) (offset : Int) : HexFile :=
  ⟨hf.segments.map (fun segment =>
    { segment with start_address :=
        if 0 ≤ offset then
          saturatingAdd segment.start_address (offset.toNat % 2 ^ 32)
        else
          let abs := offset.natAbs
          let abs_u32 := if abs > U32MAX then U32MAX else abs
          saturatingSub segment.start_address abs_u32 })⟩

/-- Rust `HexFile::merge` (src/ops/filter.rs lines 187-214). -/
def HexFile.merge (hf : HexFile) (other : HexFile) (options : MergeOptions) : HexFile :=
  let other_filtered :=
    match options.range with
    | some range => other.filter_range range
    | none => other
  let other_filtered :=
    if options.offset ≠ 0 then other_filtered.offset_addresses options.offset
    else other_filtered
  match options.mode with
  | .Overwrite => other_filtered.segments.foldl HexFile.append_segment hf
  | .Preserve => other_filtered.segments.foldl HexFile.prepend_segment hf

end H3xy

namespace H3xy

/-! ### Transforms (src/ops/transform.rs) -/

/-- Byte-swap mode (src/ops/transform.rs lines 4-11). -/
inductive SwapMode where
  | Word : SwapMode
  | DWord : SwapMode
  deriving Repr, DecidableEq

/-- Rust `SwapMode::size`. -/
def SwapMode.size : SwapMode → Nat
  | .Word => 2
  | .DWord => 4

/-- Align options (src/ops/transform.rs lines 22-31). -/
structure AlignOptions where
  alignment : Nat
  fill_byte : Nat
  align_length : Bool
  deriving Repr, DecidableEq

/-- Remap options (src/ops/transform.rs lines 43-51). -/
structure RemapOptions where
  start : Nat
  «end» : Nat
  linear : Nat
  size : Nat
  inc : Nat
  deriving Repr, DecidableEq

/-- Banked-map options (src/ops/transform.rs lines 53-61). -/
structure BankedMapOptions where
  bank_min : Nat
  bank_max : Nat
  linear_base : Nat
  nonbank_low_base : Nat
  nonbank_high_base : Nat
  deriving Repr, DecidableEq

/-- Rust `align_down` (src/ops/transform.rs line 67). -/
def align_down (addr alignment : Nat) : Nat := addr - addr % alignment

/-- Rust `align_up` (src/ops/transform.rs lines 71-78). -/
def align_up (len alignment : Nat) : Nat :=
  if len % alignment = 0 then len else len + (alignment - len % alignment)

/-- Rust `HexFile::align` (src/ops/transform.rs lines 84-124). -/
def HexFile.align (hf : HexFile) (options : AlignOptions) : Except OpsError HexFile :=
  if options.alignment = 0 then .error (.InvalidAlignment options.alignment)
  else
    let normalized := hf.normalized_lossy
    let result := normalized.segments.foldl (fun result segment =>
      let aligned_start := align_down segment.start_address options.alignment
      let result :=
        if aligned_start < segment.start_address then
          result.prepend_segment
            ⟨aligned_start,
             List.replicate (segment.start_address - aligned_start) options.fill_byte⟩
        else result
      if options.align_length then
        let end_addr := saturatingAdd segment.end_address 1
        let aligned_end := align_up end_addr options.alignment
        if aligned_end > end_addr then
          result.prepend_segment
            ⟨end_addr, List.replicate (aligned_end - end_addr) options.fill_byte⟩
        else result
      else result) HexFile.new
    let result := normalized.segments.foldl HexFile.append_segment result
    .ok (hf.set_segments result.normalized_lossy.segments)

/-- The per-segment chunking of `HexFile::split` (src/ops/transform.rs lines
141-145), with an explicit iteration bound (`fuel`) standing in for the
loop; `segmentChunks` passes the list length, which always suffices because
each chunk consumes at least one byte.  The zero chunk size is unreachable
because `split` guards `max_size = 0`. -/
def segmentChunksF : Nat → Nat → Nat → List Nat → List Segment
  | _, _, _, [] => []
  | _, 0, addr, data => [⟨addr, data⟩]
  | 0, _ + 1, addr, data => [⟨addr, data⟩]
  | fuel + 1, m + 1, addr, data =>
    let chunk := data.take (m + 1)
    ⟨addr, chunk⟩ :: segmentChunksF fuel (m + 1) (addr + chunk.length) (data.drop (m + 1))

/-- Chunking entry point used by `HexFile::split`. -/
def segmentChunks (max_size addr : Nat) (data : List Nat) : List Segment :=
  segmentChunksF data.length max_size addr data

/-- Rust `HexFile::split` (src/ops/transform.rs lines 127-149). -/
def HexFile.split (hf : HexFile) (max_size : Nat) : HexFile :=
  if max_size = 0 then hf
  else
    hf.set_segments (hf.segments.flatMap (fun segment =>
      if segment.len ≤ max_size then [segment]
      else segmentChunks max_size segment.start_address segment.data))

/-- The `chunks_exact_mut` reversal of `HexFile::swap_bytes` (src/ops/
transform.rs lines 156-161): reverse complete chunks, keep the remainder.
`fuel` bounds the iteration count; `swapChunksExact` passes the list
length, which suffices because each chunk is non-empty. -/
def swapChunksExactF : Nat → Nat → List Nat → List Nat
  | 0, _, l => l
  | fuel + 1, size, l =>
    if size = 0 ∨ l.length < size then l
    else (l.take size).reverse ++ swapChunksExactF fuel size (l.drop size)

/-- Chunk reversal entry point used by `HexFile::swap_bytes`. -/
def swapChunksExact (size : Nat) (l : List Nat) : List Nat :=
  swapChunksExactF l.length size l

/-- Rust `HexFile::swap_bytes` (src/ops/transform.rs lines 153-164). -/
def HexFile.swap_bytes (hf : HexFile) (mode : SwapMode) : Except OpsError HexFile :=
  .ok ⟨hf.segments.map (fun s => ⟨s.start_address, swapChunksExact mode.size s.data⟩)⟩

/-- Rust `HexFile::scale_addresses` (src/ops/transform.rs lines 265-282):
validate every segment first, then mutate. -/
def HexFile.scale_addresses (hf : HexFile) (factor : Nat) : Except OpsError HexFile × HexFile :=
  match hf.segments.find? (fun s => (checkedMul s.start_address factor).isNone) with
  | some _ => (.error .AddressOverflow, hf)
  | none =>
    let hf' : HexFile :=
      ⟨hf.segments.map (fun s => { s with start_address := s.start_address * factor })⟩
    (.ok hf', hf')

/-- Rust `HexFile::unscale_addresses` (src/ops/transform.rs lines 286-310):
validate every segment first, then mutate. -/
def HexFile.unscale_addresses (hf : HexFile) (divisor : Nat) : Except OpsError HexFile × HexFile :=
  if divisor = 0 then (.error (.AddressNotDivisible 0 0), hf)
  else
    match hf.segments.find? (fun s => ¬ s.start_address % divisor = 0) with
    | some s => (.error (.AddressNotDivisible s.start_address divisor), hf)
    | none =>
      let hf' : HexFile :=
        ⟨hf.segments.map (fun s => { s with start_address := s.start_address / divisor })⟩
      (.ok hf', hf')

/-- The per-segment body of `HexFile::remap` (src/ops/transform.rs lines
327-380): segments outside the window or crossing a bank boundary pass
through unchanged; checked arithmetic can fail mid-iteration. -/
def remapSegment (options : RemapOptions) (segment : Segment) : Except OpsError Segment :=
  let seg_start := segment.start_address
  let seg_end := segment.end_address
  if seg_start < options.start ∨ seg_end > options.«end» then .ok segment
  else
    let offset := seg_start - options.start
    let bank_index := offset / options.inc
    match checkedMul bank_index options.inc with
    | none => .error .AddressOverflow
    | some m =>
      match checkedAdd options.start m with
      | none => .error .AddressOverflow
      | some bank_base =>
        match checkedAdd bank_base (options.size - 1) with
        | none => .error .AddressOverflow
        | some bank_end =>
          if seg_end > bank_end then .ok segment
          else
            let bank_offset := seg_start - bank_base
            match checkedMul bank_index options.size with
            | none => .error .AddressOverflow
            | some ms =>
              match (checkedAdd options.linear ms).bind
                  (fun v => checkedAdd v bank_offset) with
              | none => .error .AddressOverflow
              | some new_start => .ok { segment with start_address := new_start }

/-- The `for segment in self.segments_mut()` loop of `HexFile::remap`: on an
error the already-processed prefix keeps its new addresses and iteration
stops, mirroring in-place mutation with `?` propagation. -/
def remapGo (options : RemapOptions) : List Segment → List Segment × Option OpsError
  | [] => ([], none)
  | s :: rest =>
    match remapSegment options s with
    | .error e => (s :: rest, some e)
    | .ok s' =>
      let (rest', err) := remapGo options rest
      (s' :: rest', err)

/-- Rust `HexFile::remap` (src/ops/transform.rs lines 313-383): returns the
post-call image together with the error, if any. -/
def HexFile.remap (hf : HexFile) (options : RemapOptions) : HexFile × Option OpsError :=
  if options.size = 0 ∨ options.inc = 0 then (hf, some .InvalidRemapParams)
  else if options.start > options.«end» then (hf, some .InvalidRemapParams)
  else
    let (segs, err) := remapGo options hf.segments
    (⟨segs⟩, err)

end H3xy

namespace H3xy

/-- The per-segment body of `HexFile::map_banked` (src/ops/transform.rs lines
394-462). -/
def mapBankedSegment (options : BankedMapOptions) (segment : Segment) : Except OpsError Segment :=
  let start := segment.start_address
  let «end» := segment.end_address
  if 0x4000 ≤ start ∧ «end» ≤ 0x7FFF then
    match checkedAdd options.nonbank_low_base (start - 0x4000) with
    | none => .error .AddressOverflow
    | some a => .ok { segment with start_address := a }
  else if 0xC000 ≤ start ∧ «end» ≤ 0xFFFF then
    match checkedAdd options.nonbank_high_base (start - 0xC000) with
    | none => .error .AddressOverflow
    | some a => .ok { segment with start_address := a }
  else
    let bank := (start / 65536) % 256
    if bank < options.bank_min ∨ bank > options.bank_max then .ok segment
    else
      let bank_base := bank * 65536 + 0x8000
      let bank_end := bank_base + 0x3FFF
      if «end» > bank_end then .ok segment
      else
        let bank_index := bank - options.bank_min
        match checkedMul bank_index 0x4000 with
        | none => .error .AddressOverflow
        | some m =>
          match checkedAdd options.linear_base m with
          | none => .error .AddressOverflow
          | some linear_bank_base =>
            match checkedAdd linear_bank_base (start - bank_base) with
            | none => .error .AddressOverflow
            | some a => .ok { segment with start_address := a }

/-- The mutation loop shared by the banked maps: on error the processed
prefix keeps its new addresses, as with `HexFile::remap`. -/
def mapSegmentsGo (f : Segment → Except OpsError Segment) :
    List Segment → List Segment × Option OpsError
  | [] => ([], none)
  | s :: rest =>
    match f s with
    | .error e => (s :: rest, some e)
    | .ok s' =>
      let (rest', err) := mapSegmentsGo f rest
      (s' :: rest', err)

/-- Rust `HexFile::map_banked` (src/ops/transform.rs lines 386-465). -/
def HexFile.map_banked (hf : HexFile) (options : BankedMapOptions) : HexFile × Option OpsError :=
  if options.bank_min > options.bank_max then (hf, some .InvalidRemapParams)
  else
    let (segs, err) := mapSegmentsGo (mapBankedSegment options) hf.segments
    (⟨segs⟩, err)

/-- Rust `HexFile::map_star12` (src/ops/transform.rs lines 467-475). -/
def HexFile.map_star12 (hf : HexFile) : HexFile × Option OpsError :=
  hf.map_banked ⟨0x30, 0x3F, 0x0C0000, 0x0F8000, 0x0FC000⟩

/-- Rust `HexFile::map_star12x` (src/ops/transform.rs lines 477-485). -/
def HexFile.map_star12x (hf : HexFile) : HexFile × Option OpsError :=
  hf.map_banked ⟨0xE0, 0xFF, 0x780000, 0x7F4000, 0x7FC000⟩

/-- The per-segment body of `HexFile::map_star08` (src/ops/transform.rs
lines 488-526). -/
def mapStar08Segment (segment : Segment) : Except OpsError Segment :=
  let start := segment.start_address
  let «end» := segment.end_address
  if 0x4000 ≤ start ∧ «end» ≤ 0x7FFF then
    match checkedAdd 0x104000 (start - 0x4000) with
    | none => .error .AddressOverflow
    | some a => .ok { segment with start_address := a }
  else
    let bank := (start / 65536) % 256
    let bank_base := bank * 65536 + 0x8000
    let bank_end := bank_base + 0x3FFF
    if start < bank_base ∨ «end» > bank_end then .ok segment
    else
      match checkedMul bank 0x4000 with
      | none => .error .AddressOverflow
      | some m =>
        match checkedAdd 0x100000 m with
        | none => .error .AddressOverflow
        | some linear_bank_base =>
          match checkedAdd linear_bank_base (start - bank_base) with
          | none => .error .AddressOverflow
          | some a => .ok { segment with start_address := a }

/-- Rust `HexFile::map_star08` (src/ops/transform.rs lines 487-529). -/
def HexFile.map_star08 (hf : HexFile) : HexFile × Option OpsError :=
  let (segs, err) := mapSegmentsGo mapStar08Segment hf.segments
  (⟨segs⟩, err)

end H3xy

namespace H3xy

/-! ### Checksum engine (src/ops/checksum.rs) -/

/-- Checksum placement target (src/ops/checksum.rs lines 23-36). -/
inductive ChecksumTarget where
  | Address (addr : Nat) : ChecksumTarget
  | Append : ChecksumTarget
  | Prepend : ChecksumTarget
  | OverwriteEnd : ChecksumTarget
  | File (path : String) : ChecksumTarget
  deriving Repr, DecidableEq

/-- Forced range with fill pattern (src/ops/checksum.rs lines 38-43). -/
structure ForcedRange where
  range : Range
  pattern : List Nat
  deriving Repr, DecidableEq

/-- Checksum algorithm identifiers (src/ops/checksum.rs lines 45-63). -/
inductive ChecksumAlgorithm where
  | ByteSumBe : ChecksumAlgorithm
  | ByteSumLe : ChecksumAlgorithm
  | WordSumBe : ChecksumAlgorithm
  | WordSumLe : ChecksumAlgorithm
  | ByteSumTwosComplement : ChecksumAlgorithm
  | WordSumBeTwosComplement : ChecksumAlgorithm
  | WordSumLeTwosComplement : ChecksumAlgorithm
  | Crc16 : ChecksumAlgorithm
  | Crc32 : ChecksumAlgorithm
  | ModularSum : ChecksumAlgorithm
  | Crc16CcittLe : ChecksumAlgorithm
  | Crc16CcittBe : ChecksumAlgorithm
  | Crc16CcittLeInit0 : ChecksumAlgorithm
  | Crc16CcittBeInit0 : ChecksumAlgorithm
  deriving Repr, DecidableEq

namespace ChecksumAlgorithm

/-- Rust `ChecksumAlgorithm::from_index` (src/ops/checksum.rs lines 66-84). -/
def from_index (index : Nat) : Except OpsError ChecksumAlgorithm :=
  match index with
  | 0 => .ok .ByteSumBe
  | 1 => .ok .ByteSumLe
  | 2 => .ok .WordSumBe
  | 3 => .ok .WordSumLe
  | 4 => .ok .ByteSumTwosComplement
  | 5 => .ok .WordSumBeTwosComplement
  | 6 => .ok .WordSumLeTwosComplement
  | 7 => .ok .Crc16
  | 9 => .ok .Crc32
  | 12 => .ok .ModularSum
  | 13 => .ok .Crc16CcittLe
  | 14 => .ok .Crc16CcittBe
  | 17 => .ok .Crc16CcittLeInit0
  | 18 => .ok .Crc16CcittBeInit0
  | _ => .error (.UnsupportedChecksumAlgorithm index)

/-- Rust `ChecksumAlgorithm::result_size` (src/ops/checksum.rs lines 87-92). -/
def result_size : ChecksumAlgorithm → Nat
  | .Crc32 => 4
  | _ => 2

/-- Rust `ChecksumAlgorithm::native_little_endian` (src/ops/checksum.rs lines 96-105). -/
def native_little_endian : ChecksumAlgorithm → Bool
  | .ByteSumLe | .WordSumLe | .WordSumLeTwosComplement
  | .Crc16CcittLe | .Crc16CcittLeInit0 => true
  | _ => false

end ChecksumAlgorithm

/-- Checksum options (src/ops/checksum.rs lines 108-119). -/
structure ChecksumOptions where
  algorithm : ChecksumAlgorithm
  range : Option Range
  little_endian_output : Bool
  forced_range : Option ForcedRange
  exclude_ranges : List Range
  target_exclude : Option Range
  deriving Repr, DecidableEq

/-- Rust `byte_sum` (src/ops/checksum.rs lines 590-592): u16 wrapping sum. -/
def byte_sum (data : List Nat) : Nat :=
  data.foldl (fun acc b => (acc + b) % 65536) 0

/-- The `chunks_exact(2)` fold of the word sums; `hiFirst` selects the
big-endian interpretation of each pair. -/
def wordSumGo (hiFirst : Bool) : List Nat → Nat → Nat
  | a :: b :: rest, acc =>
    let w := if hiFirst then a * 256 + b else b * 256 + a
    wordSumGo hiFirst rest ((acc + w) % 65536)
  | _, acc => acc

/-- Rust `word_sum_be` (src/ops/checksum.rs lines 595-606). -/
def word_sum_be (data : List Nat) : Except OpsError Nat :=
  if data.length % 2 ≠ 0 then .error (.LengthNotMultiple data.length 2)
  else .ok (wordSumGo true data 0)

/-- Rust `word_sum_le` (src/ops/checksum.rs lines 609-620). -/
def word_sum_le (data : List Nat) : Except OpsError Nat :=
  if data.length % 2 ≠ 0 then .error (.LengthNotMultiple data.length 2)
  else .ok (wordSumGo false data 0)

/-- One reflected (LSB-first) CRC bit step. -/
def crcBitLsb (poly crc : Nat) : Nat :=
  if crc % 2 = 1 then (crc / 2) ^^^ poly else crc / 2

/-- Eight reflected CRC bit steps over one input byte. -/
def crcByteLsb (poly crc byte : Nat) : Nat :=
  (crcBitLsb poly)^[8] (crc ^^^ byte)

/-- Modelled from the spec: generic reflected CRC as used by the external
`crc` crate for CRC-16-ARC, CRC-16-IBM-SDLC and CRC-32-ISO-HDLC
(spec section 4.13); `poly` is the reflected polynomial. -/
def crcLsb (poly init xorOut : Nat) (data : List Nat) : Nat :=
  (data.foldl (crcByteLsb poly) init) ^^^ xorOut

/-- One MSB-first CRC-16 bit step. -/
def crcBitMsb16 (poly crc : Nat) : Nat :=
  if 32768 ≤ crc % 65536 then ((crc % 65536) * 2 ^^^ poly) % 65536
  else ((crc % 65536) * 2) % 65536

/-- Eight MSB-first CRC-16 bit steps over one input byte. -/
def crcByteMsb16 (poly crc byte : Nat) : Nat :=
  (crcBitMsb16 poly)^[8] (crc ^^^ (byte * 256))

/-- Modelled from the spec: non-reflected CRC-16 as used by the external
`crc` crate for CRC-16-XMODEM (spec section 4.13). -/
def crcMsb16 (poly init xorOut : Nat) (data : List Nat) : Nat :=
  (data.foldl (crcByteMsb16 poly) init) ^^^ xorOut

/-- Modelled from the spec: CRC-16-ARC, poly 0x8005 reflected, init 0, no xor. -/
def crc16_arc (data : List Nat) : Nat := crcLsb 0xA001 0 0 data

/-- Modelled from the spec: CRC-32-ISO-HDLC, poly 0x04C11DB7 reflected,
init and xor 0xFFFFFFFF. -/
def crc32_iso_hdlc (data : List Nat) : Nat := crcLsb 0xEDB88320 0xFFFFFFFF 0xFFFFFFFF data

/-- Modelled from the spec: CRC-16-IBM-SDLC, poly 0x1021 reflected,
init and xor 0xFFFF. -/
def crc16_ibm_sdlc (data : List Nat) : Nat := crcLsb 0x8408 0xFFFF 0xFFFF data

/-- Modelled from the spec: CRC-16-XMODEM, poly 0x1021 MSB-first, init 0. -/
def crc16_xmodem (data : List Nat) : Nat := crcMsb16 0x1021 0 0 data

/-- Rust `u16::to_be_bytes` / `to_le_bytes` selection in `calculate_checksum`. -/
def u16_bytes (value : Nat) (little_endian : Bool) : List Nat :=
  if little_endian then [value % 256, value / 256 % 256]
  else [value / 256 % 256, value % 256]

/-- Rust `u32::to_be_bytes` / `to_le_bytes` selection in `calculate_checksum`. -/
def u32_bytes (value : Nat) (little_endian : Bool) : List Nat :=
  if little_endian then
    [value % 256, value / 256 % 256, value / 65536 % 256, value / 16777216 % 256]
  else
    [value / 16777216 % 256, value / 65536 % 256, value / 256 % 256, value % 256]

/-- Rust u16 `(!sum).wrapping_add(1)` (two's complement). -/
def twosComplement16 (sum : Nat) : Nat := ((65535 - sum % 65536) + 1) % 65536

/-- Rust `build_pattern_data` (src/ops/checksum.rs lines 513-530); the usize
conversion cannot fail for a u32 range length and is not modelled. -/
def build_pattern_data (range : Range) (pattern : List Nat) : Except OpsError (List Nat) :=
  let len := range.length
  if len = 0 then .ok []
  else
    let fill_pattern := if pattern.isEmpty then [0xFF] else pattern
    .ok ((List.range len).map (fun i => fill_pattern.getD (i % fill_pattern.length) 0))

/-- The accumulator of `merge_ranges`: the Rust loop extends the last pushed
range in place (src/ops/checksum.rs lines 532-551). -/
def mergeRangesFrom (last : Range) : List Range → List Range
  | [] => [last]
  | r :: rest =>
    let last_end := last.«end»
    let extend :=
      match checkedAdd last_end 1 with
      | some v => r.start ≤ v
      | none => false
    if r.start ≤ last_end ∨ extend = true then
      mergeRangesFrom ⟨last.start, max last_end r.«end»⟩ rest
    else last :: mergeRangesFrom r rest

/-- Stable sort of ranges by start, matching Rust `sort_by_key` (see
`sortByStart` on stability). -/
def sortRangesByStart (l : List Range) : List Range :=
  l.insertionSort (fun a b => a.start ≤ b.start)

/-- Rust `merge_ranges` (src/ops/checksum.rs lines 532-551). -/
def merge_ranges (ranges : List Range) : List Range :=
  match sortRangesByStart ranges with
  | [] => []
  | r :: rest => mergeRangesFrom r rest

/-- The cursor loop of `subtract_ranges` (src/ops/checksum.rs lines 553-587). -/
def subtractRangesGo (range : Range) (cursor : Nat) : List Range → List Range
  | [] =>
    if cursor ≤ range.«end» then
      match Range.from_start_end cursor range.«end» with
      | .ok r => [r]
      | .error _ => []
    else []
  | ex :: rest =>
    if ex.«end» < cursor then subtractRangesGo range cursor rest
    else if ex.start > range.«end» then
      if cursor ≤ range.«end» then
        match Range.from_start_end cursor range.«end» with
        | .ok r => [r]
        | .error _ => []
      else []
    else
      let ex_start := max ex.start range.start
      let ex_end := min ex.«end» range.«end»
      let head : List Range :=
        if cursor < ex_start then
          match Range.from_start_end cursor (ex_start - 1) with
          | .ok r => [r]
          | .error _ => []
        else []
      if ex_end = U32MAX then head
      else if ex_end + 1 > range.«end» then head
      else head ++ subtractRangesGo range (ex_end + 1) rest

/-- Rust `subtract_ranges` (src/ops/checksum.rs lines 553-587). -/
def subtract_ranges (range : Range) (excludes : List Range) : List Range :=
  if excludes.isEmpty then [range] else subtractRangesGo range range.start excludes

/-- Consecutive ranges of the list are separated by at least one address in
between (so the corresponding byte runs are maximal and never coalesce). -/
def rangeGapped : List Range → Prop
  | [] => True
  | [_] => True
  | a :: b :: rest => a.«end» + 2 ≤ b.start ∧ rangeGapped (b :: rest)

/-- Algorithms that require word alignment of every contiguous run
(src/ops/checksum.rs lines 295-301). -/
def needsWordAlignment : ChecksumAlgorithm → Bool
  | .WordSumBe | .WordSumLe | .WordSumBeTwosComplement | .WordSumLeTwosComplement => true
  | _ => false

/-- Rust closure `finalize_run` inside `collect_data_for_checksum`
(src/ops/checksum.rs lines 385-403). -/
def finalize_run (needs : Bool) (run_start run_len : Nat) : Except OpsError Unit :=
  if !needs then .ok ()
  else if run_start % 2 ≠ 0 then .error (.AddressNotDivisible run_start 2)
  else if run_len % 2 ≠ 0 then .error (.LengthNotMultiple run_len 2)
  else .ok ()

end H3xy

namespace H3xy

/-- The two-pointer emission loop of `collect_data_for_checksum` without a
forced range (src/ops/checksum.rs lines 459-506): walk sorted segments and
included sub-ranges, emitting byte overlaps and validating each maximal
contiguous run when word alignment is required.  `fuel` bounds the number
of loop iterations; each iteration advances past a segment or an included
range, so the sum of the list lengths always suffices. -/
def collectLoopF (needs : Bool) :
    Nat → List Segment → List Range → Option Nat → Nat → Option Nat → List Nat →
    Except OpsError (List Nat)
  | _, [], _, run_start, run_len, _, data
  | _, _ :: _, [], run_start, run_len, _, data
  | 0, _ :: _, _ :: _, run_start, run_len, _, data =>
    (match run_start with
     | some s => do
       finalize_run needs s run_len
       pure data
     | none => pure data)
  | fuel + 1, seg :: segs, inc :: incs, run_start, run_len, prev_end, data =>
    if seg.end_address < inc.start then
      collectLoopF needs fuel segs (inc :: incs) run_start run_len prev_end data
    else if seg.start_address > inc.«end» then
      collectLoopF needs fuel (seg :: segs) incs run_start run_len prev_end data
    else do
      let start := max seg.start_address inc.start
      let stop := min seg.end_address inc.«end»
      let (run_start, run_len) ←
        match prev_end with
        | some prev =>
          if start ≠ saturatingAdd prev 1 then do
            (match run_start with
             | some s => finalize_run needs s run_len
             | none => pure ())
            pure ((none : Option Nat), 0)
          else pure (run_start, run_len)
        | none => pure (run_start, run_len)
      let run_start := match run_start with
        | none => some start
        | some s => some s
      let offset := start - seg.start_address
      let len := stop - start + 1
      let data := data ++ (seg.data.drop offset).take len
      let run_len := run_len + len
      if seg.end_address ≤ inc.«end» then
        collectLoopF needs fuel segs (inc :: incs) run_start run_len (some stop) data
      else
        collectLoopF needs fuel (seg :: segs) incs run_start run_len (some stop) data

/-- Loop entry point with sufficient fuel. -/
def collectLoop (needs : Bool) (segs : List Segment) (incs : List Range)
    (run_start : Option Nat) (run_len : Nat) (prev_end : Option Nat) (data : List Nat) :
    Except OpsError (List Nat) :=
  collectLoopF needs (segs.length + incs.length) segs incs run_start run_len prev_end data

/-- The `while segments[seg_idx].end < addr` skip that opens each forced-range
emission pass (src/ops/checksum.rs lines 420-422). -/
def skipSegsBefore (addr : Nat) : List Segment → List Segment
  | [] => []
  | seg :: rest => if seg.end_address < addr then skipSegsBefore addr rest else seg :: rest

/-- The per-range emission loop of the forced-range path of
`collect_data_for_checksum` (src/ops/checksum.rs lines 423-456): gaps emit
0xFF, segment overlaps emit their bytes, the consumed segment prefix is
dropped.  `fuel` bounds the loop iterations; each iteration either consumes
a segment or strictly advances `addr` within the range, so
`forcedEmitRange` passes `segs.length * (r.end + 2) + (r.end + 1 - addr)`,
which always suffices. -/
def forcedEmitRangeF (r : Range) :
    Nat → Nat → List Segment → List Nat → List Segment × List Nat
  | 0, _, segs, data => (segs, data)
  | fuel + 1, addr, segs, data =>
    if addr ≤ r.«end» then
      match segs with
      | [] => (segs, data ++ List.replicate (r.«end» - addr + 1) 0xFF)
      | seg :: rest =>
        if seg.start_address > r.«end» then
          (seg :: rest, data ++ List.replicate (r.«end» - addr + 1) 0xFF)
        else if seg.start_address > addr then
          let gap_end := min (saturatingSub seg.start_address 1) r.«end»
          forcedEmitRangeF r fuel (saturatingAdd gap_end 1) (seg :: rest)
            (data ++ List.replicate (gap_end - addr + 1) 0xFF)
        else
          let seg_start := max addr seg.start_address
          let seg_end := min seg.end_address r.«end»
          let offset := seg_start - seg.start_address
          let len := seg_end - seg_start + 1
          let data := data ++ (seg.data.drop offset).take len
          match checkedAdd seg_end 1 with
          | some next =>
            if seg.end_address ≤ seg_end then forcedEmitRangeF r fuel next rest data
            else forcedEmitRangeF r fuel next (seg :: rest) data
          | none => ((if seg.end_address ≤ seg_end then rest else seg :: rest), data)
    else (segs, data)

/-- Loop entry point with sufficient fuel. -/
def forcedEmitRange (r : Range) (addr : Nat) (segs : List Segment) (data : List Nat) :
    List Segment × List Nat :=
  forcedEmitRangeF r (segs.length * (r.«end» + 2) + (r.«end» + 1 - addr)) addr segs data

end H3xy

namespace H3xy

/-- The overlap pieces of the two-pointer collection loop: the skeleton of
`collectLoopF` reduced to the emitted address intervals `(start, stop)`,
in emission order. -/
def overlapPiecesF : Nat → List Segment → List Range → List (Nat × Nat)
  | _, [], _ | _, _ :: _, [] | 0, _ :: _, _ :: _ => []
  | fuel + 1, seg :: segs, inc :: incs =>
    if seg.end_address < inc.start then overlapPiecesF fuel segs (inc :: incs)
    else if seg.start_address > inc.«end» then overlapPiecesF fuel (seg :: segs) incs
    else
      let start := max seg.start_address inc.start
      let stop := min seg.end_address inc.«end»
      (start, stop) ::
        (if seg.end_address ≤ inc.«end» then overlapPiecesF fuel segs (inc :: incs)
         else overlapPiecesF fuel (seg :: segs) incs)

/-- Piece list with sufficient fuel. -/
def overlapPieces (segs : List Segment) (incs : List Range) : List (Nat × Nat) :=
  overlapPiecesF (segs.length + incs.length) segs incs

/-- Run accumulation over emitted pieces, mirroring the run bookkeeping of
the collection loop: a run is a maximal group of consecutive pieces each
starting exactly one past the previous piece's end; the result pairs each
run's start address with its total byte length. -/
def runsFromState : Option Nat → Nat → Option Nat → List (Nat × Nat) → List (Nat × Nat)
  | run_start, run_len, _, [] =>
    (match run_start with
     | some s => [(s, run_len)]
     | none => [])
  | run_start, run_len, prev_end, (st, en) :: rest =>
    match prev_end with
    | some p =>
      if st ≠ saturatingAdd p 1 then
        (match run_start with
         | some s => [(s, run_len)]
         | none => []) ++ runsFromState (some st) (en - st + 1) (some en) rest
      else
        runsFromState (some (match run_start with | some s => s | none => st))
          (run_len + (en - st + 1)) (some en) rest
    | none =>
      runsFromState (some (match run_start with | some s => s | none => st))
        (run_len + (en - st + 1)) (some en) rest

/-- The first word-alignment violation over a run list: an odd run start
yields `AddressNotDivisible`, an even start with odd length
`LengthNotMultiple`, exactly as `finalize_run` checks them in order. -/
def firstBadRun : List (Nat × Nat) → Option OpsError
  | [] => none
  | (s, l) :: rest =>
    if s % 2 ≠ 0 then some (.AddressNotDivisible s 2)
    else if l % 2 ≠ 0 then some (.LengthNotMultiple l 2)
    else firstBadRun rest

/-- Total width of a piece list. -/
def sumWidths (pieces : List (Nat × Nat)) : Nat :=
  (pieces.map (fun p => p.2 - p.1 + 1)).sum

/-- The bytes emitted by the two-pointer collection loop: the skeleton of
`collectLoopF` reduced to the emitted data slices, in emission order. -/
def emitF : Nat → List Segment → List Range → List Nat
  | _, [], _ | _, _ :: _, [] | 0, _ :: _, _ :: _ => []
  | fuel + 1, seg :: segs, inc :: incs =>
    if seg.end_address < inc.start then emitF fuel segs (inc :: incs)
    else if seg.start_address > inc.«end» then emitF fuel (seg :: segs) incs
    else
      let start := max seg.start_address inc.start
      let stop := min seg.end_address inc.«end»
      (seg.data.drop (start - seg.start_address)).take (stop - start + 1) ++
        (if seg.end_address ≤ inc.«end» then emitF fuel segs (inc :: incs)
         else emitF fuel (seg :: segs) incs)

/-- The maximal contiguous runs of payload bytes seen by a checksum
computation, as (start address, byte length) pairs.  With a forced range,
every address of the effective range (the explicit range, or the forced
range) outside the merged excludes contributes a byte (gaps are
pattern-filled), so the runs are the included sub-ranges, coalesced if
adjacent.  Without a forced range, the runs coalesce the overlap pieces of
the normalized segments with the included sub-ranges of the effective
range (explicit, or the image's min/max span). -/
def checksumRuns (hf : HexFile) (options : ChecksumOptions) : List (Nat × Nat) :=
  match options.forced_range with
  | some forced =>
    let range : Range :=
      match options.range with
      | some r => r
      | none => forced.range
    let excludes := merge_ranges (options.exclude_ranges ++ options.target_exclude.toList)
    let include_ranges := subtract_ranges range excludes
    runsFromState none 0 none (include_ranges.map (fun r => (r.start, r.«end»)))
  | none =>
    let working := hf.normalized_lossy
    let effective_range : Option Range :=
      match options.range with
      | some r => some r
      | none =>
        match working.min_address, working.max_address with
        | some mn, some mx =>
          if mn ≤ mx ∧ ¬(mn = 0 ∧ mx = U32MAX) then some ⟨mn, mx⟩ else none
        | _, _ => none
    match effective_range with
    | none => []
    | some range =>
      let excludes := merge_ranges (options.exclude_ranges ++ options.target_exclude.toList)
      let include_ranges := subtract_ranges range excludes
      runsFromState none 0 none (overlapPieces working.segments include_ranges)

/-- The payload bytes a checksum computation without a forced range
collects: the emitted slices of the effective range minus the merged
excludes over the normalized segments. -/
def checksumPayload (hf : HexFile) (options : ChecksumOptions) : List Nat :=
  let working := hf.normalized_lossy
  let effective_range : Option Range :=
    match options.range with
    | some r => some r
    | none =>
      match working.min_address, working.max_address with
      | some mn, some mx =>
        if mn ≤ mx ∧ ¬(mn = 0 ∧ mx = U32MAX) then some ⟨mn, mx⟩ else none
      | _, _ => none
  match effective_range with
  | none => []
  | some range =>
    let excludes := merge_ranges (options.exclude_ranges ++ options.target_exclude.toList)
    let include_ranges := subtract_ranges range excludes
    emitF (working.segments.length + include_ranges.length) working.segments include_ranges

/-- Rust `HexFile::collect_data_for_checksum` (src/ops/checksum.rs lines
293-510).  The capacity pre-computation (lines 342-381) only produces the
vector capacity and can only fail past `usize::MAX`, unreachable for u32
images on 64-bit targets; it is not modelled. -/
def HexFile.collect_data_for_checksum (hf : HexFile) (options : ChecksumOptions) :
    Except OpsError (List Nat) := do
  let normalized := hf.normalized_lossy
  let needs := needsWordAlignment options.algorithm
  let working ←
    match options.forced_range with
    | some forced => do
      let fill ← build_pattern_data forced.range forced.pattern
      let combined := HexFile.new.append_segment ⟨forced.range.start, fill⟩
      let combined := normalized.segments.foldl HexFile.append_segment combined
      pure combined.normalized_lossy
    | none => pure normalized
  let effective_range ←
    match options.range with
    | some r => pure (some r)
    | none =>
      match options.forced_range with
      | some forced => pure (some forced.range)
      | none =>
        match working.min_address, working.max_address with
        | some mn, some mx =>
          match Range.from_start_end mn mx with
          | .ok r => pure (some r)
          | .error _ => throw .AddressOverflow
        | _, _ => pure (none : Option Range)
  match effective_range with
  | none => pure []
  | some range =>
    let excludes := merge_ranges (options.exclude_ranges ++ options.target_exclude.toList)
    let include_ranges := subtract_ranges range excludes
    if include_ranges.isEmpty then pure []
    else if options.forced_range.isSome then do
      for r in include_ranges do
        finalize_run needs r.start r.length
      let st := include_ranges.foldl
        (fun (st : List Segment × List Nat) r =>
          forcedEmitRange r r.start (skipSegsBefore r.start st.1) st.2)
        (working.segments, [])
      pure st.2
    else
      collectLoop needs working.segments include_ranges none 0 none []

/-- Rust `HexFile::calculate_checksum` (src/ops/checksum.rs lines 145-219). -/
def HexFile.calculate_checksum (hf : HexFile) (options : ChecksumOptions) :
    Except OpsError (List Nat) := do
  let data ← hf.collect_data_for_checksum options
  let use_le := Bool.xor options.algorithm.native_little_endian options.little_endian_output
  match options.algorithm with
  | .ByteSumBe | .ByteSumLe => pure (u16_bytes (byte_sum data) use_le)
  | .WordSumBe => do
    let sum ← word_sum_be data
    pure (u16_bytes sum use_le)
  | .WordSumLe => do
    let sum ← word_sum_le data
    pure (u16_bytes sum use_le)
  | .ByteSumTwosComplement => pure (u16_bytes (twosComplement16 (byte_sum data)) use_le)
  | .WordSumBeTwosComplement => do
    let sum ← word_sum_be data
    pure (u16_bytes (twosComplement16 sum) use_le)
  | .WordSumLeTwosComplement => do
    let sum ← word_sum_le data
    pure (u16_bytes (twosComplement16 sum) use_le)
  | .ModularSum => pure (u16_bytes (byte_sum data) use_le)
  | .Crc16 => pure (u16_bytes (crc16_arc data) use_le)
  | .Crc32 => pure (u32_bytes (crc32_iso_hdlc data) use_le)
  | .Crc16CcittLe | .Crc16CcittBe => pure (u16_bytes (crc16_ibm_sdlc data) use_le)
  | .Crc16CcittLeInit0 | .Crc16CcittBeInit0 => pure (u16_bytes (crc16_xmodem data) use_le)

/-- Rust `HexFile::checksum` (src/ops/checksum.rs lines 222-289): derive the
target exclusion, compute, then write at the placement target.  Returns the
checksum bytes together with the post-call image. -/
def HexFile.checksum (hf : HexFile) (options : ChecksumOptions) (target : ChecksumTarget) :
    Except OpsError (List Nat × HexFile) := do
  let size := options.algorithm.result_size
  let effective_options :=
    match target with
    | .Address addr =>
      match Range.from_start_length addr size with
      | .ok target_range => { options with target_exclude := some target_range }
      | .error _ => options
    | .OverwriteEnd =>
      match hf.max_address with
      | some e =>
        match checkedSub e (saturatingSub size 1) with
        | some write_addr =>
          match Range.from_start_length write_addr size with
          | .ok target_range => { options with target_exclude := some target_range }
          | .error _ => options
        | none => options
      | none => options
    | _ => options
  let result ← hf.calculate_checksum effective_options
  match target with
  | .Address addr => pure (result, hf.write_bytes addr result)
  | .Append =>
    match hf.max_address with
    | some e =>
      match checkedAdd e 1 with
      | some addr => pure (result, hf.write_bytes addr result)
      | none => throw .AddressOverflow
    | none => pure (result, hf)
  | .Prepend =>
    match hf.min_address with
    | some start =>
      match checkedSub start result.length with
      | some new_start => pure (result, hf.write_bytes new_start result)
      | none => throw .AddressOverflow
    | none => pure (result, hf)
  | .OverwriteEnd =>
    match hf.max_address with
    | some e =>
      match checkedSub e (saturatingSub result.length 1) with
      | some write_addr => pure (result, hf.write_bytes write_addr result)
      | none => throw .AddressOverflow
    | none => pure (result, hf)
  | .File _ => pure (result, hf)

end H3xy

namespace H3xy

/-! ### Log commands (src/ops/log.rs) -/

/-- Log command kinds (src/ops/log.rs lines 7-12); paths are strings. -/
inductive LogCommandKind where
  | FileOpen (path : String) : LogCommandKind
  | FileClose : LogCommandKind
  | FileNew : LogCommandKind
  deriving Repr, DecidableEq

/-- A parsed log command (src/ops/log.rs lines 14-18). -/
structure LogCommand where
  line : Nat
  kind : LogCommandKind
  deriving Repr, DecidableEq

/-- Log errors (src/ops/log.rs lines 20-37); `ε` is the loader error type. -/
inductive LogError (ε : Type) where
  | MissingFilename (line : Nat) : LogError ε
  | UnsupportedCommand (command : String) (line : Nat) : LogError ε
  | Load (line : Nat) (source : ε) : LogError ε

/-- Rust `execute_log_commands` (src/ops/log.rs lines 87-112): `FileOpen`
replaces the image with the loaded one, `FileClose`/`FileNew` with the
empty image; loader failures carry the command's line. -/
def execute_log_commands {ε : Type} (hf : HexFile) (commands : List LogCommand)
    (load : String → Except ε HexFile) : Except (LogError ε) HexFile :=
  commands.foldlM (fun hf command =>
    match command.kind with
    | .FileOpen path =>
      match load path with
      | .ok loaded => .ok loaded
      | .error err => .error (.Load command.line err)
    | .FileClose | .FileNew => .ok HexFile.new) hf

/-! ### Flag wrappers (src/ops/flags.rs) -/

/-- Rust `flag_fill_ranges_pattern` (src/ops/flags.rs lines 11-22). -/
def flag_fill_ranges_pattern (hf : HexFile) (ranges : List Range) (pattern : List Nat) :
    HexFile :=
  if ranges.isEmpty ∨ pattern.isEmpty then hf
  else ranges.foldl (fun hf range => hf.fill range ⟨pattern, false⟩) hf

/-- Rust `flag_fill_ranges_random` (src/ops/flags.rs lines 25-33). -/
def flag_fill_ranges_random (hf : HexFile) (ranges : List Range)
    (random : Range → List Nat) : HexFile :=
  ranges.foldl (fun hf range => hf.prepend_segment ⟨range.start, random range⟩) hf

/-- Rust `flag_cut_ranges` (src/ops/flags.rs lines 61-63). -/
def flag_cut_ranges (hf : HexFile) (ranges : List Range) : HexFile :=
  hf.cut_ranges ranges

/-- Rust `flag_merge_transparent` (src/ops/flags.rs lines 66-80); the merge
itself cannot fail. -/
def flag_merge_transparent (hf : HexFile) (other : HexFile) (offset : Int)
    (range : Option Range) : HexFile :=
  hf.merge other ⟨.Preserve, offset, range⟩

/-- Rust `flag_merge_opaque` (src/ops/flags.rs lines 83-97). -/
def flag_merge_opaque (hf : HexFile) (other : HexFile) (offset : Int)
    (range : Option Range) : HexFile :=
  hf.merge other ⟨.Overwrite, offset, range⟩

/-- Rust `flag_filter_ranges` (src/ops/flags.rs lines 100-104): empty list
is a no-op at this level. -/
def flag_filter_ranges (hf : HexFile) (ranges : List Range) : HexFile :=
  if ranges.isEmpty then hf else hf.filter_ranges ranges

/-- Rust `flag_fill_all` (src/ops/flags.rs lines 107-109). -/
def flag_fill_all (hf : HexFile) (fill_byte : Nat) : HexFile :=
  hf.fill_gaps fill_byte

/-- Rust `flag_align` (src/ops/flags.rs lines 112-126). -/
def flag_align (hf : HexFile) (alignment : Nat) (fill_byte : Nat) (align_length : Bool) :
    Except OpsError HexFile :=
  (hf.align ⟨alignment, fill_byte, align_length⟩).mapError
    (fun e => e.with_context "/AD/AL")

/-- Rust `flag_split` (src/ops/flags.rs lines 129-131). -/
def flag_split (hf : HexFile) (size : Nat) : HexFile :=
  hf.split size

/-- Rust `flag_swap_word` (src/ops/flags.rs lines 134-138). -/
def flag_swap_word (hf : HexFile) : Except OpsError HexFile :=
  (hf.swap_bytes .Word).mapError (fun e => e.with_context "/SWAPWORD")

/-- Rust `flag_swap_long` (src/ops/flags.rs lines 141-145). -/
def flag_swap_long (hf : HexFile) : Except OpsError HexFile :=
  (hf.swap_bytes .DWord).mapError (fun e => e.with_context "/SWAPLONG")

/-- Rust `flag_remap` (src/ops/flags.rs lines 148-150). -/
def flag_remap (hf : HexFile) (options : RemapOptions) : Except OpsError HexFile :=
  match hf.remap options with
  | (hf', none) => .ok hf'
  | (_, some e) => .error (e.with_context "/REMAP")

/-- Rust `flag_map_star12` (src/ops/flags.rs lines 153-155). -/
def flag_map_star12 (hf : HexFile) : Except OpsError HexFile :=
  match hf.map_star12 with
  | (hf', none) => .ok hf'
  | (_, some e) => .error (e.with_context "/S12MAP")

/-- Rust `flag_map_star12x` (src/ops/flags.rs lines 158-162). -/
def flag_map_star12x (hf : HexFile) : Except OpsError HexFile :=
  match hf.map_star12x with
  | (hf', none) => .ok hf'
  | (_, some e) => .error (e.with_context "/S12XMAP")

/-- Rust `flag_map_star08` (src/ops/flags.rs lines 165-167). -/
def flag_map_star08 (hf : HexFile) : Except OpsError HexFile :=
  match hf.map_star08 with
  | (hf', none) => .ok hf'
  | (_, some e) => .error (e.with_context "/S08MAP")

/-- Rust `flag_checksum` (src/ops/flags.rs lines 199-219). -/
def flag_checksum (hf : HexFile) (algorithm : ChecksumAlgorithm) (range : Option Range)
    (little_endian_output : Bool) (forced_range : Option ForcedRange)
    (exclude_ranges : List Range) (target : ChecksumTarget) :
    Except OpsError (List Nat × HexFile) :=
  let context := if little_endian_output then "/CSR" else "/CS"
  let options : ChecksumOptions :=
    ⟨algorithm, range, little_endian_output, forced_range, exclude_ranges, none⟩
  (hf.checksum options target).mapError (fun e => e.with_context context)

/-! ### Pipeline (src/ops/pipeline.rs) -/

/-- One merge input (src/ops/pipeline.rs lines 16-21). -/
structure PipelineMerge where
  other : HexFile
  offset : Int
  range : Option Range
  deriving Repr, DecidableEq

/-- The checksum stage inputs (src/ops/pipeline.rs lines 23-31). -/
structure PipelineChecksum where
  algorithm : ChecksumAlgorithm
  range : Option Range
  little_endian_output : Bool
  forced_range : Option ForcedRange
  exclude_ranges : List Range
  target : ChecksumTarget
  deriving Repr, DecidableEq

/-- The pipeline description (src/ops/pipeline.rs lines 33-53). -/
structure Pipeline where
  hexfile : HexFile
  fill_ranges : List Range
  fill_pattern : Option (List Nat)
  cut_ranges : List Range
  merge_transparent : List PipelineMerge
  merge_opaque : List PipelineMerge
  address_ranges : List Range
  log_commands : Option (List LogCommand)
  fill_all : Option Nat
  align : Option AlignOptions
  split : Option Nat
  swap_word : Bool
  swap_long : Bool
  checksum : Option PipelineChecksum
  map_star12 : Bool
  map_star12x : Bool
  map_star08 : Bool
  remap : Option RemapOptions
  deriving Repr, DecidableEq

/-- Pipeline error (src/ops/pipeline.rs lines 80-86). -/
inductive PipelineError (ε : Type) where
  | Ops (e : OpsError) : PipelineError ε
  | Log (e : LogError ε) : PipelineError ε

/-- Pipeline result (src/ops/pipeline.rs lines 88-92). -/
structure PipelineResult where
  hexfile : HexFile
  checksum_bytes : Option (List Nat)
  deriving Repr, DecidableEq

/-- Rust `Pipeline::execute` (src/ops/pipeline.rs lines 94-183). -/
def Pipeline.execute {ε : Type} (p : Pipeline) (random_fill : Range → List Nat)
    (log_loader : String → Except ε HexFile) :
    Except (PipelineError ε) PipelineResult := do
  let mut hexfile := p.hexfile
  if p.map_star12 then
    hexfile ← (flag_map_star12 hexfile).mapError PipelineError.Ops
  if p.map_star12x then
    hexfile ← (flag_map_star12x hexfile).mapError PipelineError.Ops
  if p.map_star08 then
    hexfile ← (flag_map_star08 hexfile).mapError PipelineError.Ops
  match p.remap with
  | some remap => hexfile ← (flag_remap hexfile remap).mapError PipelineError.Ops
  | none => pure ()
  match p.fill_pattern with
  | some pattern => hexfile := flag_fill_ranges_pattern hexfile p.fill_ranges pattern
  | none => hexfile := flag_fill_ranges_random hexfile p.fill_ranges random_fill
  hexfile := flag_cut_ranges hexfile p.cut_ranges
  for merge in p.merge_transparent do
    hexfile := flag_merge_transparent hexfile merge.other merge.offset merge.range
  for merge in p.merge_opaque do
    hexfile := flag_merge_opaque hexfile merge.other merge.offset merge.range
  hexfile := flag_filter_ranges hexfile p.address_ranges
  match p.log_commands with
  | some commands =>
    hexfile ← (execute_log_commands hexfile commands log_loader).mapError PipelineError.Log
  | none => pure ()
  match p.fill_all with
  | some fill_byte => hexfile := flag_fill_all hexfile fill_byte
  | none => pure ()
  match p.align with
  | some align =>
    hexfile ← (flag_align hexfile align.alignment align.fill_byte align.align_length).mapError
      PipelineError.Ops
  | none => pure ()
  match p.split with
  | some size => hexfile := flag_split hexfile size
  | none => pure ()
  if p.swap_word then
    hexfile ← (flag_swap_word hexfile).mapError PipelineError.Ops
  if p.swap_long then
    hexfile ← (flag_swap_long hexfile).mapError PipelineError.Ops
  let mut checksum_bytes : Option (List Nat) := none
  match p.checksum with
  | some cs =>
    let r ← (flag_checksum hexfile cs.algorithm cs.range cs.little_endian_output
      cs.forced_range cs.exclude_ranges cs.target).mapError PipelineError.Ops
    hexfile := r.2
    checksum_bytes := some r.1
  | none => pure ()
  pure ⟨hexfile, checksum_bytes⟩

/-! ### The spec's stage chain (spec section 4.2), stage by stage -/

/-- Spec stage chain from the checksum stage (the last stage). -/
def specFromChecksum (ε : Type) (p : Pipeline) (hf : HexFile) :
    Except (PipelineError ε) PipelineResult :=
  match p.checksum with
  | some cs => do
    let r ← (flag_checksum hf cs.algorithm cs.range cs.little_endian_output
      cs.forced_range cs.exclude_ranges cs.target).mapError PipelineError.Ops
    pure ⟨r.2, some r.1⟩
  | none => pure ⟨hf, none⟩

/-- Spec stage chain from the long-swap stage. -/
def specFromSwapLong (ε : Type) (p : Pipeline) (hf : HexFile) :
    Except (PipelineError ε) PipelineResult := do
  let hf ← if p.swap_long then (flag_swap_long hf).mapError PipelineError.Ops else pure hf
  specFromChecksum ε p hf

/-- Spec stage chain from the word-swap stage. -/
def specFromSwapWord (ε : Type) (p : Pipeline) (hf : HexFile) :
    Except (PipelineError ε) PipelineResult := do
  let hf ← if p.swap_word then (flag_swap_word hf).mapError PipelineError.Ops else pure hf
  specFromSwapLong ε p hf

/-- Spec stage chain from the split stage. -/
def specFromSplit (ε : Type) (p : Pipeline) (hf : HexFile) :
    Except (PipelineError ε) PipelineResult := do
  let hf := match p.split with
    | some size => flag_split hf size
    | none => hf
  specFromSwapWord ε p hf

/-- Spec stage chain from the align stage. -/
def specFromAlign (ε : Type) (p : Pipeline) (hf : HexFile) :
    Except (PipelineError ε) PipelineResult := do
  let hf ← match p.align with
    | some o =>
      (flag_align hf o.alignment o.fill_byte o.align_length).mapError PipelineError.Ops
    | none => pure hf
  specFromSplit ε p hf

/-- Spec stage chain from the fill-all-gaps stage. -/
def specFromFillAll (ε : Type) (p : Pipeline) (hf : HexFile) :
    Except (PipelineError ε) PipelineResult := do
  let hf := match p.fill_all with
    | some fill_byte => flag_fill_all hf fill_byte
    | none => hf
  specFromAlign ε p hf

/-- Spec stage chain from the log-command stage. -/
def specFromLog (ε : Type) (p : Pipeline) (log_loader : String → Except ε HexFile)
    (hf : HexFile) : Except (PipelineError ε) PipelineResult := do
  let hf ← match p.log_commands with
    | some commands => (execute_log_commands hf commands log_loader).mapError PipelineError.Log
    | none => pure hf
  specFromFillAll ε p hf

/-- Spec stage chain from the opaque-merge stage (merges in list order,
then the address-range filter). -/
def specFromMergeO (ε : Type) (p : Pipeline) (log_loader : String → Except ε HexFile)
    (hf : HexFile) : Except (PipelineError ε) PipelineResult := do
  let hf := p.merge_opaque.foldl
    (fun hf m => flag_merge_opaque hf m.other m.offset m.range) hf
  let hf := flag_filter_ranges hf p.address_ranges
  specFromLog ε p log_loader hf

/-- Spec stage chain from the transparent-merge stage (merges in list
order). -/
def specFromMergeT (ε : Type) (p : Pipeline) (log_loader : String → Except ε HexFile)
    (hf : HexFile) : Except (PipelineError ε) PipelineResult := do
  let hf := p.merge_transparent.foldl
    (fun hf m => flag_merge_transparent hf m.other m.offset m.range) hf
  specFromMergeO ε p log_loader hf

/-- Spec stage chain from the fill stage (pattern fill if a pattern was
given, random fill otherwise, then cut ranges). -/
def specFromFill (ε : Type) (p : Pipeline) (random_fill : Range → List Nat)
    (log_loader : String → Except ε HexFile) (hf : HexFile) :
    Except (PipelineError ε) PipelineResult := do
  let hf := match p.fill_pattern with
    | some pattern => flag_fill_ranges_pattern hf p.fill_ranges pattern
    | none => flag_fill_ranges_random hf p.fill_ranges random_fill
  let hf := flag_cut_ranges hf p.cut_ranges
  specFromMergeT ε p log_loader hf

/-- Spec stage chain from the generic banked-remap stage. -/
def specFromRemap (ε : Type) (p : Pipeline) (random_fill : Range → List Nat)
    (log_loader : String → Except ε HexFile) (hf : HexFile) :
    Except (PipelineError ε) PipelineResult := do
  let hf ← match p.remap with
    | some o => (flag_remap hf o).mapError PipelineError.Ops
    | none => pure hf
  specFromFill ε p random_fill log_loader hf

/-- Spec stage chain from the S08 preset-map stage. -/
def specFromStar08 (ε : Type) (p : Pipeline) (random_fill : Range → List Nat)
    (log_loader : String → Except ε HexFile) (hf : HexFile) :
    Except (PipelineError ε) PipelineResult := do
  let hf ← if p.map_star08 then (flag_map_star08 hf).mapError PipelineError.Ops
           else pure hf
  specFromRemap ε p random_fill log_loader hf

/-- Spec stage chain from the S12X preset-map stage. -/
def specFromStar12x (ε : Type) (p : Pipeline) (random_fill : Range → List Nat)
    (log_loader : String → Except ε HexFile) (hf : HexFile) :
    Except (PipelineError ε) PipelineResult := do
  let hf ← if p.map_star12x then (flag_map_star12x hf).mapError PipelineError.Ops
           else pure hf
  specFromStar08 ε p random_fill log_loader hf

/-- The pipeline stage order exactly as the specification states it (spec
section 4.2): preset address mapping (S12, S12X, S08), generic remap, fill
ranges (pattern or random), cut ranges, transparent merges in list order,
opaque merges in list order, address-range filter, log commands,
fill-all-gaps, align, split, swap word then swap long, checksum; each
stage is skipped when its inputs are absent, and each stage sees the
result of all earlier stages. -/
def executeStagesSpec {ε : Type} (p : Pipeline) (random_fill : Range → List Nat)
    (log_loader : String → Except ε HexFile) :
    Except (PipelineError ε) PipelineResult := do
  let hf ← if p.map_star12 then (flag_map_star12 p.hexfile).mapError PipelineError.Ops
           else pure p.hexfile
  specFromStar12x ε p random_fill log_loader hf

/-! ### Suffixes of `Pipeline.execute`, statement for statement -/

/-- `Pipeline.execute` from its checksum stage on. -/
def runFromChecksum (ε : Type) (p : Pipeline) (hf0 : HexFile) :
    Except (PipelineError ε) PipelineResult := do
  let mut hexfile := hf0
  let mut checksum_bytes : Option (List Nat) := none
  match p.checksum with
  | some cs =>
    let r ← (flag_checksum hexfile cs.algorithm cs.range cs.little_endian_output
      cs.forced_range cs.exclude_ranges cs.target).mapError PipelineError.Ops
    hexfile := r.2
    checksum_bytes := some r.1
  | none => pure ()
  pure ⟨hexfile, checksum_bytes⟩

/-- `Pipeline.execute` from its long-swap stage on. -/
def runFromSwapLong (ε : Type) (p : Pipeline) (hf0 : HexFile) :
    Except (PipelineError ε) PipelineResult := do
  let mut hexfile := hf0
  if p.swap_long then
    hexfile ← (flag_swap_long hexfile).mapError PipelineError.Ops
  runFromChecksum ε p hexfile

/-- `Pipeline.execute` from its word-swap stage on. -/
def runFromSwapWord (ε : Type) (p : Pipeline) (hf0 : HexFile) :
    Except (PipelineError ε) PipelineResult := do
  let mut hexfile := hf0
  if p.swap_word then
    hexfile ← (flag_swap_word hexfile).mapError PipelineError.Ops
  runFromSwapLong ε p hexfile

/-- `Pipeline.execute` from its split stage on. -/
def runFromSplit (ε : Type) (p : Pipeline) (hf0 : HexFile) :
    Except (PipelineError ε) PipelineResult := do
  let mut hexfile := hf0
  match p.split with
  | some size => hexfile := flag_split hexfile size
  | none => pure ()
  runFromSwapWord ε p hexfile

/-- `Pipeline.execute` from its align stage on. -/
def runFromAlign (ε : Type) (p : Pipeline) (hf0 : HexFile) :
    Except (PipelineError ε) PipelineResult := do
  let mut hexfile := hf0
  match p.align with
  | some align =>
    hexfile ← (flag_align hexfile align.alignment align.fill_byte align.align_length).mapError
      PipelineError.Ops
  | none => pure ()
  runFromSplit ε p hexfile

/-- `Pipeline.execute` from its fill-all-gaps stage on. -/
def runFromFillAll (ε : Type) (p : Pipeline) (hf0 : HexFile) :
    Except (PipelineError ε) PipelineResult := do
  let mut hexfile := hf0
  match p.fill_all with
  | some fill_byte => hexfile := flag_fill_all hexfile fill_byte
  | none => pure ()
  runFromAlign ε p hexfile

/-- `Pipeline.execute` from its log-command stage on. -/
def runFromLog (ε : Type) (p : Pipeline) (log_loader : String → Except ε HexFile)
    (hf0 : HexFile) : Except (PipelineError ε) PipelineResult := do
  let mut hexfile := hf0
  match p.log_commands with
  | some commands =>
    hexfile ← (execute_log_commands hexfile commands log_loader).mapError PipelineError.Log
  | none => pure ()
  runFromFillAll ε p hexfile

/-- `Pipeline.execute` from its opaque-merge stage on. -/
def runFromMergeO (ε : Type) (p : Pipeline) (log_loader : String → Except ε HexFile)
    (hf0 : HexFile) : Except (PipelineError ε) PipelineResult := do
  let mut hexfile := hf0
  for merge in p.merge_opaque do
    hexfile := flag_merge_opaque hexfile merge.other merge.offset merge.range
  hexfile := flag_filter_ranges hexfile p.address_ranges
  runFromLog ε p log_loader hexfile

/-- `Pipeline.execute` from its transparent-merge stage on. -/
def runFromMergeT (ε : Type) (p : Pipeline) (log_loader : String → Except ε HexFile)
    (hf0 : HexFile) : Except (PipelineError ε) PipelineResult := do
  let mut hexfile := hf0
  for merge in p.merge_transparent do
    hexfile := flag_merge_transparent hexfile merge.other merge.offset merge.range
  runFromMergeO ε p log_loader hexfile

/-- `Pipeline.execute` from its fill stage on. -/
def runFromFill (ε : Type) (p : Pipeline) (random_fill : Range → List Nat)
    (log_loader : String → Except ε HexFile) (hf0 : HexFile) :
    Except (PipelineError ε) PipelineResult := do
  let mut hexfile := hf0
  match p.fill_pattern with
  | some pattern => hexfile := flag_fill_ranges_pattern hexfile p.fill_ranges pattern
  | none => hexfile := flag_fill_ranges_random hexfile p.fill_ranges random_fill
  hexfile := flag_cut_ranges hexfile p.cut_ranges
  runFromMergeT ε p log_loader hexfile

/-- `Pipeline.execute` from its remap stage on. -/
def runFromRemap (ε : Type) (p : Pipeline) (random_fill : Range → List Nat)
    (log_loader : String → Except ε HexFile) (hf0 : HexFile) :
    Except (PipelineError ε) PipelineResult := do
  let mut hexfile := hf0
  match p.remap with
  | some remap => hexfile ← (flag_remap hexfile remap).mapError PipelineError.Ops
  | none => pure ()
  runFromFill ε p random_fill log_loader hexfile

/-- `Pipeline.execute` from its S08 preset-map stage on. -/
def runFromStar08 (ε : Type) (p : Pipeline) (random_fill : Range → List Nat)
    (log_loader : String → Except ε HexFile) (hf0 : HexFile) :
    Except (PipelineError ε) PipelineResult := do
  let mut hexfile := hf0
  if p.map_star08 then
    hexfile ← (flag_map_star08 hexfile).mapError PipelineError.Ops
  runFromRemap ε p random_fill log_loader hexfile

/-- `Pipeline.execute` from its S12X preset-map stage on. -/
def runFromStar12x (ε : Type) (p : Pipeline) (random_fill : Range → List Nat)
    (log_loader : String → Except ε HexFile) (hf0 : HexFile) :
    Except (PipelineError ε) PipelineResult := do
  let mut hexfile := hf0
  if p.map_star12x then
    hexfile ← (flag_map_star12x hexfile).mapError PipelineError.Ops
  runFromStar08 ε p random_fill log_loader hexfile

end H3xy

namespace H3xy

/-! ### Codec errors (src/io/error.rs) -/

/-- Parse errors (src/io/error.rs); message strings are dropped, structured
payloads kept. -/
inductive ParseError where
  | InvalidRecord (line : Nat) : ParseError
  | ChecksumMismatch (line expected actual : Nat) : ParseError
  | UnexpectedEof : ParseError
  | AddressOverflow : ParseError
  | InvalidHexDigit (line ch : Nat) : ParseError
  | UnsupportedRecordType (line record_type : Nat) : ParseError
  deriving Repr, DecidableEq

/-- Rust `normalized_sorted_segments` (src/io/mod.rs lines 19-23). -/
def normalized_sorted_segments (hf : HexFile) : List Segment :=
  sortByStart hf.normalized_lossy.segments

/-- A UTF-8 continuation byte. -/
def utf8Cont (c : Nat) : Bool := decide (0x80 ≤ c ∧ c ≤ 0xBF)

/-- Validity check of `std::str::from_utf8` (byte-level UTF-8 well-formedness),
performed at the top of `parse_intel_hex`. -/
def utf8Valid : List Nat → Bool
  | [] => true
  | b :: rest =>
    if b ≤ 0x7F then utf8Valid rest
    else if 0xC2 ≤ b ∧ b ≤ 0xDF then
      match rest with
      | c1 :: rest' => utf8Cont c1 && utf8Valid rest'
      | [] => false
    else if b = 0xE0 then
      match rest with
      | c1 :: c2 :: rest' =>
        decide (0xA0 ≤ c1 ∧ c1 ≤ 0xBF) && utf8Cont c2 && utf8Valid rest'
      | _ => false
    else if (0xE1 ≤ b ∧ b ≤ 0xEC) ∨ b = 0xEE ∨ b = 0xEF then
      match rest with
      | c1 :: c2 :: rest' => utf8Cont c1 && utf8Cont c2 && utf8Valid rest'
      | _ => false
    else if b = 0xED then
      match rest with
      | c1 :: c2 :: rest' =>
        decide (0x80 ≤ c1 ∧ c1 ≤ 0x9F) && utf8Cont c2 && utf8Valid rest'
      | _ => false
    else if b = 0xF0 then
      match rest with
      | c1 :: c2 :: c3 :: rest' =>
        decide (0x90 ≤ c1 ∧ c1 ≤ 0xBF) && utf8Cont c2 && utf8Cont c3 && utf8Valid rest'
      | _ => false
    else if 0xF1 ≤ b ∧ b ≤ 0xF3 then
      match rest with
      | c1 :: c2 :: c3 :: rest' =>
        utf8Cont c1 && utf8Cont c2 && utf8Cont c3 && utf8Valid rest'
      | _ => false
    else if b = 0xF4 then
      match rest with
      | c1 :: c2 :: c3 :: rest' =>
        decide (0x80 ≤ c1 ∧ c1 ≤ 0x8F) && utf8Cont c2 && utf8Cont c3 && utf8Valid rest'
      | _ => false
    else false

/-- Byte-level split on a separator, keeping the (possibly empty) trailing
piece, as Rust `slice::split` does.  For `str::lines` the phantom trailing
empty piece is skipped by the parsers as a blank line. -/
def splitOnByte (sep : Nat) : List Nat → List (List Nat)
  | [] => [[]]
  | b :: rest =>
    let r := splitOnByte sep rest
    if b = sep then [] :: r
    else
      match r with
      | h :: t => (b :: h) :: t
      | [] => [[b]]

/-- ASCII whitespace test; Rust `str::trim` additionally strips rare Unicode
whitespace code points, which cannot occur in hex record lines. -/
def isAsciiWs (b : Nat) : Bool := decide (b = 0x20 ∨ (0x09 ≤ b ∧ b ≤ 0x0D))

/-- Rust `str::trim` on a byte list (ASCII whitespace). -/
def trimAscii (l : List Nat) : List Nat :=
  ((l.dropWhile isAsciiWs).reverse.dropWhile isAsciiWs).reverse

/-! ### Intel-HEX codec (src/io/intel_hex.rs) -/

/-- Rust `hex_digit` (src/io/intel_hex.rs lines 349-359). -/
def hex_digit (b line_num : Nat) : Except ParseError Nat :=
  if 0x30 ≤ b ∧ b ≤ 0x39 then .ok (b - 0x30)
  else if 0x41 ≤ b ∧ b ≤ 0x46 then .ok (b - 0x41 + 10)
  else if 0x61 ≤ b ∧ b ≤ 0x66 then .ok (b - 0x61 + 10)
  else .error (.InvalidHexDigit line_num b)

/-- The `chunks_exact(2)` decoding loop of `parse_hex_bytes`; a trailing odd
byte is ignored (the caller has already rejected odd lengths). -/
def hexPairsGo (line_num : Nat) : List Nat → Except ParseError (List Nat)
  | h :: l :: rest => do
    let hi ← hex_digit h line_num
    let lo ← hex_digit l line_num
    let out ← hexPairsGo line_num rest
    pure ((hi * 16 + lo) :: out)
  | _ => .ok []

/-- Rust `parse_hex_bytes` (src/io/intel_hex.rs lines 330-347); the S-Record
decoder (src/io/srec.rs lines 214-239) has identical behaviour. -/
def parse_hex_bytes (hex : List Nat) (line_num : Nat) : Except ParseError (List Nat) :=
  if hex.length % 2 ≠ 0 then .error (.InvalidRecord line_num)
  else hexPairsGo line_num hex

/-- Wrapping byte sum mod 256. -/
def byteSum256 (l : List Nat) : Nat :=
  l.foldl (fun acc b => (acc + b) % 256) 0

/-- Rust `validate_checksum` (src/io/intel_hex.rs lines 361-376). -/
def validate_checksum (bytes : List Nat) (line_num : Nat) : Except ParseError Unit :=
  if byteSum256 bytes ≠ 0 then
    let actual := bytes.getLast?.getD 0
    let expected := ((255 - byteSum256 bytes.dropLast) + 1) % 256
    .error (.ChecksumMismatch line_num expected actual)
  else .ok ()

/-- The mutable state of the `parse_intel_hex` record loop. -/
structure IHexState where
  segments : List Segment
  current_segment : Option Segment
  extended_address : Nat
  eof_seen : Bool
  deriving Repr, DecidableEq

/-- One line of the `parse_intel_hex` loop (src/io/intel_hex.rs lines 44-169). -/
def parseIntelHexLine (st : IHexState) (rawLine : List Nat) (line_num : Nat) :
    Except ParseError IHexState := do
  let line := trimAscii rawLine
  if line.isEmpty then pure st
  else if st.eof_seen then throw (.InvalidRecord line_num)
  else if line.head?.getD 0 ≠ 0x3A then throw (.InvalidRecord line_num)
  else
    let hex_str := line.tail
    if hex_str.length < 10 then throw (.InvalidRecord line_num)
    else do
      let bytes ← parse_hex_bytes hex_str line_num
      validate_checksum bytes line_num
      let byte_count := bytes.headD 0
      if bytes.length < 5 + byte_count then throw (.InvalidRecord line_num)
      else if bytes.length ≠ 5 + byte_count then throw (.InvalidRecord line_num)
      else
        let address := bytes.getD 1 0 * 256 + bytes.getD 2 0
        let record_type := bytes.getD 3 0
        let data := (bytes.drop 4).take byte_count
        match record_type with
        | 0 => do
          let full_address ←
            match checkedAdd st.extended_address address with
            | some v => pure v
            | none => throw ParseError.AddressOverflow
          if byte_count > 0 then
            match checkedAdd full_address (byte_count - 1) with
            | some _ => pure ()
            | none => throw ParseError.AddressOverflow
          else pure ()
          match st.current_segment with
          | some seg =>
            if checkedAdd seg.end_address 1 = some full_address then
              pure { st with current_segment := some ⟨seg.start_address, seg.data ++ data⟩ }
            else
              pure { st with segments := st.segments ++ [seg],
                             current_segment := some ⟨full_address, data⟩ }
          | none => pure { st with current_segment := some ⟨full_address, data⟩ }
        | 1 => pure { st with eof_seen := true }
        | 2 =>
          if byte_count ≠ 2 then throw (.InvalidRecord line_num)
          else
            let base := data.getD 0 0 * 256 + data.getD 1 0
            pure { st with segments := st.segments ++ st.current_segment.toList,
                           current_segment := none,
                           extended_address := base * 16 }
        | 4 =>
          if byte_count ≠ 2 then throw (.InvalidRecord line_num)
          else
            let base := data.getD 0 0 * 256 + data.getD 1 0
            pure { st with segments := st.segments ++ st.current_segment.toList,
                           current_segment := none,
                           extended_address := base * 65536 }
        | 3 => pure st
        | 5 => pure st
        | _ => throw (.UnsupportedRecordType line_num record_type)

/-- The enumerated line fold of `parse_intel_hex`. -/
def parseIntelHexLines (st : IHexState) (line_num : Nat) :
    List (List Nat) → Except ParseError IHexState
  | [] => pure st
  | l :: rest => do
    let st' ← parseIntelHexLine st l line_num
    parseIntelHexLines st' (line_num + 1) rest

/-- ASCII bytes of a string literal, for concrete codec inputs. -/
def asciiBytes (s : String) : List Nat := s.data.map Char.toNat

/-- Rust `parse_intel_hex` (src/io/intel_hex.rs lines 33-180). -/
def parse_intel_hex (input : List Nat) : Except ParseError HexFile := do
  if !utf8Valid input then throw (.InvalidRecord 1)
  else do
    let st ← parseIntelHexLines ⟨[], none, 0, false⟩ 1 (splitOnByte 0x0A input)
    if !st.eof_seen then throw ParseError.UnexpectedEof
    else pure (HexFile.with_segments (st.segments ++ st.current_segment.toList))

/-- Intel-HEX write mode (src/io/intel_hex.rs lines 9-15). -/
inductive IntelHexMode where
  | Auto : IntelHexMode
  | ExtendedLinear : IntelHexMode
  | ExtendedSegment : IntelHexMode
  deriving Repr, DecidableEq

/-- Intel-HEX write options (src/io/intel_hex.rs lines 17-30); the Rust
`Default` is `{ bytes_per_line: 32, mode: Auto }`. -/
structure IntelHexWriteOptions where
  bytes_per_line : Nat
  mode : IntelHexMode
  deriving Repr, DecidableEq

/-- Rust `IntelHexWriteOptions::default()`. -/
def IntelHexWriteOptions.default : IntelHexWriteOptions := ⟨32, .Auto⟩

/-- Rust `write_hex_byte` (src/io/intel_hex.rs lines 311-315): two uppercase
hex digit bytes. -/
def write_hex_byte (byte : Nat) : List Nat :=
  let hexChar := fun (n : Nat) => if n < 10 then 0x30 + n else 0x41 + (n - 10)
  [hexChar (byte / 16 % 16), hexChar (byte % 16)]

/-- Rust `write_record` (src/io/intel_hex.rs lines 285-309). -/
def write_record (record_type address : Nat) (data : List Nat) : List Nat :=
  let byte_count := data.length % 256
  let addr_hi := address / 256 % 256
  let addr_lo := address % 256
  let checksum :=
    ((255 - (byte_count + addr_hi + addr_lo + record_type % 256 + byteSum256 data) % 256) + 1)
      % 256
  0x3A :: (write_hex_byte byte_count ++ write_hex_byte addr_hi ++ write_hex_byte addr_lo
    ++ write_hex_byte (record_type % 256) ++ data.flatMap write_hex_byte
    ++ write_hex_byte checksum ++ [0x0A])

/-- Rust `normalize_crlf` inner loop (src/io/intel_hex.rs lines 317-328). -/
def normalizeCrlfGo (prev : Nat) : List Nat → List Nat
  | [] => []
  | b :: rest =>
    (if b = 0x0A ∧ prev ≠ 0x0D then [0x0D, b] else [b]) ++ normalizeCrlfGo b rest

/-- Rust `normalize_crlf` (src/io/intel_hex.rs lines 317-328). -/
def normalize_crlf (data : List Nat) : List Nat := normalizeCrlfGo 0 data

/-- The writer state of `write_intel_hex`: output plus the extended-base
record tracking. -/
structure IHexWriterState where
  output : List Nat
  current_extended : Option Nat
  current_mode : Option IntelHexMode
  deriving Repr, DecidableEq

/-- The per-segment record emission loop of `write_intel_hex`
(src/io/intel_hex.rs lines 220-277).  `fuel` bounds the loop iterations;
`write_intel_hex` passes the data length, which suffices because every
record consumes at least one byte (a zero `bytes_per_line` would loop
forever in Rust, but the caller always passes at least 1). -/
def writeSegmentLoopF (bytes_per_line : Nat) (fixed_mode : Option IntelHexMode)
    (auto_mode : Bool) :
    Nat → Nat → List Nat → IHexWriterState → IHexWriterState
  | 0, _, _, st => st
  | fuel + 1, addr, data, st =>
    if data.isEmpty then st
    else
      let line_mode :=
        match fixed_mode with
        | some mode => mode
        | none => if addr > 0xFFFFF then IntelHexMode.ExtendedLinear
                  else IntelHexMode.ExtendedSegment
      -- `(addr >> 16) as u16` resp. `((addr >> 4) & 0xF000) as u16`
      let needed_extended :=
        match line_mode with
        | .ExtendedLinear => addr / 65536 % 65536
        | _ => addr / 65536 % 16 * 4096
      let should_emit :=
        decide (st.current_extended ≠ some needed_extended ∨ st.current_mode ≠ some line_mode)
      let (should_emit, current_extended) :=
        if auto_mode ∧ line_mode = .ExtendedSegment then
          if addr ≤ 0xFFFF then
            if st.current_mode = none ∧ st.current_extended = none then
              (false, st.current_extended)
            else (should_emit, st.current_extended)
          else
            let upper := addr / 65536 % 65536
            let needed_segment := upper * 4096 % 65536
            if needed_extended ≠ needed_segment then (should_emit, some needed_segment)
            else (should_emit, st.current_extended)
        else (should_emit, st.current_extended)
      let st := { st with current_extended := current_extended }
      let st :=
        if should_emit then
          let record_type : Nat := match line_mode with
            | .ExtendedLinear => 4
            | _ => 2
          { output := st.output
              ++ write_record record_type 0 [needed_extended / 256 % 256, needed_extended % 256],
            current_extended := some needed_extended,
            current_mode := some line_mode }
        else st
      let offset_addr := addr % 65536
      let remaining_in_bank := 65536 - offset_addr
      let chunk_len := min (min bytes_per_line remaining_in_bank) data.length
      let chunk := data.take chunk_len
      let st := { st with output := st.output ++ write_record 0 offset_addr chunk }
      writeSegmentLoopF bytes_per_line fixed_mode auto_mode fuel
        ((addr + chunk_len) % 2 ^ 32) (data.drop chunk_len) st

/-- Loop entry point with sufficient fuel. -/
def writeSegmentLoop (bytes_per_line : Nat) (fixed_mode : Option IntelHexMode)
    (auto_mode : Bool) (addr : Nat) (data : List Nat) (st : IHexWriterState) :
    IHexWriterState :=
  writeSegmentLoopF bytes_per_line fixed_mode auto_mode data.length addr data st

/-- Rust `write_intel_hex` (src/io/intel_hex.rs lines 206-283): a zero
`bytes_per_line` falls back to 16. -/
def write_intel_hex (hf : HexFile) (options : IntelHexWriteOptions) : List Nat :=
  let segments := normalized_sorted_segments hf
  let bytes_per_line := if options.bytes_per_line = 0 then 16 else options.bytes_per_line
  let auto_mode := options.mode = IntelHexMode.Auto
  let fixed_mode := if auto_mode then none else some options.mode
  let st := segments.foldl
    (fun st segment =>
      writeSegmentLoop bytes_per_line fixed_mode auto_mode
        segment.start_address segment.data st)
    ⟨[], none, fixed_mode⟩
  normalize_crlf (st.output ++ write_record 1 0 [])

end H3xy

namespace H3xy

/-! ### S-Record codec (src/io/srec.rs) -/

/-- S-Record data record type (src/io/srec.rs lines 4-9). -/
inductive SRecordType where
  | S1 : SRecordType
  | S2 : SRecordType
  | S3 : SRecordType
  deriving Repr, DecidableEq

/-- S-Record write options (src/io/srec.rs lines 11-24); the Rust `Default`
is `{ bytes_per_line: 16, record_type: None }`. -/
structure SRecordWriteOptions where
  bytes_per_line : Nat
  record_type : Option SRecordType
  deriving Repr, DecidableEq

/-- Rust `SRecordWriteOptions::default()`. -/
def SRecordWriteOptions.default : SRecordWriteOptions := ⟨16, none⟩

/-- Rust `parse_address` (src/io/srec.rs lines 241-243): big-endian fold with
u32 shift semantics. -/
def srecParseAddress (bytes : List Nat) : Nat :=
  bytes.foldl (fun acc b => (acc * 256 % 2 ^ 32) ||| b % 2 ^ 32) 0

/-- Rust `expected_checksum` (src/io/srec.rs lines 250-253). -/
def srecExpectedChecksum (bytes : List Nat) : Nat :=
  (255 - byteSum256 bytes) % 256

/-- Rust `checksum_valid` (src/io/srec.rs lines 245-248). -/
def srecChecksumValid (bytes : List Nat) : Bool :=
  byteSum256 bytes = 255

/-- Rust `max_address_for` (src/io/srec.rs lines 255-261). -/
def max_address_for : SRecordType → Nat
  | .S1 => 0xFFFF
  | .S2 => 0xFFFFFF
  | .S3 => 0xFFFFFFFF

/-- One line of the `parse_srec` loop (src/io/srec.rs lines 30-131). -/
def parseSrecLine (hf : HexFile) (rawLine : List Nat) (line_no : Nat) :
    Except ParseError HexFile := do
  let line :=
    if rawLine.getLast? = some 0x0D then rawLine.dropLast else rawLine
  if line.isEmpty then pure hf
  else if (line.headD 0 ≠ 0x53 ∧ line.headD 0 ≠ 0x73) ∨ line.length < 2 then
    throw (.InvalidRecord line_no)
  else do
    let record_type := line.getD 1 0
    let record_bytes ← parse_hex_bytes (line.drop 2) line_no
    if record_bytes.isEmpty then throw (.InvalidRecord line_no)
    else
      let count := record_bytes.headD 0
      if record_bytes.length ≠ count + 1 then throw (.InvalidRecord line_no)
      else if !srecChecksumValid record_bytes then
        throw (.ChecksumMismatch line_no (srecExpectedChecksum record_bytes.dropLast)
          (record_bytes.getLast?.getD 0))
      else if record_type = 0x30 ∨ record_type = 0x35 ∨ record_type = 0x37 ∨
          record_type = 0x38 ∨ record_type = 0x39 then
        pure hf
      else if record_type = 0x31 ∨ record_type = 0x32 ∨ record_type = 0x33 then do
        let addr_len : Nat :=
          if record_type = 0x31 then 2 else if record_type = 0x32 then 3 else 4
        let data_len ←
          match count - (addr_len + 1), decide (count < addr_len + 1) with
          | _, true => throw (.InvalidRecord line_no)
          | n, false => pure n
        let addr_end := 1 + addr_len
        let data_start := addr_end
        let data_end := data_start + data_len
        if data_end > record_bytes.length - 1 then throw (.InvalidRecord line_no)
        else do
          let addr := srecParseAddress ((record_bytes.take addr_end).drop 1)
          if data_len > 0 then do
            let data := (record_bytes.take data_end).drop data_start
            match checkedAdd addr (data.length - 1) with
            | none => throw ParseError.AddressOverflow
            | some e =>
              if e < addr then throw ParseError.AddressOverflow
              else pure (hf.append_segment ⟨addr, data⟩)
          else pure hf
      else throw (.UnsupportedRecordType line_no record_type)

/-- The enumerated line fold of `parse_srec`. -/
def parseSrecLines (hf : HexFile) (line_no : Nat) :
    List (List Nat) → Except ParseError HexFile
  | [] => pure hf
  | l :: rest => do
    let hf' ← parseSrecLine hf l line_no
    parseSrecLines hf' (line_no + 1) rest

/-- Rust `parse_srec` (src/io/srec.rs lines 27-134). -/
def parse_srec (data : List Nat) : Except ParseError HexFile :=
  parseSrecLines ⟨[]⟩ 1 (splitOnByte 0x0A data)

/-- The chunking of `segment.data.chunks(bytes_per_line)`.  `fuel` bounds
the iterations; `listChunks` passes the list length, which suffices
because every chunk is non-empty.  The zero chunk size is unreachable
because the writers default a zero width to 16. -/
def listChunksF : Nat → Nat → List Nat → List (List Nat)
  | _, _, [] => []
  | _, 0, l => [l]
  | 0, _ + 1, l => [l]
  | fuel + 1, m + 1, l =>
    l.take (m + 1) :: listChunksF fuel (m + 1) (l.drop (m + 1))

/-- Chunking entry point used by `write_srec`. -/
def listChunks (n : Nat) (l : List Nat) : List (List Nat) :=
  listChunksF l.length n l

/-- Rust `&addr.to_be_bytes()[4 - addr_len..]`. -/
def addrBytesBE (addr_len addr : Nat) : List Nat :=
  (List.range addr_len).map (fun i => addr / 256 ^ (addr_len - 1 - i) % 256)

/-- Rust `push_record_line` (src/io/srec.rs lines 263-271). -/
def push_record_line (record_digit : Nat) (data : List Nat) (checksum : Nat) : List Nat :=
  0x53 :: record_digit :: (data.flatMap write_hex_byte ++ write_hex_byte checksum
    ++ [0x0D, 0x0A])

/-- The per-segment record loop of `write_srec` (src/io/srec.rs lines
178-195). -/
def writeSrecChunks (addr_len record_digit : Nat) :
    Nat → List (List Nat) → Except ParseError (List Nat)
  | _, [] => .ok []
  | addr, chunk :: rest => do
    let count := (addr_len + chunk.length + 1) % 256
    let record := count :: (addrBytesBE addr_len addr ++ chunk)
    let line := push_record_line record_digit record (srecExpectedChecksum record)
    match checkedAdd addr chunk.length with
    | some next => do
      let restOut ← writeSrecChunks addr_len record_digit next rest
      pure (line ++ restOut)
    | none => throw ParseError.AddressOverflow

/-- Rust `write_srec` (src/io/srec.rs lines 137-212). -/
def write_srec (hf : HexFile) (options : SRecordWriteOptions) :
    Except ParseError (List Nat) := do
  let normalized := hf.normalized_lossy
  let max_addr := normalized.max_address.getD 0
  let auto_type : SRecordType :=
    if max_addr ≤ 0xFFFF then .S1
    else if max_addr ≤ 0xFFFFFF then .S2
    else .S3
  let record_type ←
    match options.record_type with
    | some t =>
      if max_addr > max_address_for t then throw ParseError.AddressOverflow else pure t
    | none => pure auto_type
  let bytes_per_line := if options.bytes_per_line = 0 then 16 else options.bytes_per_line
  let segments := normalized_sorted_segments normalized
  let (addr_len, record_digit) : Nat × Nat :=
    match record_type with
    | .S1 => (2, 0x31)
    | .S2 => (3, 0x32)
    | .S3 => (4, 0x33)
  let body ← segments.foldlM (fun out segment => do
    let recs ← writeSrecChunks addr_len record_digit segment.start_address
      (listChunks bytes_per_line segment.data)
    pure (out ++ recs)) []
  let term_digit : Nat :=
    match record_type with
    | .S1 => 0x39
    | .S2 => 0x38
    | .S3 => 0x37
  let term := ((addr_len + 1) % 256) :: addrBytesBE addr_len 0
  pure (body ++ push_record_line term_digit term (srecExpectedChecksum term))

end H3xy

namespace H3xy

/-! ### Shared lemmas about `read_byte` -/

/-- The hit value of a single segment, i.e. the scan restricted to one
segment. -/
def Segment.byteAt (s : Segment) (a : Nat) : Option Nat := readByteList [s] a

theorem readByteList_cons_of_some {s : Segment} {a : Nat} {b : Nat}
    (h : s.byteAt a = some b) (l : List Segment) :
    readByteList (s :: l) a = some b := by
  unfold Segment.byteAt at h
  simp only [readByteList] at h ⊢
  by_cases h1 : s.is_empty = true
  · rw [if_pos h1] at h
    simp [readByteList] at h
  · by_cases h2 : s.start_address ≤ a ∧ a ≤ s.end_address
    · by_cases h3 : a - s.start_address < s.data.length
      · rw [if_neg h1, if_pos h2, dif_pos h3] at h ⊢
        exact h
      · rw [if_neg h1, if_pos h2, dif_neg h3] at h
        simp [readByteList] at h
    · rw [if_neg h1, if_neg h2] at h
      simp [readByteList] at h

theorem readByteList_cons_of_none {s : Segment} {a : Nat}
    (h : s.byteAt a = none) (l : List Segment) :
    readByteList (s :: l) a = readByteList l a := by
  unfold Segment.byteAt at h
  simp only [readByteList] at h ⊢
  by_cases h1 : s.is_empty = true
  · rw [if_pos h1]
  · by_cases h2 : s.start_address ≤ a ∧ a ≤ s.end_address
    · by_cases h3 : a - s.start_address < s.data.length
      · rw [if_neg h1, if_pos h2, dif_pos h3] at h
        simp at h
      · rw [if_neg h1, if_pos h2, dif_neg h3]
    · rw [if_neg h1, if_neg h2]

theorem readByteList_append_of_some {l1 : List Segment} {a b : Nat}
    (h : readByteList l1 a = some b) (l2 : List Segment) :
    readByteList (l1 ++ l2) a = some b := by
  induction l1 with
  | nil => simp [readByteList] at h
  | cons s rest ih =>
    rcases hs : Segment.byteAt s a with _ | b'
    · rw [readByteList_cons_of_none hs] at h
      rw [List.cons_append, readByteList_cons_of_none hs]
      exact ih h
    · rw [readByteList_cons_of_some hs] at h
      rw [List.cons_append, readByteList_cons_of_some hs]
      exact h

theorem readByteList_append_of_none {l1 : List Segment} {a : Nat}
    (h : readByteList l1 a = none) (l2 : List Segment) :
    readByteList (l1 ++ l2) a = readByteList l2 a := by
  induction l1 with
  | nil => simp
  | cons s rest ih =>
    rcases hs : Segment.byteAt s a with _ | b'
    · rw [readByteList_cons_of_none hs] at h
      rw [List.cons_append, readByteList_cons_of_none hs]
      exact ih h
    · rw [readByteList_cons_of_some hs] at h
      exact absurd h (by simp)

theorem byteAt_of_empty {s : Segment} (h : s.is_empty = true) (a : Nat) :
    s.byteAt a = none := by
  unfold Segment.byteAt
  simp [readByteList, h]

/-- C2: for any image, appending `s1` then `s2`, `read_byte` returns `s2`'s
byte wherever `s2` covers the address, `s1`'s byte where only `s1` covers it;
and a segment added with `prepend_segment` never changes the value read at an
address some existing segment covers. -/
theorem c2_read_byte_priority (hf : HexFile) (s1 s2 s : Segment) (a b : Nat) :
    (s2.byteAt a = some b →
      ((hf.append_segment s1).append_segment s2).read_byte a = some b) ∧
    (s2.byteAt a = none → s1.byteAt a = some b →
      ((hf.append_segment s1).append_segment s2).read_byte a = some b) ∧
    (hf.read_byte a = some b →
      (hf.prepend_segment s).read_byte a = some b) := by
  refine ⟨fun h2 => ?_, fun h2 h1 => ?_, fun h => ?_⟩
  · unfold HexFile.append_segment HexFile.read_byte
    have hne : s2.is_empty = false := by
      by_contra hc
      simp only [Bool.not_eq_false] at hc
      rw [byteAt_of_empty hc] at h2
      exact absurd h2 (by simp)
    split
    · rename_i hc
      rw [hne] at hc
      exact absurd hc (by simp)
    · simp only [List.reverse_append, List.reverse_cons, List.reverse_nil, List.nil_append,
        List.cons_append]
      exact readByteList_cons_of_some h2 _
  · unfold HexFile.append_segment HexFile.read_byte
    have hne1 : s1.is_empty = false := by
      by_contra hc
      simp only [Bool.not_eq_false] at hc
      rw [byteAt_of_empty hc] at h1
      exact absurd h1 (by simp)
    by_cases hne2 : s2.is_empty = true
    · rw [if_pos hne2]
      split
      · rename_i hc
        rw [hne1] at hc
        exact absurd hc (by simp)
      · simp only [List.reverse_append, List.reverse_cons, List.reverse_nil, List.nil_append,
          List.cons_append]
        exact readByteList_cons_of_some h1 _
    · simp only [Bool.not_eq_true] at hne2
      rw [if_neg (by simp [hne2])]
      simp only [List.reverse_append, List.reverse_cons, List.reverse_nil, List.nil_append,
        List.cons_append]
      rw [readByteList_cons_of_none h2]
      split
      · rename_i hc
        rw [hne1] at hc
        exact absurd hc (by simp)
      · simp only [List.reverse_append, List.reverse_cons, List.reverse_nil, List.nil_append,
          List.cons_append]
        exact readByteList_cons_of_some h1 _
  · unfold HexFile.prepend_segment HexFile.read_byte at *
    split
    · exact h
    · simp only [List.reverse_cons]
      exact readByteList_append_of_some h _

/-- Witness for C2 at concrete inputs: two overlapping appended segments and
a prepended overlapping segment. -/
theorem c2_read_byte_priority_witness :
    ((⟨0x1000, [0xBB]⟩ : Segment).byteAt 0x1000 = some 0xBB ∧
      (((HexFile.new.append_segment ⟨0x1000, [0xAA, 0xAA]⟩).append_segment
        ⟨0x1000, [0xBB]⟩)).read_byte 0x1000 = some 0xBB) ∧
    ((⟨0x1000, [0xBB]⟩ : Segment).byteAt 0x1001 = none ∧
      (⟨0x1000, [0xAA, 0xAA]⟩ : Segment).byteAt 0x1001 = some 0xAA ∧
      (((HexFile.new.append_segment ⟨0x1000, [0xAA, 0xAA]⟩).append_segment
        ⟨0x1000, [0xBB]⟩)).read_byte 0x1001 = some 0xAA) ∧
    ((HexFile.new.append_segment ⟨0x1000, [0xAA, 0xAA]⟩).read_byte 0x1000 = some 0xAA ∧
      ((HexFile.new.append_segment ⟨0x1000, [0xAA, 0xAA]⟩).prepend_segment
        ⟨0x1000, [0xCC]⟩).read_byte 0x1000 = some 0xAA) := by
  refine ⟨⟨by decide, ?_⟩, ⟨by decide, by decide, ?_⟩, ⟨by decide, ?_⟩⟩
  · exact (c2_read_byte_priority HexFile.new ⟨0x1000, [0xAA, 0xAA]⟩ ⟨0x1000, [0xBB]⟩
      ⟨0, []⟩ 0x1000 0xBB).1 (by decide)
  · exact ((c2_read_byte_priority HexFile.new ⟨0x1000, [0xAA, 0xAA]⟩ ⟨0x1000, [0xBB]⟩
      ⟨0, []⟩ 0x1001 0xAA).2).1 (by decide) (by decide)
  · exact ((c2_read_byte_priority (HexFile.new.append_segment ⟨0x1000, [0xAA, 0xAA]⟩)
      ⟨0, []⟩ ⟨0, []⟩ ⟨0x1000, [0xCC]⟩ 0x1000 0xAA).2).2 (by decide)

end H3xy

namespace H3xy

/-! ### Lemmas about empty images -/

theorem truncate_of_empty {s : Segment} (h : s.is_empty = true) :
    truncate_segment_to_u32 s = none := by
  unfold truncate_segment_to_u32
  rw [if_pos h]

theorem normalized_lossy_of_all_empty {hf : HexFile} (h : hf.is_empty = true) :
    hf.normalized_lossy = ⟨[]⟩ := by
  unfold HexFile.normalized_lossy
  have hnil : hf.segments.filterMap truncate_segment_to_u32 = [] := by
    rw [List.filterMap_eq_nil_iff]
    intro s hs
    exact truncate_of_empty (List.all_eq_true.mp h s hs)
  simp [hnil]

theorem min_address_of_all_empty {hf : HexFile} (h : hf.is_empty = true) :
    hf.min_address = none := by
  unfold HexFile.min_address
  have hnil : hf.segments.filter (fun s => !s.is_empty) = [] := by
    rw [List.filter_eq_nil_iff]
    intro s hs
    simp [List.all_eq_true.mp h s hs]
  simp [hnil]

theorem max_address_of_all_empty {hf : HexFile} (h : hf.is_empty = true) :
    hf.max_address = none := by
  unfold HexFile.max_address
  have hnil : hf.segments.filter (fun s => !s.is_empty) = [] := by
    rw [List.filter_eq_nil_iff]
    intro s hs
    simp [List.all_eq_true.mp h s hs]
  simp [hnil]

theorem collect_of_all_empty {hf : HexFile} (options : ChecksumOptions)
    (hempty : hf.is_empty = true) (hrange : options.range = none)
    (hforced : options.forced_range = none) :
    hf.collect_data_for_checksum options = .ok [] := by
  unfold HexFile.collect_data_for_checksum
  rw [normalized_lossy_of_all_empty hempty, hforced, hrange]
  simp only [HexFile.min_address, HexFile.max_address, List.filter_nil, List.map_nil,
    List.min?_nil, List.max?_nil]
  rfl

theorem calculate_of_all_empty {hf : HexFile} (options : ChecksumOptions)
    (hempty : hf.is_empty = true) (hrange : options.range = none)
    (hforced : options.forced_range = none) :
    hf.calculate_checksum options = HexFile.new.calculate_checksum options := by
  unfold HexFile.calculate_checksum
  rw [collect_of_all_empty options hempty hrange hforced,
    collect_of_all_empty options (by rfl) hrange hforced]

/-- C10: on an image with no non-empty segment, the checksum operation with
target `Append`, `Prepend` or `OverwriteEnd` succeeds, returns the checksum
of the empty payload (the checksum of the empty image), and leaves the image
unchanged: no bytes are written at any address. -/
theorem c10_checksum_empty_image (hf : HexFile) (options : ChecksumOptions)
    (target : ChecksumTarget)
    (hempty : hf.is_empty = true)
    (hrange : options.range = none)
    (hforced : options.forced_range = none)
    (htarget : target = .Append ∨ target = .Prepend ∨ target = .OverwriteEnd) :
    hf.checksum options target =
      (HexFile.new.calculate_checksum options).map (fun r => (r, hf)) := by
  have hmin := min_address_of_all_empty hempty
  have hmax := max_address_of_all_empty hempty
  have hcalc := calculate_of_all_empty options hempty hrange hforced
  rcases htarget with rfl | rfl | rfl <;>
  · unfold HexFile.checksum
    rcases hres : HexFile.new.calculate_checksum options with e | r <;>
      simp [hcalc, hres, hmin, hmax, Except.map, bind, Except.bind, pure, Except.pure]

/-- Witness for C10: the empty image with default byte-sum options under the
Append target. -/
theorem c10_checksum_empty_image_witness :
    (HexFile.new.is_empty = true ∧
      HexFile.new.checksum ⟨.ByteSumBe, none, false, none, [], none⟩ .Append =
        (HexFile.new.calculate_checksum ⟨.ByteSumBe, none, false, none, [], none⟩).map
          (fun r => (r, HexFile.new))) ∧
    HexFile.new.checksum ⟨.ByteSumBe, none, false, none, [], none⟩ .Append =
      .ok ([0, 0], HexFile.new) := by
  refine ⟨⟨by decide, ?_⟩, by rfl⟩
  exact c10_checksum_empty_image HexFile.new ⟨.ByteSumBe, none, false, none, [], none⟩
    .Append (by decide) rfl rfl (Or.inl rfl)

end H3xy

namespace H3xy

/-- C5 counterexample: `remap` can fail with an address overflow after it has
already remapped an earlier segment, so the error does not leave the segment
list as it was before the call.  With window `[0, 0xFFFF]`, `linear =
0xFFFFFFFF`, `size = inc = 0x100`, the segment at 0 remaps to 0xFFFFFFFF and
the segment at 0x100 then overflows. -/
theorem c5_remap_not_transactional :
    (((⟨[⟨0, [0xAA]⟩, ⟨0x100, [0xBB]⟩]⟩ : HexFile).remap
        ⟨0, 0xFFFF, 0xFFFFFFFF, 0x100, 0x100⟩).2).isSome = true ∧
    ((⟨[⟨0, [0xAA]⟩, ⟨0x100, [0xBB]⟩]⟩ : HexFile).remap
        ⟨0, 0xFFFF, 0xFFFFFFFF, 0x100, 0x100⟩).1 ≠
      (⟨[⟨0, [0xAA]⟩, ⟨0x100, [0xBB]⟩]⟩ : HexFile) := by
  constructor
  · rfl
  · decide

/-- C5 amended: `scale_addresses` and `unscale_addresses` are transactional
(any error leaves the segment list exactly as before), and `remap` leaves
the image unchanged when its parameter validation fails (zero size or
increment, or `start > end`); a mid-iteration address overflow in `remap`
may leave earlier segments remapped, as the counterexample shows. -/
theorem c5_scale_unscale_transactional :
    (∀ (hf : HexFile) (factor : Nat) (e : OpsError),
      (hf.scale_addresses factor).1 = .error e → (hf.scale_addresses factor).2 = hf) ∧
    (∀ (hf : HexFile) (divisor : Nat) (e : OpsError),
      (hf.unscale_addresses divisor).1 = .error e → (hf.unscale_addresses divisor).2 = hf) ∧
    (∀ (hf : HexFile) (options : RemapOptions),
      (options.size = 0 ∨ options.inc = 0 ∨ options.start > options.«end») →
        hf.remap options = (hf, some .InvalidRemapParams)) := by
  refine ⟨fun hf factor e h => ?_, fun hf divisor e h => ?_, fun hf options h => ?_⟩
  · unfold HexFile.scale_addresses at h ⊢
    rcases hfind : hf.segments.find? (fun s => (checkedMul s.start_address factor).isNone)
      with _ | s
    · rw [hfind] at h
      simp at h
    · rw [hfind]
  · unfold HexFile.unscale_addresses at h ⊢
    by_cases hz : divisor = 0
    · rw [if_pos hz]
    · rw [if_neg hz] at h ⊢
      rcases hfind : hf.segments.find? (fun s => ¬ s.start_address % divisor = 0) with _ | s
      · rw [hfind] at h
        simp at h
      · rw [hfind]
  · unfold HexFile.remap
    rcases h with h | h | h
    · rw [if_pos (Or.inl h)]
    · rw [if_pos (Or.inr h)]
    · by_cases hsz : options.size = 0 ∨ options.inc = 0
      · rw [if_pos hsz]
      · rw [if_neg hsz, if_pos h]

/-- Witness for C5 amended: a scale overflow, a non-divisible unscale and a
zero-size remap, each leaving the concrete image unchanged. -/
theorem c5_scale_unscale_transactional_witness :
    (((⟨[⟨0x80000000, [1]⟩]⟩ : HexFile).scale_addresses 2).1 = .error .AddressOverflow ∧
      ((⟨[⟨0x80000000, [1]⟩]⟩ : HexFile).scale_addresses 2).2 =
        (⟨[⟨0x80000000, [1]⟩]⟩ : HexFile)) ∧
    (((⟨[⟨3, [1]⟩]⟩ : HexFile).unscale_addresses 2).1 = .error (.AddressNotDivisible 3 2) ∧
      ((⟨[⟨3, [1]⟩]⟩ : HexFile).unscale_addresses 2).2 = (⟨[⟨3, [1]⟩]⟩ : HexFile)) ∧
    ((⟨[⟨0, [1]⟩]⟩ : HexFile).remap ⟨0, 10, 0, 0, 1⟩ =
      ((⟨[⟨0, [1]⟩]⟩ : HexFile), some .InvalidRemapParams)) := by
  refine ⟨⟨by rfl, ?_⟩, ⟨by rfl, ?_⟩, ?_⟩
  · exact c5_scale_unscale_transactional.1 ⟨[⟨0x80000000, [1]⟩]⟩ 2 .AddressOverflow (by rfl)
  · exact c5_scale_unscale_transactional.2.1 ⟨[⟨3, [1]⟩]⟩ 2 (.AddressNotDivisible 3 2) (by rfl)
  · exact c5_scale_unscale_transactional.2.2 ⟨[⟨0, [1]⟩]⟩ ⟨0, 10, 0, 0, 1⟩ (Or.inl rfl)

end H3xy

namespace H3xy

/-- C6 counterexample: with `bytes_per_line = 0` the Intel-HEX writer does
not behave as with `bytes_per_line = 32` — a 32-byte segment is emitted as
two 16-byte data records, so the zero default is 16, not 32. -/
theorem c6_zero_bytes_per_line_not_32 :
    write_intel_hex (HexFile.with_segments [⟨0, List.replicate 32 0xAA⟩]) ⟨0, .Auto⟩ ≠
      write_intel_hex (HexFile.with_segments [⟨0, List.replicate 32 0xAA⟩]) ⟨32, .Auto⟩ := by
  decide

/-- C6 amended: `write_intel_hex` with `bytes_per_line = 0` behaves exactly
as with `bytes_per_line = 16`: the parameter defaults to 16 (so data records
carry at most 16 bytes), not 32. -/
theorem c6_zero_bytes_per_line_defaults_16 (hf : HexFile) (mode : IntelHexMode) :
    write_intel_hex hf ⟨0, mode⟩ = write_intel_hex hf ⟨16, mode⟩ := by
  rfl

theorem u16_bytes_length (v : Nat) (le : Bool) : (u16_bytes v le).length = 2 := by
  unfold u16_bytes
  split <;> rfl

theorem u32_bytes_length (v : Nat) (le : Bool) : (u32_bytes v le).length = 4 := by
  unfold u32_bytes
  split <;> rfl

/-- The checksum result always has exactly `result_size` bytes. -/
theorem calculate_checksum_length {hf : HexFile} {options : ChecksumOptions} {r : List Nat}
    (h : hf.calculate_checksum options = .ok r) :
    r.length = options.algorithm.result_size := by
  unfold HexFile.calculate_checksum at h
  rcases hcol : hf.collect_data_for_checksum options with e | data <;> rw [hcol] at h
  · simp [bind, Except.bind] at h
  · simp only [bind, Except.bind] at h
    rcases halg : options.algorithm <;> rw [halg] at h <;>
      simp only [ChecksumAlgorithm.result_size] <;>
      [skip; skip; rcases hw : word_sum_be data with e' | w <;> rw [hw] at h;
       rcases hw : word_sum_le data with e' | w <;> rw [hw] at h; skip;
       rcases hw : word_sum_be data with e' | w <;> rw [hw] at h;
       rcases hw : word_sum_le data with e' | w <;> rw [hw] at h;
       skip; skip; skip; skip; skip; skip; skip] <;>
      simp only [pure, Except.pure, Except.ok.injEq] at h <;>
      first
        | (subst h; first | exact u16_bytes_length .. | exact u32_bytes_length ..)
        | exact absurd h (by simp)

/-- Swapping the internal `target_exclude` for an explicit member of
`exclude_ranges` does not change the collected payload: the two are merged
before subtraction (src/ops/checksum.rs lines 332-337). -/
theorem collect_target_exclude_as_exclude (hf : HexFile) (options : ChecksumOptions)
    (w : Range) :
    hf.collect_data_for_checksum { options with target_exclude := some w } =
      hf.collect_data_for_checksum
        { options with exclude_ranges := options.exclude_ranges ++ [w],
                       target_exclude := none } := by
  unfold HexFile.collect_data_for_checksum
  simp only [Option.toList_some, Option.toList_none, List.append_nil]

/-- As `collect_target_exclude_as_exclude`, for the full checksum value. -/
theorem calculate_target_exclude_as_exclude (hf : HexFile) (options : ChecksumOptions)
    (w : Range) :
    hf.calculate_checksum { options with target_exclude := some w } =
      hf.calculate_checksum
        { options with exclude_ranges := options.exclude_ranges ++ [w],
                       target_exclude := none } := by
  unfold HexFile.calculate_checksum
  rw [collect_target_exclude_as_exclude]

end H3xy

namespace H3xy

theorem result_size_pos (alg : ChecksumAlgorithm) : 0 < alg.result_size := by
  rcases alg <;> decide

set_option maxHeartbeats 1600000

/-- C3: for the checksum operation with target `Address(a)` or
`OverwriteEnd`, the placement window (`a .. a+size-1` for `Address`, the
last `size` bytes ending at `max_address` for `OverwriteEnd`, `size` the
algorithm's result size) is excluded from the computed sum: the checksum
written equals the checksum computed with that window subtracted from the
effective range, and it is written at the window's start. -/
theorem c3_checksum_target_exclusion (hf : HexFile) (options : ChecksumOptions)
    (addr mx : Nat) :
    (addr + (options.algorithm.result_size - 1) ≤ U32MAX →
      hf.checksum options (.Address addr) =
        (hf.calculate_checksum
          { options with
            exclude_ranges := options.exclude_ranges
              ++ [⟨addr, addr + (options.algorithm.result_size - 1)⟩],
            target_exclude := none }).map (fun r => (r, hf.write_bytes addr r))) ∧
    (hf.max_address = some mx → mx ≤ U32MAX →
      options.algorithm.result_size - 1 ≤ mx →
      hf.checksum options .OverwriteEnd =
        (hf.calculate_checksum
          { options with
            exclude_ranges := options.exclude_ranges
              ++ [⟨mx - (options.algorithm.result_size - 1), mx⟩],
            target_exclude := none }).map
          (fun r => (r, hf.write_bytes (mx - (options.algorithm.result_size - 1)) r))) := by
  constructor
  · intro h
    have hsize := result_size_pos options.algorithm
    have hfl : Range.from_start_length addr options.algorithm.result_size =
        .ok ⟨addr, addr + (options.algorithm.result_size - 1)⟩ := by
      unfold Range.from_start_length
      rw [if_neg (by omega)]
      unfold checkedAdd
      rw [if_pos h]
    unfold HexFile.checksum
    simp only [hfl]
    rw [calculate_target_exclude_as_exclude]
    rcases hc : hf.calculate_checksum
        { options with
          exclude_ranges := options.exclude_ranges
            ++ [⟨addr, addr + (options.algorithm.result_size - 1)⟩],
          target_exclude := none } with e | r <;> rfl
  · intro hmax hmx hsz
    have hsize := result_size_pos options.algorithm
    have heq : mx - (options.algorithm.result_size - 1)
        + (options.algorithm.result_size - 1) = mx := by omega
    have hfl : Range.from_start_length (mx - (options.algorithm.result_size - 1))
        options.algorithm.result_size =
        .ok ⟨mx - (options.algorithm.result_size - 1), mx⟩ := by
      unfold Range.from_start_length
      rw [if_neg (by omega)]
      unfold checkedAdd
      rw [if_pos (by omega), heq]
    have hcs : checkedSub mx (saturatingSub options.algorithm.result_size 1) =
        some (mx - (options.algorithm.result_size - 1)) := by
      unfold checkedSub saturatingSub
      rw [if_pos hsz]
    unfold HexFile.checksum
    simp only [hmax, hcs, hfl]
    rw [calculate_target_exclude_as_exclude]
    rcases hc : hf.calculate_checksum
        { options with
          exclude_ranges := options.exclude_ranges
            ++ [⟨mx - (options.algorithm.result_size - 1), mx⟩],
          target_exclude := none } with e | r
    · rfl
    · have hlen := calculate_checksum_length hc
      have hcs2 : checkedSub mx (saturatingSub r.length 1) =
          some (mx - (options.algorithm.result_size - 1)) := by
        rw [hlen]
        exact hcs
      simp only [bind, Except.bind, hmax, hcs2, Except.map]
      rfl

set_option maxHeartbeats 200000

/-- Witness for C3: byte-sum over `[1,2,3,4]` at 0x1000.  With target
`Address 0x1000` the first two bytes are excluded (sum 3+4 = 7); with
`OverwriteEnd` the last two are excluded (sum 1+2 = 3). -/
theorem c3_checksum_target_exclusion_witness :
    (0x1000 + ((ChecksumAlgorithm.ByteSumBe).result_size - 1) ≤ U32MAX ∧
      (⟨[⟨0x1000, [1, 2, 3, 4]⟩]⟩ : HexFile).checksum
          ⟨.ByteSumBe, none, false, none, [], none⟩ (.Address 0x1000) =
        ((⟨[⟨0x1000, [1, 2, 3, 4]⟩]⟩ : HexFile).calculate_checksum
          ⟨.ByteSumBe, none, false, none, [⟨0x1000, 0x1001⟩], none⟩).map
          (fun r => (r, (⟨[⟨0x1000, [1, 2, 3, 4]⟩]⟩ : HexFile).write_bytes 0x1000 r)) ∧
      (⟨[⟨0x1000, [1, 2, 3, 4]⟩]⟩ : HexFile).checksum
          ⟨.ByteSumBe, none, false, none, [], none⟩ (.Address 0x1000) =
        .ok ([0, 7], ⟨[⟨0x1000, [1, 2, 3, 4]⟩, ⟨0x1000, [0, 7]⟩]⟩)) ∧
    ((⟨[⟨0x1000, [1, 2, 3, 4]⟩]⟩ : HexFile).max_address = some 0x1003 ∧
      (⟨[⟨0x1000, [1, 2, 3, 4]⟩]⟩ : HexFile).checksum
          ⟨.ByteSumBe, none, false, none, [], none⟩ .OverwriteEnd =
        ((⟨[⟨0x1000, [1, 2, 3, 4]⟩]⟩ : HexFile).calculate_checksum
          ⟨.ByteSumBe, none, false, none, [⟨0x1002, 0x1003⟩], none⟩).map
          (fun r => (r, (⟨[⟨0x1000, [1, 2, 3, 4]⟩]⟩ : HexFile).write_bytes 0x1002 r)) ∧
      (⟨[⟨0x1000, [1, 2, 3, 4]⟩]⟩ : HexFile).checksum
          ⟨.ByteSumBe, none, false, none, [], none⟩ .OverwriteEnd =
        .ok ([0, 3], ⟨[⟨0x1000, [1, 2, 3, 4]⟩, ⟨0x1002, [0, 3]⟩]⟩)) := by
  refine ⟨⟨by decide, ?_, by rfl⟩, ⟨by rfl, ?_, by rfl⟩⟩
  · exact (c3_checksum_target_exclusion ⟨[⟨0x1000, [1, 2, 3, 4]⟩]⟩
      ⟨.ByteSumBe, none, false, none, [], none⟩ 0x1000 0).1 (by decide)
  · exact (c3_checksum_target_exclusion ⟨[⟨0x1000, [1, 2, 3, 4]⟩]⟩
      ⟨.ByteSumBe, none, false, none, [], none⟩ 0 0x1003).2 (by rfl) (by decide) (by decide)

end H3xy

namespace H3xy

/-! ### Characterization of single-segment hits -/

/-- For representable addresses, a segment hit is exactly "start reached and
offset inside the data". -/
theorem byteAt_eq (s : Segment) (a : Nat) (ha : a ≤ U32MAX) :
    s.byteAt a =
      if s.start_address ≤ a ∧ a - s.start_address < s.data.length then
        some (s.data.getD (a - s.start_address) 0)
      else none := by
  unfold Segment.byteAt
  simp only [readByteList]
  by_cases hemp : s.is_empty = true
  · rw [if_pos hemp]
    have hlen : s.data.length = 0 := by
      simpa [Segment.is_empty, List.isEmpty_iff_length_eq_zero] using hemp
    rw [if_neg (by omega)]
  · have hne : s.data ≠ [] := by
      simpa [Segment.is_empty, List.isEmpty_iff] using hemp
    have hlenpos : 0 < s.data.length := List.length_pos.mpr hne
    have hend : s.end_address = min (s.start_address + s.data.length - 1) U32MAX := by
      unfold Segment.end_address checkedAdd checkedSub
      rw [if_neg (by simpa [Segment.is_empty] using hemp)]
      by_cases hof : s.start_address + s.data.length ≤ U32MAX
      · rw [if_pos hof]
        simp only [Option.bind_some, Option.some_bind]
        rw [if_pos (by omega)]
        simp only [Option.getD_some]
        omega
      · rw [if_neg hof]
        simp only [Option.bind_none, Option.none_bind, Option.getD_none]
        omega
    rw [if_neg hemp]
    by_cases hc : s.start_address ≤ a ∧ a - s.start_address < s.data.length
    · rw [if_pos ⟨hc.1, by rw [hend]; omega⟩, dif_pos hc.2, if_pos hc]
      congr 1
      exact (List.getD_eq_getElem s.data 0 hc.2).symm
    · rw [if_neg hc]
      by_cases hin : s.start_address ≤ a ∧ a ≤ s.end_address
      · rw [if_pos hin]
        have : ¬ a - s.start_address < s.data.length := by
          intro hlt
          exact hc ⟨hin.1, hlt⟩
        rw [dif_neg this]
      · rw [if_neg hin]

theorem byteAt_none_of_start_gt {s : Segment} {a : Nat} (h : a < s.start_address) :
    s.byteAt a = none := by
  unfold Segment.byteAt
  simp only [readByteList]
  by_cases hemp : s.is_empty = true
  · rw [if_pos hemp]
  · rw [if_neg hemp, if_neg (fun hc => absurd hc.1 (by omega))]

theorem byteAt_none_of_end_lt {s : Segment} {a : Nat} (h : s.end_address < a) :
    s.byteAt a = none := by
  unfold Segment.byteAt
  simp only [readByteList]
  by_cases hemp : s.is_empty = true
  · rw [if_pos hemp]
  · rw [if_neg hemp, if_neg (fun hc => absurd hc.2 (by omega))]

theorem readByteList_none {a : Nat} {l : List Segment}
    (h : ∀ s ∈ l, s.byteAt a = none) : readByteList l a = none := by
  induction l with
  | nil => rfl
  | cons s rest ih =>
    rw [readByteList_cons_of_none (h s (by simp))]
    exact ih (fun t ht => h t (by simp [ht]))

theorem readByteList_snoc_none {a : Nat} {s : Segment} (l : List Segment)
    (h : s.byteAt a = none) :
    readByteList (l ++ [s]) a = readByteList l a := by
  rcases hl : readByteList l a with _ | b
  · rw [readByteList_append_of_none hl]
    unfold Segment.byteAt at h
    exact h
  · exact readByteList_append_of_some hl _

theorem readByteList_filter_nonempty (a : Nat) (l : List Segment) :
    readByteList (l.filter (fun s => !s.is_empty)) a = readByteList l a := by
  induction l with
  | nil => rfl
  | cons s rest ih =>
    by_cases hemp : s.is_empty = true
    · rw [List.filter_cons_of_neg (by simp [hemp]),
        readByteList_cons_of_none (byteAt_of_empty hemp a)]
      exact ih
    · rw [List.filter_cons_of_pos (by simp [Bool.not_eq_true] at hemp ⊢; exact hemp)]
      rcases hs : Segment.byteAt s a with _ | b
      · rw [readByteList_cons_of_none hs, readByteList_cons_of_none hs]
        exact ih
      · rw [readByteList_cons_of_some hs, readByteList_cons_of_some hs]

/-- Scanning a piecewise-rewritten list agrees with scanning the original
when each segment's pieces produce the segment's own hit value. -/
theorem readByteList_flatMap_congr {a : Nat} (f : Segment → List Segment)
    (l : List Segment)
    (h : ∀ s ∈ l, readByteList (f s) a = s.byteAt a) :
    readByteList (l.flatMap f) a = readByteList l a := by
  induction l with
  | nil => rfl
  | cons s rest ih =>
    rw [List.flatMap_cons]
    rcases hs : Segment.byteAt s a with _ | b
    · have hf : readByteList (f s) a = none := by rw [h s (by simp), hs]
      rw [readByteList_append_of_none hf, readByteList_cons_of_none hs]
      exact ih (fun t ht => h t (by simp [ht]))
    · have hf : readByteList (f s) a = some b := by rw [h s (by simp), hs]
      rw [readByteList_append_of_some hf, readByteList_cons_of_some hs]

end H3xy

namespace H3xy

/-! ### Per-segment behaviour of `cut` at an address -/

theorem getD_take {l : List Nat} {n i : Nat} (h : i < n) :
    (l.take n).getD i 0 = l.getD i 0 := by
  rw [List.getD_eq_getElem?_getD, List.getD_eq_getElem?_getD, List.getElem?_take, if_pos h]

theorem getD_drop (l : List Nat) (n i : Nat) :
    (l.drop n).getD i 0 = l.getD (n + i) 0 := by
  rw [List.getD_eq_getElem?_getD, List.getD_eq_getElem?_getD, List.getElem?_drop]

/-- The prefix piece kept by `cut` hits exactly as the original segment at
addresses strictly below the cut range. -/
theorem prefix_piece_byteAt {s : Segment} {r : Range} {a : Nat}
    (hlt : a < r.start) (hau : a ≤ U32MAX) :
    (⟨s.start_address, s.data.take (r.start - s.start_address)⟩ : Segment).byteAt a =
      s.byteAt a := by
  rw [byteAt_eq _ _ hau, byteAt_eq _ _ hau]
  simp only [List.length_take]
  by_cases hs : s.start_address ≤ a
  · have hoff : a - s.start_address < r.start - s.start_address := by omega
    by_cases hlen : a - s.start_address < s.data.length
    · rw [if_pos ⟨hs, by omega⟩, if_pos ⟨hs, hlen⟩, getD_take hoff]
    · rw [if_neg (by omega), if_neg (by omega)]
  · rw [if_neg (by omega), if_neg (by omega)]

/-- The suffix piece kept by `cut` hits exactly as the original segment at
addresses strictly above the cut range. -/
theorem suffix_piece_byteAt {s : Segment} {r : Range} {a : Nat}
    (hs_low : s.start_address ≤ r.«end») (hgt : r.«end» < a) (hau : a ≤ U32MAX) :
    (⟨r.«end» + 1, s.data.drop (r.«end» - s.start_address + 1)⟩ : Segment).byteAt a =
      s.byteAt a := by
  rw [byteAt_eq _ _ hau, byteAt_eq _ _ hau]
  simp only [List.length_drop]
  by_cases hc : a - s.start_address < s.data.length
  · rw [if_pos ⟨by omega, by omega⟩, if_pos ⟨by omega, hc⟩, getD_drop]
    congr 2
    omega
  · rw [if_neg (by omega), if_neg (by omega)]

/-- Inside the cut range, no piece produced by `cutSegment` hits. -/
theorem cut_pieces_none_inside {r : Range} {s : Segment} {a : Nat}
    (ha1 : r.start ≤ a) (ha2 : a ≤ r.«end») (hau : a ≤ U32MAX) :
    ∀ p ∈ cutSegment r s, p.byteAt a = none := by
  intro p hp
  unfold cutSegment at hp
  dsimp only at hp
  split at hp
  · rename_i hno
    simp only [List.mem_singleton] at hp
    subst hp
    rcases hno with hno | hno
    · exact byteAt_none_of_end_lt (by omega)
    · exact byteAt_none_of_start_gt (by omega)
  · rename_i hov
    rw [List.mem_append] at hp
    rcases hp with hp | hp
    · split at hp
      · simp only [List.mem_singleton] at hp
        subst hp
        rw [byteAt_eq _ _ hau]
        rw [if_neg]
        simp only [List.length_take]
        omega
      · simp at hp
    · split at hp
      · simp only [List.mem_singleton] at hp
        subst hp
        refine byteAt_none_of_start_gt ?_
        show a < r.«end» + 1
        omega
      · simp at hp

/-- Outside the cut range, scanning the pieces produced by `cutSegment`
yields the original segment's hit value. -/
theorem cut_pieces_scan_outside {r : Range} {s : Segment} {a : Nat}
    (hr : r.start ≤ r.«end») (hau : a ≤ U32MAX)
    (hout : ¬(r.start ≤ a ∧ a ≤ r.«end»)) :
    readByteList (cutSegment r s).reverse a = s.byteAt a := by
  unfold cutSegment
  dsimp only
  split
  · rename_i hno
    rfl
  · rename_i hov
    push_neg at hov
    have hs_low : s.start_address ≤ r.«end» := hov.2
    have hs_high : r.start ≤ s.end_address := hov.1
    rcases Nat.lt_or_ge a r.start with hlt | hge
    · -- below the range: the suffix piece (start r.end + 1) cannot hit
      rw [List.reverse_append]
      have hsuf : readByteList
          (if s.end_address > r.«end» then
            [(⟨r.«end» + 1, s.data.drop (r.«end» - s.start_address + 1)⟩ : Segment)]
           else []).reverse a = none := by
        split
        · exact readByteList_none (by
            intro p hp
            simp only [List.reverse_singleton, List.mem_singleton] at hp
            subst hp
            refine byteAt_none_of_start_gt ?_
            show a < r.«end» + 1
            omega)
        · rfl
      rw [readByteList_append_of_none hsuf]
      split
      · rename_i hpre
        simp only [List.reverse_singleton]
        show (⟨s.start_address, s.data.take (r.start - s.start_address)⟩ : Segment).byteAt a
          = s.byteAt a
        exact prefix_piece_byteAt hlt hau
      · rename_i hpre
        have : s.byteAt a = none := byteAt_none_of_start_gt (by omega)
        rw [this]
        rfl
    · have hgt : r.«end» < a := by omega
      rw [List.reverse_append]
      split
      · rename_i hsuf
        simp only [List.reverse_singleton]
        rcases hval : s.byteAt a with _ | b
        · have hpn : (⟨r.«end» + 1, s.data.drop (r.«end» - s.start_address + 1)⟩ :
              Segment).byteAt a = none := by
            rw [suffix_piece_byteAt hs_low hgt hau, hval]
          rw [List.singleton_append, readByteList_cons_of_none hpn]
          refine readByteList_none ?_
          intro p hp
          split at hp
          · simp only [List.reverse_singleton, List.mem_singleton] at hp
            subst hp
            rw [byteAt_eq _ _ hau, if_neg]
            simp only [List.length_take]
            omega
          · simp at hp
        · have hps : (⟨r.«end» + 1, s.data.drop (r.«end» - s.start_address + 1)⟩ :
              Segment).byteAt a = some b := by
            rw [suffix_piece_byteAt hs_low hgt hau, hval]
          rw [List.singleton_append, readByteList_cons_of_some hps]
      · rename_i hsuf
        have hvn : s.byteAt a = none := byteAt_none_of_end_lt (by omega)
        rw [hvn]
        simp only [List.reverse_nil, List.nil_append]
        refine readByteList_none ?_
        intro p hp
        split at hp
        · simp only [List.reverse_singleton, List.mem_singleton] at hp
          subst hp
          rw [byteAt_eq _ _ hau, if_neg]
          simp only [List.length_take]
          omega
        · simp at hp

end H3xy

namespace H3xy

theorem buildPattern_length (len : Nat) (pat : List Nat) :
    (buildPattern len pat).length = len := by
  simp [buildPattern]

theorem buildPattern_getD {len : Nat} {pat : List Nat} {i : Nat} (h : i < len) :
    (buildPattern len pat).getD i 0 = pat.getD (i % pat.length) 0 := by
  unfold buildPattern
  rw [List.getD_eq_getElem _ _ (by simpa using h)]
  simp

theorem fill_seg_byteAt {r : Range} {pat : List Nat} {a : Nat}
    (hin : r.start ≤ a ∧ a ≤ r.«end») (hre : r.«end» ≤ U32MAX) :
    (⟨r.start, buildPattern r.length pat⟩ : Segment).byteAt a =
      some (pat.getD ((a - r.start) % pat.length) 0) := by
  rw [byteAt_eq _ _ (by omega)]
  dsimp only
  have hlen := buildPattern_length r.length pat
  have hrl : r.length = r.«end» - r.start + 1 := rfl
  rw [if_pos ⟨hin.1, by rw [hlen]; omega⟩, buildPattern_getD (by omega)]

theorem fill_seg_byteAt_none {r : Range} {pat : List Nat} {a : Nat}
    (hr : r.start ≤ r.«end») (hout : ¬(r.start ≤ a ∧ a ≤ r.«end»)) (hau : a ≤ U32MAX) :
    (⟨r.start, buildPattern r.length pat⟩ : Segment).byteAt a = none := by
  rw [byteAt_eq _ _ hau]
  dsimp only
  have hlen := buildPattern_length r.length pat
  have hrl : r.length = r.«end» - r.start + 1 := rfl
  rw [if_neg (by rw [hlen]; omega)]

/-- C7 counterexample: an address that held a byte before `cut(r)` then
`fill(r, pattern, overwrite = false)` does not keep its byte when it lies
inside `r`: the byte 0xAA at 0x1000 is replaced by the pattern byte 0xFF. -/
theorem c7_cut_fill_overwrites_held_byte :
    (⟨[⟨0x1000, [0xAA]⟩]⟩ : HexFile).read_byte 0x1000 = some 0xAA ∧
    (((⟨[⟨0x1000, [0xAA]⟩]⟩ : HexFile).cut ⟨0x1000, 0x1000⟩).fill
        ⟨0x1000, 0x1000⟩ ⟨[0xFF], false⟩).read_byte 0x1000 = some 0xFF := by
  constructor <;> rfl

/-- C7 amended: after `cut(r)` then `fill(r, pattern, overwrite = false)`
with a non-empty pattern, every address inside `r` — in particular every
previously empty one — reads the tiled pattern byte for its offset in `r`,
and every address outside `r` reads exactly what it read before, so every
previously held address outside `r` is unchanged.  (Previously held
addresses inside `r` are replaced by the pattern, as the counterexample
shows.) -/
theorem c7_cut_then_fill (hf : HexFile) (r : Range) (pattern : List Nat) (a : Nat)
    (hpat : pattern ≠ []) (hr : r.start ≤ r.«end») (hre : r.«end» ≤ U32MAX)
    (hau : a ≤ U32MAX) :
    (r.contains a = true →
      ((hf.cut r).fill r ⟨pattern, false⟩).read_byte a =
        some (pattern.getD ((a - r.start) % pattern.length) 0)) ∧
    (r.contains a = false →
      ((hf.cut r).fill r ⟨pattern, false⟩).read_byte a = hf.read_byte a) := by
  have hfillne : (⟨r.start, buildPattern r.length pattern⟩ : Segment).is_empty = false := by
    simp only [Segment.is_empty, Bool.eq_false_iff, ne_eq, List.isEmpty_iff]
    intro hnil
    have hz := congrArg List.length hnil
    rw [buildPattern_length] at hz
    have hrl : r.length = r.«end» - r.start + 1 := rfl
    simp only [List.length_nil] at hz
    omega
  have hshape : ((hf.cut r).fill r ⟨pattern, false⟩).segments =
      (⟨r.start, buildPattern r.length pattern⟩ : Segment) ::
        (hf.segments.flatMap (cutSegment r)).filter (fun s => !s.is_empty) := by
    unfold HexFile.fill HexFile.fill_ranges HexFile.cut HexFile.cut_ranges
      HexFile.set_segments HexFile.prepend_segment
    rw [if_neg (by simpa using hpat)]
    simp only [List.foldl_cons, List.foldl_nil, if_neg (by simp : ¬ false = true)]
    rw [if_neg (by simp [hfillne])]
  constructor
  · intro hcont
    have hin : r.start ≤ a ∧ a ≤ r.«end» := by
      simpa [Range.contains] using hcont
    unfold HexFile.read_byte
    rw [hshape, List.reverse_cons]
    have hnone : readByteList
        ((hf.segments.flatMap (cutSegment r)).filter (fun s => !s.is_empty)).reverse a =
        none := by
      refine readByteList_none ?_
      intro p hp
      rw [List.mem_reverse, List.mem_filter] at hp
      rcases List.mem_flatMap.mp hp.1 with ⟨s, _, hps⟩
      exact cut_pieces_none_inside hin.1 hin.2 hau p hps
    rw [readByteList_append_of_none hnone]
    exact fill_seg_byteAt hin hre
  · intro hcont
    have hout : ¬(r.start ≤ a ∧ a ≤ r.«end») := by
      simpa [Range.contains] using hcont
    unfold HexFile.read_byte
    rw [hshape, List.reverse_cons,
      readByteList_snoc_none _ (fill_seg_byteAt_none hr hout hau),
      ← List.filter_reverse, readByteList_filter_nonempty,
      List.reverse_flatMap]
    exact readByteList_flatMap_congr _ _
      (fun s _ => cut_pieces_scan_outside hr hau hout)

/-- Witness for C7 amended: image `{0x1000: AA}` with `r = [0x1001,0x1002]`
and pattern `[BB, CC]`: inside `r` the tiled pattern is read, outside `r`
the old byte is still read. -/
theorem c7_cut_then_fill_witness :
    ([0xBB, 0xCC] ≠ ([] : List Nat) ∧ (0x1001 : Nat) ≤ 0x1002 ∧ (0x1002 : Nat) ≤ U32MAX ∧
      (0x1002 : Nat) ≤ U32MAX ∧ (0x1000 : Nat) ≤ U32MAX) ∧
    (Range.contains ⟨0x1001, 0x1002⟩ 0x1002 = true ∧
      (((⟨[⟨0x1000, [0xAA]⟩]⟩ : HexFile).cut ⟨0x1001, 0x1002⟩).fill
          ⟨0x1001, 0x1002⟩ ⟨[0xBB, 0xCC], false⟩).read_byte 0x1002 =
        some ([0xBB, 0xCC].getD ((0x1002 - 0x1001) % [0xBB, 0xCC].length) 0)) ∧
    (Range.contains ⟨0x1001, 0x1002⟩ 0x1000 = false ∧
      (((⟨[⟨0x1000, [0xAA]⟩]⟩ : HexFile).cut ⟨0x1001, 0x1002⟩).fill
          ⟨0x1001, 0x1002⟩ ⟨[0xBB, 0xCC], false⟩).read_byte 0x1000 =
        (⟨[⟨0x1000, [0xAA]⟩]⟩ : HexFile).read_byte 0x1000) := by
  refine ⟨⟨by decide, by decide, by decide, by decide, by decide⟩, ⟨by decide, ?_⟩,
    ⟨by decide, ?_⟩⟩
  · exact (c7_cut_then_fill ⟨[⟨0x1000, [0xAA]⟩]⟩ ⟨0x1001, 0x1002⟩ [0xBB, 0xCC] 0x1002
      (by decide) (by decide) (by decide) (by decide)).1 (by decide)
  · exact (c7_cut_then_fill ⟨[⟨0x1000, [0xAA]⟩]⟩ ⟨0x1001, 0x1002⟩ [0xBB, 0xCC] 0x1000
      (by decide) (by decide) (by decide) (by decide)).2 (by decide)

end H3xy


namespace H3xy

/-! ### C4: pipeline stage order -/

theorem forIn_yield_eq_foldl {ε α β : Type} (l : List α) (f : β → α → β) (init : β) :
    ForIn.forIn (m := Except ε) l init (fun a b => pure (ForInStep.yield (f b a))) =
      pure (l.foldl f init) := by
  induction l generalizing init with
  | nil => rfl
  | cons a as ih =>
    rw [List.forIn_cons]
    show (pure (ForInStep.yield (f init a)) : Except ε (ForInStep β)) >>= _ = _
    rw [pure_bind]
    exact ih (f init a)

theorem except_bind_congr {ε α β : Type} {x : Except ε α} {f g : α → Except ε β}
    (h : ∀ a, f a = g a) : x >>= f = x >>= g := by
  cases x with
  | error e => rfl
  | ok a => exact h a

theorem except_forIn_bind_eq {ε α β γ : Type} (l : List α) (init : β)
    (f' : α → β → Except ε (ForInStep β)) (f : β → α → β) (k : β → Except ε γ)
    (hstep : ∀ a b, f' a b = pure (ForInStep.yield (f b a))) :
    (ForIn.forIn l init f') >>= k = k (l.foldl f init) := by
  have hf : f' = fun a b => pure (ForInStep.yield (f b a)) :=
    funext fun a => funext fun b => hstep a b
  rw [hf, forIn_yield_eq_foldl, pure_bind]

theorem run_spec_checksum (ε : Type) (p : Pipeline) (hf : HexFile) :
    runFromChecksum ε p hf = specFromChecksum ε p hf := by
  unfold runFromChecksum specFromChecksum
  rcases p.checksum with _ | cs
  · rfl
  · rfl

theorem run_spec_swapLong (ε : Type) (p : Pipeline) (hf : HexFile) :
    runFromSwapLong ε p hf = specFromSwapLong ε p hf := by
  unfold runFromSwapLong specFromSwapLong
  cases p.swap_long
  · exact run_spec_checksum ε p hf
  · exact except_bind_congr fun a => run_spec_checksum ε p a

theorem run_spec_swapWord (ε : Type) (p : Pipeline) (hf : HexFile) :
    runFromSwapWord ε p hf = specFromSwapWord ε p hf := by
  unfold runFromSwapWord specFromSwapWord
  cases p.swap_word
  · exact run_spec_swapLong ε p hf
  · exact except_bind_congr fun a => run_spec_swapLong ε p a

theorem run_spec_split (ε : Type) (p : Pipeline) (hf : HexFile) :
    runFromSplit ε p hf = specFromSplit ε p hf := by
  unfold runFromSplit specFromSplit
  rcases p.split with _ | size
  · exact run_spec_swapWord ε p hf
  · exact run_spec_swapWord ε p _

theorem run_spec_align (ε : Type) (p : Pipeline) (hf : HexFile) :
    runFromAlign ε p hf = specFromAlign ε p hf := by
  unfold runFromAlign specFromAlign
  rcases p.align with _ | o
  · exact run_spec_split ε p hf
  · exact except_bind_congr fun a => run_spec_split ε p a

theorem run_spec_fillAll (ε : Type) (p : Pipeline) (hf : HexFile) :
    runFromFillAll ε p hf = specFromFillAll ε p hf := by
  unfold runFromFillAll specFromFillAll
  rcases p.fill_all with _ | fill_byte
  · exact run_spec_align ε p hf
  · exact run_spec_align ε p _

theorem run_spec_log (ε : Type) (p : Pipeline) (ll : String → Except ε HexFile)
    (hf : HexFile) : runFromLog ε p ll hf = specFromLog ε p ll hf := by
  unfold runFromLog specFromLog
  rcases p.log_commands with _ | commands
  · exact run_spec_fillAll ε p hf
  · exact except_bind_congr fun a => run_spec_fillAll ε p a

theorem run_spec_mergeO (ε : Type) (p : Pipeline) (ll : String → Except ε HexFile)
    (hf : HexFile) : runFromMergeO ε p ll hf = specFromMergeO ε p ll hf := by
  unfold runFromMergeO specFromMergeO
  refine Eq.trans (except_forIn_bind_eq p.merge_opaque hf _
    (fun hf m => flag_merge_opaque hf m.other m.offset m.range) _
    (fun a b => rfl)) ?_
  exact run_spec_log ε p ll _

theorem run_spec_mergeT (ε : Type) (p : Pipeline) (ll : String → Except ε HexFile)
    (hf : HexFile) : runFromMergeT ε p ll hf = specFromMergeT ε p ll hf := by
  unfold runFromMergeT specFromMergeT
  refine Eq.trans (except_forIn_bind_eq p.merge_transparent hf _
    (fun hf m => flag_merge_transparent hf m.other m.offset m.range) _
    (fun a b => rfl)) ?_
  exact run_spec_mergeO ε p ll _

theorem run_spec_fill (ε : Type) (p : Pipeline) (rf : Range → List Nat)
    (ll : String → Except ε HexFile) (hf : HexFile) :
    runFromFill ε p rf ll hf = specFromFill ε p rf ll hf := by
  unfold runFromFill specFromFill
  rcases p.fill_pattern with _ | pattern
  · exact run_spec_mergeT ε p ll _
  · exact run_spec_mergeT ε p ll _

theorem run_spec_remap (ε : Type) (p : Pipeline) (rf : Range → List Nat)
    (ll : String → Except ε HexFile) (hf : HexFile) :
    runFromRemap ε p rf ll hf = specFromRemap ε p rf ll hf := by
  unfold runFromRemap specFromRemap
  rcases p.remap with _ | o
  · exact run_spec_fill ε p rf ll hf
  · exact except_bind_congr fun a => run_spec_fill ε p rf ll a

theorem run_spec_star08 (ε : Type) (p : Pipeline) (rf : Range → List Nat)
    (ll : String → Except ε HexFile) (hf : HexFile) :
    runFromStar08 ε p rf ll hf = specFromStar08 ε p rf ll hf := by
  unfold runFromStar08 specFromStar08
  cases p.map_star08
  · exact run_spec_remap ε p rf ll hf
  · exact except_bind_congr fun a => run_spec_remap ε p rf ll a

theorem run_spec_star12x (ε : Type) (p : Pipeline) (rf : Range → List Nat)
    (ll : String → Except ε HexFile) (hf : HexFile) :
    runFromStar12x ε p rf ll hf = specFromStar12x ε p rf ll hf := by
  unfold runFromStar12x specFromStar12x
  cases p.map_star12x
  · exact run_spec_star08 ε p rf ll hf
  · exact except_bind_congr fun a => run_spec_star08 ε p rf ll a

/-- C4: for every pipeline and every choice of random-fill and loader
functions, `Pipeline.execute` equals the sequential composition of the
individual stages in the spec's order (preset mapping, remap, fill, cut,
transparent merges, opaque merges, filter, log commands, fill-all, align,
split, swap word, swap long, checksum), each stage skipped when its inputs
are absent and each observing the full effect of all earlier stages. -/
theorem c4_pipeline_stage_order {ε : Type} (p : Pipeline) (rf : Range → List Nat)
    (ll : String → Except ε HexFile) :
    p.execute rf ll = executeStagesSpec p rf ll := by
  unfold Pipeline.execute executeStagesSpec
  cases p.map_star12
  · exact run_spec_star12x ε p rf ll p.hexfile
  · exact except_bind_congr fun a => run_spec_star12x ε p rf ll a

end H3xy

namespace H3xy

/-! ### C9: the normalized-chain invariant and idempotence -/

theorem segWF_data_ne {s : Segment} (h : segWF s = true) : s.data ≠ [] := by
  intro hd
  unfold segWF at h
  rw [hd] at h
  simp at h

theorem segWF_bound {s : Segment} (h : segWF s = true) :
    s.start_address + s.data.length ≤ U32MAX + 1 := by
  unfold segWF at h
  simp only [Bool.and_eq_true, decide_eq_true_eq] at h
  exact h.2

theorem segWF_len_pos {s : Segment} (h : segWF s = true) : 0 < s.data.length := by
  have := segWF_data_ne h
  cases hd : s.data with
  | nil => exact absurd hd this
  | cons a t => simp [hd]

theorem segWF_end_address {s : Segment} (h : segWF s = true) :
    s.end_address = s.start_address + s.data.length - 1 := by
  have hne := segWF_data_ne h
  have hb := segWF_bound h
  have hp := segWF_len_pos h
  unfold Segment.end_address
  rw [if_neg (by simpa [List.isEmpty_iff] using hne)]
  unfold checkedAdd checkedSub
  by_cases hc : s.start_address + s.data.length ≤ U32MAX
  · rw [if_pos hc]
    simp only [Option.some_bind]
    rw [if_pos (by omega)]
    rfl
  · rw [if_neg hc]
    simp only [Option.none_bind, Option.getD_none]
    omega

theorem segWF_start_le_end {s : Segment} (h : segWF s = true) :
    s.start_address ≤ s.end_address := by
  have := segWF_end_address h
  have := segWF_len_pos h
  omega

theorem segWF_end_le_max {s : Segment} (h : segWF s = true) :
    s.end_address ≤ U32MAX := by
  have := segWF_end_address h
  have := segWF_bound h
  have := segWF_len_pos h
  omega

theorem chainFrom_head {p s : Segment} {rest : List Segment}
    (h : chainFrom p (s :: rest) = true) :
    segWF s = true ∧ p.end_address + 2 ≤ s.start_address ∧ chainFrom s rest = true := by
  unfold chainFrom at h
  simp only [Bool.and_eq_true, decide_eq_true_eq] at h
  exact ⟨h.1.1, h.1.2, h.2⟩

theorem chainFrom_chainWF {p : Segment} {l : List Segment}
    (h : chainFrom p l = true) : chainWF l = true := by
  cases l with
  | nil => rfl
  | cons s rest =>
    obtain ⟨h1, _, h3⟩ := chainFrom_head h
    unfold chainWF
    simp [h1, h3]

theorem chainWF_head {s : Segment} {rest : List Segment}
    (h : chainWF (s :: rest) = true) : segWF s = true ∧ chainFrom s rest = true := by
  unfold chainWF at h
  simp only [Bool.and_eq_true] at h
  exact h

theorem chainFrom_all_ge {p : Segment} {l : List Segment} (h : chainFrom p l = true) :
    ∀ s ∈ l, p.end_address + 2 ≤ s.start_address := by
  induction l generalizing p with
  | nil => intro s hs; cases hs
  | cons t rest ih =>
    obtain ⟨h1, h2, h3⟩ := chainFrom_head h
    intro s hs
    rcases List.mem_cons.mp hs with rfl | hs
    · exact h2
    · have := ih h3 s hs
      have := segWF_start_le_end h1
      omega

theorem chainWF_all_wf {l : List Segment} (h : chainWF l = true) :
    ∀ s ∈ l, segWF s = true := by
  induction l with
  | nil => intro s hs; cases hs
  | cons t rest ih =>
    obtain ⟨h1, h2⟩ := chainWF_head h
    intro s hs
    rcases List.mem_cons.mp hs with rfl | hs
    · exact h1
    · exact ih (chainFrom_chainWF h2) s hs

theorem chainWF_sorted {l : List Segment} (h : chainWF l = true) :
    l.Sorted (fun a b => a.start_address ≤ b.start_address) := by
  induction l with
  | nil => exact List.sorted_nil
  | cons s rest ih =>
    obtain ⟨h1, h2⟩ := chainWF_head h
    refine List.sorted_cons.mpr ⟨?_, ih (chainFrom_chainWF h2)⟩
    intro t ht
    have := chainFrom_all_ge h2 t ht
    have := segWF_start_le_end h1
    omega

theorem truncate_of_segWF {s : Segment} (h : segWF s = true) :
    truncate_segment_to_u32 s = some s := by
  have hne := segWF_data_ne h
  have hb := segWF_bound h
  have hp := segWF_len_pos h
  have hsmax : s.start_address ≤ U32MAX := by omega
  unfold truncate_segment_to_u32
  rw [if_neg (by simp [Segment.is_empty, List.isEmpty_iff, hne])]
  have hml : U32MAX - s.start_address + 1 ≠ 0 := by omega
  rw [if_neg hml]
  have hlen : min s.data.length (U32MAX - s.start_address + 1) = s.data.length := by omega
  rw [hlen, if_neg (by omega), if_pos rfl]

theorem filterMap_truncate_of_wf {l : List Segment} (h : ∀ s ∈ l, segWF s = true) :
    l.filterMap truncate_segment_to_u32 = l := by
  induction l with
  | nil => rfl
  | cons s rest ih =>
    rw [List.filterMap_cons, truncate_of_segWF (h s (List.mem_cons_self s rest))]
    rw [ih (fun t ht => h t (List.mem_cons_of_mem s ht))]

theorem hasOverlapChain_of_chainFrom {p : Segment} {l : List Segment}
    (h : chainFrom p l = true) : hasOverlapChain p.end_address l = false := by
  induction l generalizing p with
  | nil => rfl
  | cons s rest ih =>
    obtain ⟨h1, h2, h3⟩ := chainFrom_head h
    unfold hasOverlapChain
    rw [if_neg (by omega)]
    exact ih h3

theorem has_overlap_of_chainWF {l : List Segment} (h : chainWF l = true) :
    has_overlap l = false := by
  cases l with
  | nil => rfl
  | cons s rest =>
    obtain ⟨_, h2⟩ := chainWF_head h
    exact hasOverlapChain_of_chainFrom h2

theorem mergeAdjacentFrom_of_chainFrom {cur : Segment} {l : List Segment}
    (h : chainFrom cur l = true) : mergeAdjacentFrom cur l = cur :: l := by
  induction l generalizing cur with
  | nil => rfl
  | cons s rest ih =>
    obtain ⟨h1, h2, h3⟩ := chainFrom_head h
    unfold mergeAdjacentFrom
    have hcont : cur.is_contiguous_with s = false := by
      unfold Segment.is_contiguous_with checkedAdd
      by_cases hc : cur.end_address + 1 ≤ U32MAX
      · rw [if_pos hc]
        rw [beq_eq_false_iff_ne]
        intro heq
        have := Option.some.inj heq
        omega
      · rw [if_neg hc]
        rfl
    rw [hcont]
    simp only [Bool.false_eq_true, if_false]
    rw [ih h3]

theorem merge_adjacent_of_chainWF {l : List Segment} (h : chainWF l = true) :
    merge_adjacent_segments l = l := by
  cases l with
  | nil => rfl
  | cons s rest =>
    obtain ⟨_, h2⟩ := chainWF_head h
    exact mergeAdjacentFrom_of_chainFrom h2

theorem sortByStart_of_sorted {l : List Segment}
    (h : l.Sorted (fun a b => a.start_address ≤ b.start_address)) :
    sortByStart l = l := by
  unfold sortByStart
  exact List.Sorted.insertionSort_eq h

theorem normalized_lossy_of_chainWF {l : List Segment} (h : chainWF l = true) :
    HexFile.normalized_lossy ⟨l⟩ = ⟨l⟩ := by
  unfold HexFile.normalized_lossy
  simp only
  rw [filterMap_truncate_of_wf (chainWF_all_wf h)]
  cases l with
  | nil => rfl
  | cons s rest =>
    rw [sortByStart_of_sorted (chainWF_sorted h)]
    rw [has_overlap_of_chainWF h]
    rw [if_neg (by simp), if_neg (by simp)]
    rw [merge_adjacent_of_chainWF h]

end H3xy

namespace H3xy

theorem truncate_segWF {s t : Segment} (hstart : s.start_address ≤ U32MAX)
    (h : truncate_segment_to_u32 s = some t) : segWF t = true := by
  unfold truncate_segment_to_u32 at h
  by_cases he : s.is_empty
  · rw [if_pos he] at h; cases h
  · rw [if_neg he] at h
    have hne : s.data ≠ [] := by
      intro hd
      exact he (by simp [Segment.is_empty, hd])
    have hlenpos : 0 < s.data.length := List.length_pos.mpr hne
    have hml : ¬(U32MAX - s.start_address + 1 = 0) := by omega
    rw [if_neg hml] at h
    have hminpos : ¬(min s.data.length (U32MAX - s.start_address + 1) = 0) := by
      omega
    rw [if_neg hminpos] at h
    by_cases hfull : min s.data.length (U32MAX - s.start_address + 1) = s.data.length
    · rw [if_pos hfull] at h
      cases h
      unfold segWF
      simp only [Bool.and_eq_true, Bool.not_eq_true', decide_eq_true_eq]
      constructor
      · simpa [List.isEmpty_iff] using hne
      · omega
    · rw [if_neg hfull] at h
      cases h
      unfold segWF
      simp only [Bool.and_eq_true, Bool.not_eq_true', decide_eq_true_eq]
      have htk : (s.data.take (min s.data.length (U32MAX - s.start_address + 1))).length
          = min s.data.length (U32MAX - s.start_address + 1) := by
        rw [List.length_take]
        omega
      constructor
      · rw [List.isEmpty_eq_false]
        intro hnil
        have hl := congrArg List.length hnil
        rw [htk] at hl
        simp only [List.length_nil] at hl
        omega
      · simp only [htk]
        omega

theorem wchainFrom_head {p s : Segment} {rest : List Segment}
    (h : wchainFrom p (s :: rest) = true) :
    segWF s = true ∧ p.end_address + 1 ≤ s.start_address ∧ wchainFrom s rest = true := by
  unfold wchainFrom at h
  simp only [Bool.and_eq_true, decide_eq_true_eq] at h
  exact ⟨h.1.1, h.1.2, h.2⟩

theorem wchainFrom_cons {p s : Segment} {rest : List Segment} (h1 : segWF s = true)
    (h2 : p.end_address + 1 ≤ s.start_address) (h3 : wchainFrom s rest = true) :
    wchainFrom p (s :: rest) = true := by
  unfold wchainFrom
  simp only [Bool.and_eq_true, decide_eq_true_eq]
  exact ⟨⟨h1, h2⟩, h3⟩

theorem hasOverlapChain_wchain {l : List Segment} (hwf : ∀ s ∈ l, segWF s = true) :
    ∀ e : Nat, hasOverlapChain e l = false →
      ∀ p : Segment, p.end_address = e → wchainFrom p l = true := by
  induction l with
  | nil => intro e _ p _; rfl
  | cons s rest ih =>
    intro e h p hp
    unfold hasOverlapChain at h
    by_cases hc : s.start_address ≤ e
    · rw [if_pos hc] at h; cases h
    · rw [if_neg hc] at h
      refine wchainFrom_cons (hwf s (List.mem_cons_self s rest)) (by omega) ?_
      exact ih (fun t ht => hwf t (List.mem_cons_of_mem s ht)) s.end_address h s rfl

theorem wchain_of_no_overlap {l : List Segment} (hwf : ∀ s ∈ l, segWF s = true)
    (h : has_overlap l = false) : wchainWF l = true := by
  cases l with
  | nil => rfl
  | cons s rest =>
    unfold has_overlap at h
    unfold wchainWF
    simp only [Bool.and_eq_true]
    refine ⟨hwf s (List.mem_cons_self s rest), ?_⟩
    exact hasOverlapChain_wchain (fun t ht => hwf t (List.mem_cons_of_mem s ht))
      s.end_address h s rfl

theorem chainWF_cons {s : Segment} {rest : List Segment} (h1 : segWF s = true)
    (h2 : chainFrom s rest = true) : chainWF (s :: rest) = true := by
  unfold chainWF
  simp [h1, h2]

theorem chainFrom_cons {p s : Segment} {rest : List Segment} (h1 : segWF s = true)
    (h2 : p.end_address + 2 ≤ s.start_address) (h3 : chainFrom s rest = true) :
    chainFrom p (s :: rest) = true := by
  unfold chainFrom
  simp only [Bool.and_eq_true, decide_eq_true_eq]
  exact ⟨⟨h1, h2⟩, h3⟩

theorem mergeAdjacentFrom_chainWF {l : List Segment} :
    ∀ cur : Segment, segWF cur = true → wchainFrom cur l = true →
      chainWF (mergeAdjacentFrom cur l) = true ∧
      ∃ c tail, mergeAdjacentFrom cur l = c :: tail ∧
        c.start_address = cur.start_address := by
  induction l with
  | nil =>
    intro cur hcur _
    exact ⟨chainWF_cons hcur rfl, cur, [], rfl, rfl⟩
  | cons s rest ih =>
    intro cur hcur hw
    obtain ⟨hs, hge, hrest⟩ := wchainFrom_head hw
    unfold mergeAdjacentFrom
    by_cases hc : cur.is_contiguous_with s = true
    · rw [if_pos hc]
      have hcontig : cur.end_address + 1 = s.start_address := by
        unfold Segment.is_contiguous_with checkedAdd at hc
        by_cases hb : cur.end_address + 1 ≤ U32MAX
        · rw [if_pos hb] at hc
          simpa using hc
        · rw [if_neg hb] at hc
          cases hc
      have hcurE := segWF_end_address hcur
      have hcurP := segWF_len_pos hcur
      have hsE := segWF_end_address hs
      have hsP := segWF_len_pos hs
      have hsB := segWF_bound hs
      have hmerged : segWF ⟨cur.start_address, cur.data ++ s.data⟩ = true := by
        unfold segWF
        simp only [Bool.and_eq_true, Bool.not_eq_true', decide_eq_true_eq,
          List.length_append]
        constructor
        · rw [List.isEmpty_eq_false]
          intro hnil
          rcases List.append_eq_nil.mp hnil with ⟨h1, _⟩
          exact segWF_data_ne hcur h1
        · omega
      have hmergedE : Segment.end_address ⟨cur.start_address, cur.data ++ s.data⟩
          = s.end_address := by
        rw [segWF_end_address hmerged]
        simp only [List.length_append]
        omega
      have hw2 : wchainFrom ⟨cur.start_address, cur.data ++ s.data⟩ rest = true := by
        cases rest with
        | nil => rfl
        | cons t ts =>
          obtain ⟨ht, hge2, hts⟩ := wchainFrom_head hrest
          refine wchainFrom_cons ht ?_ hts
          rw [hmergedE]
          exact hge2
      obtain ⟨hchain, c, tail, heq, hstart⟩ := ih _ hmerged hw2
      exact ⟨hchain, c, tail, heq, by simpa using hstart⟩
    · rw [if_neg hc]
      have hnotc : cur.end_address + 1 ≠ s.start_address := by
        intro heq
        apply hc
        unfold Segment.is_contiguous_with checkedAdd
        have hsmax : s.start_address ≤ U32MAX := by
          have := segWF_start_le_end hs
          have := segWF_end_le_max hs
          omega
        rw [if_pos (by omega)]
        simp [heq]
      obtain ⟨hchain, c, tail, heq, hstart⟩ := ih s hs hrest
      refine ⟨?_, cur, mergeAdjacentFrom s rest, rfl, rfl⟩
      rw [heq]
      rw [heq] at hchain
      obtain ⟨hc1, hc2⟩ := chainWF_head hchain
      refine chainWF_cons hcur (chainFrom_cons hc1 ?_ hc2)
      rw [hstart]
      omega

theorem merge_adjacent_chainWF {l : List Segment} (h : wchainWF l = true) :
    chainWF (merge_adjacent_segments l) = true := by
  cases l with
  | nil => rfl
  | cons s rest =>
    unfold wchainWF at h
    simp only [Bool.and_eq_true] at h
    exact (mergeAdjacentFrom_chainWF s h.1 h.2).1

end H3xy

namespace H3xy

theorem disjSeg_symm {a b : Segment} (h : disjSeg a b) : disjSeg b a := by
  unfold disjSeg at *
  omega

theorem disjSeg_of_sub {x c y : Segment} (hd : disjSeg c y) (h1 : c.start_address ≤ x.start_address)
    (h2 : x.end_address ≤ c.end_address) : disjSeg x y := by
  unfold disjSeg at *
  omega

theorem not_disj_common {x y : Segment} (hx : segWF x = true) (hy : segWF y = true)
    (h : ¬ disjSeg x y) :
    ∃ a, x.start_address ≤ a ∧ a ≤ x.end_address ∧ y.start_address ≤ a ∧ a ≤ y.end_address := by
  have := segWF_start_le_end hx
  have := segWF_start_le_end hy
  unfold disjSeg at h
  exact ⟨max x.start_address y.start_address, by omega, by omega, by omega, by omega⟩

theorem take_piece_segWF {cur : Segment} {n : Nat} (hwf : segWF cur = true) (hn : 0 < n) :
    segWF ⟨cur.start_address, cur.data.take n⟩ = true ∧
    Segment.end_address ⟨cur.start_address, cur.data.take n⟩ =
      cur.start_address + min n cur.data.length - 1 := by
  have hb := segWF_bound hwf
  have hp := segWF_len_pos hwf
  have hlen : (cur.data.take n).length = min n cur.data.length := List.length_take n cur.data
  have hw : segWF ⟨cur.start_address, cur.data.take n⟩ = true := by
    unfold segWF
    simp only [Bool.and_eq_true, Bool.not_eq_true', decide_eq_true_eq]
    constructor
    · rw [List.isEmpty_eq_false]
      intro hnil
      have := congrArg List.length hnil
      rw [hlen] at this
      simp only [List.length_nil] at this
      omega
    · simp only [hlen]
      omega
  refine ⟨hw, ?_⟩
  rw [segWF_end_address hw]
  simp only [hlen]

theorem drop_piece_segWF {cur : Segment} {off : Nat} (hwf : segWF cur = true)
    (hoff : off < cur.data.length) :
    segWF ⟨cur.start_address + off, cur.data.drop off⟩ = true ∧
    Segment.end_address ⟨cur.start_address + off, cur.data.drop off⟩ = cur.end_address := by
  have hb := segWF_bound hwf
  have hp := segWF_len_pos hwf
  have hlen : (cur.data.drop off).length = cur.data.length - off := List.length_drop off cur.data
  have hw : segWF ⟨cur.start_address + off, cur.data.drop off⟩ = true := by
    unfold segWF
    simp only [Bool.and_eq_true, Bool.not_eq_true', decide_eq_true_eq]
    constructor
    · rw [List.isEmpty_eq_false]
      intro hnil
      have := congrArg List.length hnil
      rw [hlen] at this
      simp only [List.length_nil] at this
      omega
    · simp only [hlen]
      omega
  refine ⟨hw, ?_⟩
  rw [segWF_end_address hw, segWF_end_address hwf]
  simp only [hlen]
  omega

theorem overlayCore_mem {segS segE : Nat} (l : List Segment) :
    ∀ (ns : Option Segment) (x : Segment),
      (∀ c ∈ l, segWF c = true) →
      x ∈ overlayCore segS segE l ns →
      (∃ n, ns = some n ∧ x = n) ∨
        (segWF x = true ∧ ∃ c ∈ l, c.start_address ≤ x.start_address ∧
          x.end_address ≤ c.end_address ∧
          (x.end_address < segS ∨ segE < x.start_address)) := by
  induction l with
  | nil =>
    intro ns x _ hx
    unfold overlayCore at hx
    cases ns with
    | none => cases hx
    | some n =>
      simp only [Option.toList_some, List.mem_singleton] at hx
      exact Or.inl ⟨n, rfl, hx⟩
  | cons cur rest ih =>
    intro ns x hwf hx
    have hcur : segWF cur = true := hwf cur (List.mem_cons_self cur rest)
    have hrest : ∀ c ∈ rest, segWF c = true := fun c hc => hwf c (List.mem_cons_of_mem cur hc)
    have hcurP := segWF_len_pos hcur
    have hcurB := segWF_bound hcur
    have hcurE := segWF_end_address hcur
    have hleft : ∀ y ∈ (if cur.start_address < segS then
          if 0 < segS - cur.start_address then
            [(⟨cur.start_address, cur.data.take (segS - cur.start_address)⟩ : Segment)]
          else [] else []),
        segWF y = true ∧ cur.start_address ≤ y.start_address ∧
          y.end_address ≤ cur.end_address ∧ y.end_address < segS := by
      intro y hy
      by_cases hlt : cur.start_address < segS
      · rw [if_pos hlt, if_pos (by omega)] at hy
        simp only [List.mem_singleton] at hy
        subst hy
        obtain ⟨hw, he⟩ := take_piece_segWF hcur (n := segS - cur.start_address) (by omega)
        refine ⟨hw, le_refl _, ?_, ?_⟩
        · rw [he, hcurE]
          omega
        · rw [he]
          omega
      · rw [if_neg hlt] at hy
        cases hy
    unfold overlayCore at hx
    by_cases hc1 : cur.end_address < segS
    · rw [if_pos hc1] at hx
      rcases List.mem_cons.mp hx with hxx | hx2
      · subst hxx
        exact Or.inr ⟨hcur, x, List.mem_cons_self x rest, le_refl _, le_refl _, Or.inl hc1⟩
      · rcases ih ns x hrest hx2 with h | ⟨hwx, c, hcm, h1, h2, h3⟩
        · exact Or.inl h
        · exact Or.inr ⟨hwx, c, List.mem_cons_of_mem cur hcm, h1, h2, h3⟩
    · rw [if_neg hc1] at hx
      by_cases hc2 : segE < cur.start_address
      · rw [if_pos hc2] at hx
        simp only [List.mem_append, List.mem_cons] at hx
        rcases hx with hx2 | hxx | hx3
        · cases ns with
          | none => cases hx2
          | some n =>
            simp only [Option.toList_some, List.mem_singleton] at hx2
            exact Or.inl ⟨n, rfl, hx2⟩
        · subst hxx
          exact Or.inr ⟨hcur, x, List.mem_cons_self x rest, le_refl _, le_refl _,
            Or.inr hc2⟩
        · rcases ih none x hrest hx3 with ⟨n, hn, _⟩ | ⟨hwx, c, hcm, h1, h2, h3⟩
          · cases hn
          · exact Or.inr ⟨hwx, c, List.mem_cons_of_mem cur hcm, h1, h2, h3⟩
      · rw [if_neg hc2] at hx
        by_cases hc3 : segE < cur.end_address
        · rw [if_pos hc3] at hx
          simp only [List.mem_append] at hx
          rcases hx with ((hx2 | hx3) | hx4) | hx5
          · obtain ⟨hw, h1, h2, h3⟩ := hleft x hx2
            exact Or.inr ⟨hw, cur, List.mem_cons_self cur rest, h1, h2, Or.inl h3⟩
          · cases ns with
            | none => cases hx3
            | some n =>
              simp only [Option.toList_some, List.mem_singleton] at hx3
              exact Or.inl ⟨n, rfl, hx3⟩
          · rcases hadd : checkedAdd segE 1 with _ | right_start
            · rw [hadd] at hx4
              cases hx4
            · rw [hadd] at hx4
              have hrs : right_start = segE + 1 := by
                unfold checkedAdd at hadd
                by_cases hb : segE + 1 ≤ U32MAX
                · rw [if_pos hb] at hadd
                  exact (Option.some.inj hadd).symm
                · rw [if_neg hb] at hadd
                  cases hadd
              by_cases hoff : right_start - cur.start_address < cur.data.length
              · simp only [if_pos hoff] at hx4
                simp only [List.mem_singleton] at hx4
                subst hx4
                have hstart : cur.start_address + (right_start - cur.start_address)
                    = right_start := by omega
                obtain ⟨hw, he⟩ := drop_piece_segWF hcur hoff
                rw [hstart] at hw he
                refine Or.inr ⟨hw, cur, List.mem_cons_self cur rest, ?_, ?_, Or.inr ?_⟩
                · show cur.start_address ≤ right_start
                  omega
                · rw [he]
                · show segE < right_start
                  omega
              · simp only [if_neg hoff] at hx4
                cases hx4
          · rcases ih none x hrest hx5 with ⟨n, hn, _⟩ | ⟨hwx, c, hcm, h1, h2, h3⟩
            · cases hn
            · exact Or.inr ⟨hwx, c, List.mem_cons_of_mem cur hcm, h1, h2, h3⟩
        · rw [if_neg hc3] at hx
          simp only [List.mem_append] at hx
          rcases hx with hx2 | hx3
          · obtain ⟨hw, h1, h2, h3⟩ := hleft x hx2
            exact Or.inr ⟨hw, cur, List.mem_cons_self cur rest, h1, h2, Or.inl h3⟩
          · rcases ih ns x hrest hx3 with h | ⟨hwx, c, hcm, h1, h2, h3⟩
            · exact Or.inl h
            · exact Or.inr ⟨hwx, c, List.mem_cons_of_mem cur hcm, h1, h2, h3⟩

end H3xy

namespace H3xy

theorem pairwise_of_length_le_one {α : Type} {r : α → α → Prop} {l : List α}
    (h : l.length ≤ 1) : l.Pairwise r := by
  cases l with
  | nil => exact List.Pairwise.nil
  | cons a t =>
    cases t with
    | nil => exact List.pairwise_singleton _ _
    | cons b u => simp at h

theorem disjSeg_of_sub2 {a b cu c : Segment} (hd : disjSeg cu c)
    (ha1 : cu.start_address ≤ a.start_address) (ha2 : a.end_address ≤ cu.end_address)
    (hb1 : c.start_address ≤ b.start_address) (hb2 : b.end_address ≤ c.end_address) :
    disjSeg a b := by
  unfold disjSeg at *
  omega

theorem overlayCore_pairwise {segS segE : Nat} (hSE : segS ≤ segE) (l : List Segment) :
    ∀ ns : Option Segment,
      (∀ c ∈ l, segWF c = true) →
      l.Pairwise disjSeg →
      (∀ n, ns = some n → segWF n = true ∧ n.start_address = segS ∧ n.end_address = segE) →
      (overlayCore segS segE l ns).Pairwise disjSeg := by
  induction l with
  | nil =>
    intro ns _ _ _
    unfold overlayCore
    cases ns with
    | none => exact List.Pairwise.nil
    | some n => exact List.pairwise_singleton _ _
  | cons cur rest ih =>
    intro ns hwf hpw hns
    have hcur : segWF cur = true := hwf cur (List.mem_cons_self cur rest)
    have hrest : ∀ c ∈ rest, segWF c = true := fun c hc => hwf c (List.mem_cons_of_mem cur hc)
    have hpcur : ∀ y ∈ rest, disjSeg cur y := (List.pairwise_cons.mp hpw).1
    have hprest : rest.Pairwise disjSeg := (List.pairwise_cons.mp hpw).2
    have hcurP := segWF_len_pos hcur
    have hcurB := segWF_bound hcur
    have hcurE := segWF_end_address hcur
    have hcurSE := segWF_start_le_end hcur
    have hleft : ∀ y ∈ (if cur.start_address < segS then
          if 0 < segS - cur.start_address then
            [(⟨cur.start_address, cur.data.take (segS - cur.start_address)⟩ : Segment)]
          else [] else []),
        segWF y = true ∧ cur.start_address ≤ y.start_address ∧
          y.end_address ≤ cur.end_address ∧ y.end_address < segS := by
      intro y hy
      by_cases hlt : cur.start_address < segS
      · rw [if_pos hlt, if_pos (by omega)] at hy
        simp only [List.mem_singleton] at hy
        subst hy
        obtain ⟨hw, he⟩ := take_piece_segWF hcur (n := segS - cur.start_address) (by omega)
        refine ⟨hw, le_refl _, ?_, ?_⟩
        · rw [he, hcurE]
          omega
        · rw [he]
          omega
      · rw [if_neg hlt] at hy
        cases hy
    have hright : cur.start_address ≤ segE → ∀ y ∈ (match checkedAdd segE 1 with
          | some right_start =>
            if right_start - cur.start_address < cur.data.length then
              [(⟨right_start, cur.data.drop (right_start - cur.start_address)⟩ : Segment)]
            else []
          | none => ([] : List Segment)),
        segWF y = true ∧ cur.start_address ≤ y.start_address ∧
          y.end_address ≤ cur.end_address ∧ segE < y.start_address := by
      intro hcs y hy
      rcases hadd : checkedAdd segE 1 with _ | right_start
      · rw [hadd] at hy
        cases hy
      · rw [hadd] at hy
        have hrs : right_start = segE + 1 := by
          unfold checkedAdd at hadd
          by_cases hb : segE + 1 ≤ U32MAX
          · rw [if_pos hb] at hadd
            exact (Option.some.inj hadd).symm
          · rw [if_neg hb] at hadd
            cases hadd
        by_cases hoff : right_start - cur.start_address < cur.data.length
        · simp only [if_pos hoff] at hy
          simp only [List.mem_singleton] at hy
          subst hy
          have hstart : cur.start_address + (right_start - cur.start_address)
              = right_start := by omega
          obtain ⟨hw, he⟩ := drop_piece_segWF hcur hoff
          rw [hstart] at hw he
          refine ⟨hw, ?_, ?_, ?_⟩
          · show cur.start_address ≤ right_start
            omega
          · rw [he]
          · show segE < right_start
            omega
        · simp only [if_neg hoff] at hy
          cases hy
    unfold overlayCore
    by_cases hc1 : cur.end_address < segS
    · rw [if_pos hc1]
      refine List.pairwise_cons.mpr ⟨?_, ih ns hrest hprest hns⟩
      intro y hy
      rcases overlayCore_mem rest ns y hrest hy with ⟨n, hn, hyn⟩ | ⟨hwy, c, hcm, h1, h2, h3⟩
      · subst hyn
        obtain ⟨hnw, hnS, hnE⟩ := hns _ hn
        unfold disjSeg
        omega
      · exact disjSeg_of_sub2 (hpcur c hcm) (le_refl _) (le_refl _) h1 h2
    · rw [if_neg hc1]
      by_cases hc2 : segE < cur.start_address
      · rw [if_pos hc2]
        have hrec := ih none hrest hprest (fun n hn => by cases hn)
        have hmemrec : ∀ y ∈ overlayCore segS segE rest none, segWF y = true ∧
            ∃ c ∈ rest, c.start_address ≤ y.start_address ∧ y.end_address ≤ c.end_address ∧
              (y.end_address < segS ∨ segE < y.start_address) := by
          intro y hy
          rcases overlayCore_mem rest none y hrest hy with ⟨n, hn, _⟩ | h
          · cases hn
          · exact h
        refine List.pairwise_append.mpr ⟨?_, ?_, ?_⟩
        · exact pairwise_of_length_le_one (by cases ns <;> simp)
        · refine List.pairwise_cons.mpr ⟨?_, hrec⟩
          intro y hy
          obtain ⟨hwy, c, hcm, h1, h2, _⟩ := hmemrec y hy
          exact disjSeg_of_sub2 (hpcur c hcm) (le_refl _) (le_refl _) h1 h2
        · intro a ha b hb
          cases ns with
          | none => cases ha
          | some n =>
            simp only [Option.toList_some, List.mem_singleton] at ha
            subst ha
            obtain ⟨hnw, hnS, hnE⟩ := hns _ rfl
            rcases List.mem_cons.mp hb with hbb | hb2
            · subst hbb
              unfold disjSeg
              omega
            · obtain ⟨hwb, c, hcm, h1, h2, h3⟩ := hmemrec b hb2
              have hbse := segWF_start_le_end hwb
              unfold disjSeg
              omega
      · rw [if_neg hc2]
        have hcs : cur.start_address ≤ segE := by omega
        by_cases hc3 : segE < cur.end_address
        · rw [if_pos hc3]
          have hrec := ih none hrest hprest (fun n hn => by cases hn)
          have hmemrec : ∀ y ∈ overlayCore segS segE rest none, segWF y = true ∧
              ∃ c ∈ rest, c.start_address ≤ y.start_address ∧ y.end_address ≤ c.end_address ∧
                (y.end_address < segS ∨ segE < y.start_address) := by
            intro y hy
            rcases overlayCore_mem rest none y hrest hy with ⟨n, hn, _⟩ | h
            · cases hn
            · exact h
          refine List.pairwise_append.mpr ⟨List.pairwise_append.mpr ⟨List.pairwise_append.mpr
            ⟨?_, ?_, ?_⟩, ?_, ?_⟩, ?_, ?_⟩
          · refine pairwise_of_length_le_one ?_
            by_cases hA1 : cur.start_address < segS <;>
              by_cases hA2 : 0 < segS - cur.start_address <;> simp [hA1, hA2]
          · exact pairwise_of_length_le_one (by cases ns <;> simp)
          · intro a ha b hb
            obtain ⟨hwa, ha1, ha2, ha3⟩ := hleft a ha
            cases ns with
            | none => cases hb
            | some n =>
              simp only [Option.toList_some, List.mem_singleton] at hb
              subst hb
              obtain ⟨hnw, hnS, hnE⟩ := hns _ rfl
              unfold disjSeg
              omega
          · refine pairwise_of_length_le_one ?_
            rcases hadd : checkedAdd segE 1 with _ | rs
            · simp [hadd]
            · by_cases hoff : rs - cur.start_address < cur.data.length <;>
                simp [hadd, hoff]
          · intro a ha b hb
            obtain ⟨hwb, hb1, hb2, hb3⟩ := hright hcs b hb
            rcases List.mem_append.mp ha with haA | haB
            · obtain ⟨hwa, ha1, ha2, ha3⟩ := hleft a haA
              unfold disjSeg
              omega
            · cases ns with
              | none => cases haB
              | some n =>
                simp only [Option.toList_some, List.mem_singleton] at haB
                subst haB
                obtain ⟨hnw, hnS, hnE⟩ := hns _ rfl
                unfold disjSeg
                omega
          · exact hrec
          · intro a ha b hb
            obtain ⟨hwb, c, hcm, h1, h2, h3⟩ := hmemrec b hb
            rcases List.mem_append.mp ha with hab | haC
            · rcases List.mem_append.mp hab with haA | haB
              · obtain ⟨hwa, ha1, ha2, _⟩ := hleft a haA
                exact disjSeg_of_sub2 (hpcur c hcm) ha1 ha2 h1 h2
              · cases ns with
                | none => cases haB
                | some n =>
                  simp only [Option.toList_some, List.mem_singleton] at haB
                  subst haB
                  obtain ⟨hnw, hnS, hnE⟩ := hns _ rfl
                  have hbse := segWF_start_le_end hwb
                  unfold disjSeg
                  omega
            · obtain ⟨hwa, ha1, ha2, _⟩ := hright hcs a haC
              exact disjSeg_of_sub2 (hpcur c hcm) ha1 ha2 h1 h2
        · rw [if_neg hc3]
          refine List.pairwise_append.mpr ⟨?_, ih ns hrest hprest hns, ?_⟩
          · refine pairwise_of_length_le_one ?_
            by_cases hA1 : cur.start_address < segS <;>
              by_cases hA2 : 0 < segS - cur.start_address <;> simp [hA1, hA2]
          · intro a ha b hb
            obtain ⟨hwa, ha1, ha2, ha3⟩ := hleft a ha
            rcases overlayCore_mem rest ns b hrest hb with ⟨n, hn, hbn⟩ |
              ⟨hwb, c, hcm, h1, h2, h3⟩
            · subst hbn
              obtain ⟨hnw, hnS, hnE⟩ := hns _ hn
              unfold disjSeg
              omega
            · exact disjSeg_of_sub2 (hpcur c hcm) ha1 ha2 h1 h2

end H3xy

namespace H3xy

theorem merged_segWF {cur s : Segment} (hcur : segWF cur = true) (hs : segWF s = true)
    (hcontig : cur.end_address + 1 = s.start_address) :
    segWF ⟨cur.start_address, cur.data ++ s.data⟩ = true ∧
      Segment.end_address ⟨cur.start_address, cur.data ++ s.data⟩ = s.end_address := by
  have hcurE := segWF_end_address hcur
  have hcurP := segWF_len_pos hcur
  have hsE := segWF_end_address hs
  have hsP := segWF_len_pos hs
  have hsB := segWF_bound hs
  have hw : segWF ⟨cur.start_address, cur.data ++ s.data⟩ = true := by
    unfold segWF
    simp only [Bool.and_eq_true, Bool.not_eq_true', decide_eq_true_eq, List.length_append]
    constructor
    · rw [List.isEmpty_eq_false]
      intro hnil
      rcases List.append_eq_nil.mp hnil with ⟨h1, _⟩
      exact segWF_data_ne hcur h1
    · omega
  refine ⟨hw, ?_⟩
  rw [segWF_end_address hw]
  simp only [List.length_append]
  omega

theorem mergeAdjacentFrom_wf_covers {l : List Segment} :
    ∀ cur : Segment, segWF cur = true → (∀ s ∈ l, segWF s = true) →
      ∀ x ∈ mergeAdjacentFrom cur l, segWF x = true ∧
        ∀ a : Nat, x.start_address ≤ a → a ≤ x.end_address →
          ∃ z ∈ cur :: l, z.start_address ≤ a ∧ a ≤ z.end_address := by
  induction l with
  | nil =>
    intro cur hcur _ x hx
    simp only [mergeAdjacentFrom, List.mem_singleton] at hx
    subst hx
    exact ⟨hcur, fun a h1 h2 => ⟨x, List.mem_cons_self x [], h1, h2⟩⟩
  | cons s rest ih =>
    intro cur hcur hall x hx
    have hs : segWF s = true := hall s (List.mem_cons_self s rest)
    have hrest : ∀ t ∈ rest, segWF t = true := fun t ht => hall t (List.mem_cons_of_mem s ht)
    unfold mergeAdjacentFrom at hx
    by_cases hc : cur.is_contiguous_with s = true
    · rw [if_pos hc] at hx
      have hcontig : cur.end_address + 1 = s.start_address := by
        unfold Segment.is_contiguous_with checkedAdd at hc
        by_cases hb : cur.end_address + 1 ≤ U32MAX
        · rw [if_pos hb] at hc
          simpa using hc
        · rw [if_neg hb] at hc
          cases hc
      obtain ⟨hmw, hme⟩ := merged_segWF hcur hs hcontig
      obtain ⟨hwx, hcov⟩ := ih _ hmw hrest x hx
      refine ⟨hwx, fun a h1 h2 => ?_⟩
      rcases hcov a h1 h2 with ⟨z, hz, hz1, hz2⟩
      rcases List.mem_cons.mp hz with hzz | hz3
      · subst hzz
        by_cases ha : a ≤ cur.end_address
        · exact ⟨cur, List.mem_cons_self cur (s :: rest), hz1, ha⟩
        · refine ⟨s, List.mem_cons_of_mem cur (List.mem_cons_self s rest), by omega, ?_⟩
          rw [hme] at hz2
          exact hz2
      · exact ⟨z, List.mem_cons_of_mem cur (List.mem_cons_of_mem s hz3), hz1, hz2⟩
    · rw [if_neg hc] at hx
      rcases List.mem_cons.mp hx with hxx | hx2
      · subst hxx
        exact ⟨hcur, fun a h1 h2 => ⟨x, List.mem_cons_self x (s :: rest), h1, h2⟩⟩
      · obtain ⟨hwx, hcov⟩ := ih s hs hrest x hx2
        refine ⟨hwx, fun a h1 h2 => ?_⟩
        rcases hcov a h1 h2 with ⟨z, hz, hz1, hz2⟩
        exact ⟨z, List.mem_cons_of_mem cur hz, hz1, hz2⟩

theorem mergeAdjacentFrom_pairwise {l : List Segment} :
    ∀ cur : Segment, segWF cur = true → (∀ s ∈ l, segWF s = true) →
      (cur :: l).Pairwise disjSeg →
      (mergeAdjacentFrom cur l).Pairwise disjSeg := by
  induction l with
  | nil =>
    intro cur _ _ _
    exact List.pairwise_singleton _ _
  | cons s rest ih =>
    intro cur hcur hall hpw
    have hs : segWF s = true := hall s (List.mem_cons_self s rest)
    have hrest : ∀ t ∈ rest, segWF t = true := fun t ht => hall t (List.mem_cons_of_mem s ht)
    have hpcur : ∀ y ∈ s :: rest, disjSeg cur y := (List.pairwise_cons.mp hpw).1
    have hptail : (s :: rest).Pairwise disjSeg := (List.pairwise_cons.mp hpw).2
    have hps : ∀ y ∈ rest, disjSeg s y := (List.pairwise_cons.mp hptail).1
    have hprest : rest.Pairwise disjSeg := (List.pairwise_cons.mp hptail).2
    unfold mergeAdjacentFrom
    by_cases hc : cur.is_contiguous_with s = true
    · rw [if_pos hc]
      have hcontig : cur.end_address + 1 = s.start_address := by
        unfold Segment.is_contiguous_with checkedAdd at hc
        by_cases hb : cur.end_address + 1 ≤ U32MAX
        · rw [if_pos hb] at hc
          simpa using hc
        · rw [if_neg hb] at hc
          cases hc
      obtain ⟨hmw, hme⟩ := merged_segWF hcur hs hcontig
      refine ih _ hmw hrest (List.pairwise_cons.mpr ⟨?_, hprest⟩)
      intro y hy
      have hd1 : disjSeg cur y := hpcur y (List.mem_cons_of_mem s hy)
      have hd2 : disjSeg s y := hps y hy
      have hyw := segWF_start_le_end (hrest y hy)
      have hm1 : (⟨cur.start_address, cur.data ++ s.data⟩ : Segment).start_address
          = cur.start_address := rfl
      unfold disjSeg at hd1 hd2 ⊢
      rw [hm1, hme]
      omega
    · rw [if_neg hc]
      refine List.pairwise_cons.mpr ⟨?_, ih s hs hrest hptail⟩
      intro y hy
      obtain ⟨hwy, hcov⟩ := mergeAdjacentFrom_wf_covers s hs hrest y hy
      by_contra hnd
      obtain ⟨a, ha1, ha2, ha3, ha4⟩ := not_disj_common hcur hwy hnd
      obtain ⟨z, hz, hz1, hz2⟩ := hcov a ha3 ha4
      have hd : disjSeg cur z := hpcur z hz
      unfold disjSeg at hd
      omega

theorem merge_adjacent_inv {l : List Segment} (hall : ∀ s ∈ l, segWF s = true)
    (hpw : l.Pairwise disjSeg) :
    (∀ x ∈ merge_adjacent_segments l, segWF x = true) ∧
      (merge_adjacent_segments l).Pairwise disjSeg := by
  cases l with
  | nil => exact ⟨fun x hx => (nomatch hx), List.Pairwise.nil⟩
  | cons s rest =>
    have hs : segWF s = true := hall s (List.mem_cons_self s rest)
    have hrest : ∀ t ∈ rest, segWF t = true := fun t ht => hall t (List.mem_cons_of_mem s ht)
    exact ⟨fun x hx => (mergeAdjacentFrom_wf_covers s hs hrest x hx).1,
      mergeAdjacentFrom_pairwise s hs hrest hpw⟩

theorem overlay_segment_inv {acc : List Segment} {seg : Segment}
    (hacc : ∀ s ∈ acc, segWF s = true) (hpw : acc.Pairwise disjSeg)
    (hseg : segWF seg = true) :
    (∀ x ∈ overlay_segment acc seg, segWF x = true) ∧
      (overlay_segment acc seg).Pairwise disjSeg := by
  unfold overlay_segment
  by_cases he : acc.isEmpty
  · rw [if_pos he]
    refine ⟨fun x hx => ?_, List.pairwise_singleton _ _⟩
    simp only [List.mem_singleton] at hx
    subst hx
    exact hseg
  · rw [if_neg he]
    have hcore_wf : ∀ x ∈ overlayCore seg.start_address seg.end_address acc (some seg),
        segWF x = true := by
      intro x hx
      rcases overlayCore_mem acc (some seg) x hacc hx with ⟨n, hn, hxn⟩ | ⟨hwx, _⟩
      · subst hxn
        obtain rfl := Option.some.inj hn
        exact hseg
      · exact hwx
    have hcore_pw := overlayCore_pairwise (segWF_start_le_end hseg) acc (some seg) hacc hpw
      (fun n hn => by
        obtain rfl := Option.some.inj hn
        exact ⟨hseg, rfl, rfl⟩)
    exact merge_adjacent_inv hcore_wf hcore_pw

theorem foldl_overlay_inv : ∀ (segs : List Segment) (acc : List Segment),
    (∀ s ∈ segs, segWF s = true) → (∀ x ∈ acc, segWF x = true) → acc.Pairwise disjSeg →
    (∀ x ∈ segs.foldl overlay_segment acc, segWF x = true) ∧
      (segs.foldl overlay_segment acc).Pairwise disjSeg := by
  intro segs
  induction segs with
  | nil => intro acc _ hacc hpw; exact ⟨hacc, hpw⟩
  | cons s rest ih =>
    intro acc hall hacc hpw
    have hs : segWF s = true := hall s (List.mem_cons_self s rest)
    have hrest : ∀ t ∈ rest, segWF t = true := fun t ht => hall t (List.mem_cons_of_mem s ht)
    obtain ⟨hwf, hpw2⟩ := overlay_segment_inv hacc hpw hs
    exact ih (overlay_segment acc s) hrest hwf hpw2

theorem wchainWF_head {s : Segment} {rest : List Segment}
    (h : wchainWF (s :: rest) = true) : segWF s = true ∧ wchainFrom s rest = true := by
  unfold wchainWF at h
  simp only [Bool.and_eq_true] at h
  exact h

theorem wchain_of_sorted_disj : ∀ l : List Segment, (∀ s ∈ l, segWF s = true) →
    l.Sorted (fun a b => a.start_address ≤ b.start_address) → l.Pairwise disjSeg →
    wchainWF l = true := by
  intro l
  induction l with
  | nil => intro _ _ _; rfl
  | cons s rest ih =>
    intro hall hsort hpw
    have hs : segWF s = true := hall s (List.mem_cons_self s rest)
    have hrest : ∀ t ∈ rest, segWF t = true := fun t ht => hall t (List.mem_cons_of_mem s ht)
    have hsort2 := (List.sorted_cons.mp hsort).2
    have hsall := (List.sorted_cons.mp hsort).1
    have hpw2 := (List.pairwise_cons.mp hpw).2
    have hpsall := (List.pairwise_cons.mp hpw).1
    have hihw := ih hrest hsort2 hpw2
    unfold wchainWF
    simp only [Bool.and_eq_true]
    refine ⟨hs, ?_⟩
    cases rest with
    | nil => rfl
    | cons t ts =>
      have ht : segWF t = true := hrest t (List.mem_cons_self t ts)
      have htse := segWF_start_le_end ht
      have hd : disjSeg s t := hpsall t (List.mem_cons_self t ts)
      have hle : s.start_address ≤ t.start_address := hsall t (List.mem_cons_self t ts)
      refine wchainFrom_cons ht ?_ (wchainWF_head hihw).2
      unfold disjSeg at hd
      omega

theorem sortByStart_sorted (l : List Segment) :
    (sortByStart l).Sorted (fun a b => a.start_address ≤ b.start_address) := by
  unfold sortByStart
  haveI : IsTotal Segment (fun a b => a.start_address ≤ b.start_address) :=
    ⟨fun a b => Nat.le_total _ _⟩
  haveI : IsTrans Segment (fun a b => a.start_address ≤ b.start_address) :=
    ⟨fun a b c h1 h2 => Nat.le_trans h1 h2⟩
  exact List.sorted_insertionSort _ _

theorem sortByStart_perm (l : List Segment) : List.Perm (sortByStart l) l :=
  List.perm_insertionSort _ _

theorem normalized_lossy_chainWF (hf : HexFile)
    (hstarts : ∀ s ∈ hf.segments, s.start_address ≤ U32MAX) :
    chainWF hf.normalized_lossy.segments = true := by
  unfold HexFile.normalized_lossy
  simp only
  have htr : ∀ t ∈ hf.segments.filterMap truncate_segment_to_u32, segWF t = true := by
    intro t ht
    rcases List.mem_filterMap.mp ht with ⟨s, hs, hts⟩
    exact truncate_segWF (hstarts s hs) hts
  by_cases he : (hf.segments.filterMap truncate_segment_to_u32).isEmpty
  · rw [if_pos he]
    rfl
  · rw [if_neg he]
    by_cases hov : has_overlap (sortByStart (hf.segments.filterMap truncate_segment_to_u32))
      = true
    · rw [if_pos hov]
      obtain ⟨hfw, hfp⟩ := foldl_overlay_inv (hf.segments.filterMap truncate_segment_to_u32)
        [] htr (fun x hx => by cases hx) List.Pairwise.nil
      have hperm := sortByStart_perm
        ((hf.segments.filterMap truncate_segment_to_u32).foldl overlay_segment [])
      have hSw : ∀ x ∈ sortByStart
          ((hf.segments.filterMap truncate_segment_to_u32).foldl overlay_segment []),
          segWF x = true := fun x hx => hfw x (hperm.mem_iff.mp hx)
      have hSp : (sortByStart
          ((hf.segments.filterMap truncate_segment_to_u32).foldl overlay_segment [])).Pairwise
            disjSeg :=
        (List.Perm.pairwise_iff (fun {a b} h => disjSeg_symm h) hperm).mpr hfp
      exact merge_adjacent_chainWF (wchain_of_sorted_disj _ hSw (sortByStart_sorted _) hSp)
    · rw [if_neg hov]
      have hov2 : has_overlap (sortByStart (hf.segments.filterMap truncate_segment_to_u32))
          = false := by
        simpa using hov
      have hSw : ∀ x ∈ sortByStart (hf.segments.filterMap truncate_segment_to_u32),
          segWF x = true := fun x hx => htr x ((sortByStart_perm _).mem_iff.mp hx)
      exact merge_adjacent_chainWF (wchain_of_no_overlap hSw hov2)

end H3xy

namespace H3xy

/-- C9: for every memory image whose segment start addresses are
representable (at most `u32::MAX`), `normalized_lossy` produces a list of
segments that is sorted by start address, pairwise non-overlapping and
non-contiguous (the `chainWF` invariant), and `normalized_lossy` is
idempotent. -/
theorem c9_normalized_lossy_idempotent (hf : HexFile)
    (hstarts : ∀ s ∈ hf.segments, s.start_address ≤ U32MAX) :
    chainWF hf.normalized_lossy.segments = true ∧
      hf.normalized_lossy.normalized_lossy = hf.normalized_lossy := by
  have h := normalized_lossy_chainWF hf hstarts
  exact ⟨h, normalized_lossy_of_chainWF h⟩

/-- Witness for C9 at a concrete image with overlapping, unsorted,
contiguous segments. -/
theorem c9_normalized_lossy_idempotent_witness :
    (∀ s ∈ (⟨[⟨5, [1, 2, 3]⟩, ⟨0, [4, 5]⟩, ⟨2, [6, 7, 8, 9]⟩]⟩ : HexFile).segments,
      s.start_address ≤ U32MAX) ∧
    (chainWF (⟨[⟨5, [1, 2, 3]⟩, ⟨0, [4, 5]⟩,
        ⟨2, [6, 7, 8, 9]⟩]⟩ : HexFile).normalized_lossy.segments = true ∧
      (⟨[⟨5, [1, 2, 3]⟩, ⟨0, [4, 5]⟩,
        ⟨2, [6, 7, 8, 9]⟩]⟩ : HexFile).normalized_lossy.normalized_lossy =
        (⟨[⟨5, [1, 2, 3]⟩, ⟨0, [4, 5]⟩, ⟨2, [6, 7, 8, 9]⟩]⟩ : HexFile).normalized_lossy) :=
  ⟨by decide, c9_normalized_lossy_idempotent _ (by decide)⟩

end H3xy

namespace H3xy

/-! ### C8: word-sum error characterization -/

theorem finalize_run_true_ok {s l : Nat} (h1 : s % 2 = 0) (h2 : l % 2 = 0) :
    finalize_run true s l = .ok () := by
  unfold finalize_run
  simp [h1, h2]

theorem finalize_run_true_odd_start {s l : Nat} (h1 : ¬s % 2 = 0) :
    finalize_run true s l = .error (.AddressNotDivisible s 2) := by
  unfold finalize_run
  simp [h1]

theorem finalize_run_true_odd_len {s l : Nat} (h1 : s % 2 = 0) (h2 : ¬l % 2 = 0) :
    finalize_run true s l = .error (.LengthNotMultiple l 2) := by
  unfold finalize_run
  simp [h1, h2]

theorem collect_terminal_eq (rs : Option Nat) (rl : Nat) (pe : Option Nat)
    (data : List Nat) :
    (match rs with
      | some s => do
        finalize_run true s rl
        pure data
      | none => (pure data : Except OpsError (List Nat))) =
      match firstBadRun (runsFromState rs rl pe []) with
      | some e => .error e
      | none => .ok (data ++ []) := by
  cases rs with
  | none =>
    rw [List.append_nil]
    rfl
  | some s =>
    show (finalize_run true s rl >>= fun _ => pure data) =
      match firstBadRun (runsFromState (some s) rl pe []) with
      | some e => Except.error e
      | none => Except.ok (data ++ [])
    by_cases h1 : s % 2 = 0
    · by_cases h2 : rl % 2 = 0
      · have hfb : firstBadRun (runsFromState (some s) rl pe []) = none := by
          simp [runsFromState, firstBadRun, h1, h2]
        rw [hfb, finalize_run_true_ok h1 h2, List.append_nil]
        rfl
      · have hfb : firstBadRun (runsFromState (some s) rl pe []) =
            some (.LengthNotMultiple rl 2) := by
          simp [runsFromState, firstBadRun, h1, h2]
        rw [hfb, finalize_run_true_odd_len h1 h2]
        rfl
    · have hfb : firstBadRun (runsFromState (some s) rl pe []) =
          some (.AddressNotDivisible s 2) := by
        simp [runsFromState, firstBadRun, h1]
      rw [hfb, finalize_run_true_odd_start h1]
      rfl

end H3xy

namespace H3xy

theorem collectLoopF_eq_runs : ∀ (fuel : Nat) (segs : List Segment) (incs : List Range)
    (rs : Option Nat) (rl : Nat) (pe : Option Nat) (data : List Nat),
    collectLoopF true fuel segs incs rs rl pe data =
      match firstBadRun (runsFromState rs rl pe (overlapPiecesF fuel segs incs)) with
      | some e => .error e
      | none => .ok (data ++ emitF fuel segs incs) := by
  intro fuel
  induction fuel with
  | zero =>
    intro segs incs rs rl pe data
    cases segs with
    | nil => exact collect_terminal_eq rs rl pe data
    | cons seg segs' =>
      cases incs with
      | nil => exact collect_terminal_eq rs rl pe data
      | cons inc incs' => exact collect_terminal_eq rs rl pe data
  | succ fuel ih =>
    intro segs incs rs rl pe data
    cases segs with
    | nil => exact collect_terminal_eq rs rl pe data
    | cons seg segs' =>
      cases incs with
      | nil => exact collect_terminal_eq rs rl pe data
      | cons inc incs' =>
        by_cases hb1 : seg.end_address < inc.start
        · simp only [collectLoopF, overlapPiecesF, emitF, if_pos hb1]
          exact ih segs' (inc :: incs') rs rl pe data
        · by_cases hb2 : seg.start_address > inc.«end»
          · simp only [collectLoopF, overlapPiecesF, emitF, if_neg hb1, if_pos hb2]
            exact ih (seg :: segs') incs' rs rl pe data
          · simp only [collectLoopF, overlapPiecesF, emitF, if_neg hb1, if_neg hb2]
            rcases pe with _ | p
            · simp only [runsFromState, pure_bind]
              rcases rs with _ | s0 <;>
                by_cases hb3 : seg.end_address ≤ inc.«end» <;>
                  simp only [if_pos, if_neg, hb3, if_true, if_false] <;>
                    rw [ih] <;> rw [List.append_assoc]
            · by_cases hbrk : max seg.start_address inc.start ≠ saturatingAdd p 1
              · simp only [runsFromState, if_pos hbrk]
                rcases rs with _ | s0
                · simp only [List.nil_append, pure_bind, Nat.zero_add]
                  by_cases hb3 : seg.end_address ≤ inc.«end» <;>
                    simp only [if_pos, if_neg, hb3, if_true, if_false] <;>
                      rw [ih] <;> rw [List.append_assoc]
                · simp only [List.singleton_append]
                  by_cases h1 : s0 % 2 = 0
                  · by_cases h2 : rl % 2 = 0
                    · rw [finalize_run_true_ok h1 h2]
                      simp only [firstBadRun]
                      rw [if_neg (show ¬s0 % 2 ≠ 0 by omega),
                        if_neg (show ¬rl % 2 ≠ 0 by omega)]
                      simp only [pure_bind, Nat.zero_add]
                      by_cases hb3 : seg.end_address ≤ inc.«end» <;>
                        simp only [if_pos, if_neg, hb3, if_true, if_false] <;>
                          rw [ih] <;> rw [List.append_assoc] <;> rfl
                    · rw [finalize_run_true_odd_len h1 h2]
                      simp only [firstBadRun]
                      rw [if_neg (show ¬s0 % 2 ≠ 0 by omega),
                        if_pos (show rl % 2 ≠ 0 from h2)]
                      rfl
                  · rw [finalize_run_true_odd_start h1]
                    simp only [firstBadRun]
                    rw [if_pos (show s0 % 2 ≠ 0 from h1)]
                    rfl
              · simp only [runsFromState, if_neg hbrk, pure_bind]
                rcases rs with _ | s0 <;>
                  by_cases hb3 : seg.end_address ≤ inc.«end» <;>
                    simp only [if_pos, if_neg, hb3, if_true, if_false] <;>
                      rw [ih] <;> rw [List.append_assoc]

end H3xy

namespace H3xy

theorem sumWidths_cons (a b : Nat) (l : List (Nat × Nat)) :
    sumWidths ((a, b) :: l) = (b - a + 1) + sumWidths l := by
  simp [sumWidths]

theorem emitF_length : ∀ (fuel : Nat) (segs : List Segment) (incs : List Range),
    (∀ s ∈ segs, segWF s = true) → (∀ r ∈ incs, r.start ≤ r.«end») →
    (emitF fuel segs incs).length = sumWidths (overlapPiecesF fuel segs incs) := by
  intro fuel
  induction fuel with
  | zero =>
    intro segs incs _ _
    cases segs with
    | nil => rfl
    | cons seg segs' =>
      cases incs with
      | nil => rfl
      | cons inc incs' => rfl
  | succ fuel ih =>
    intro segs incs hwf hv
    cases segs with
    | nil => rfl
    | cons seg segs' =>
      cases incs with
      | nil => rfl
      | cons inc incs' =>
        have hseg : segWF seg = true := hwf seg (List.mem_cons_self seg segs')
        have hsegs' : ∀ s ∈ segs', segWF s = true :=
          fun s hs => hwf s (List.mem_cons_of_mem seg hs)
        have hincs' : ∀ r ∈ incs', r.start ≤ r.«end» :=
          fun r hr => hv r (List.mem_cons_of_mem inc hr)
        have hinc : inc.start ≤ inc.«end» := hv inc (List.mem_cons_self inc incs')
        by_cases hb1 : seg.end_address < inc.start
        · simp only [emitF, overlapPiecesF, if_pos hb1]
          exact ih segs' (inc :: incs') hsegs' hv
        · by_cases hb2 : seg.start_address > inc.«end»
          · simp only [emitF, overlapPiecesF, if_neg hb1, if_pos hb2]
            exact ih (seg :: segs') incs' hwf hincs'
          · simp only [emitF, overlapPiecesF, if_neg hb1, if_neg hb2]
            have hE := segWF_end_address hseg
            have hP := segWF_len_pos hseg
            have hSE := segWF_start_le_end hseg
            have hslice : ((seg.data.drop (max seg.start_address inc.start
                - seg.start_address)).take
                  (min seg.end_address inc.«end» - max seg.start_address inc.start + 1)).length
                = min seg.end_address inc.«end» - max seg.start_address inc.start + 1 := by
              rw [List.length_take, List.length_drop]
              omega
            by_cases hb3 : seg.end_address ≤ inc.«end»
            · simp only [if_pos hb3, List.length_append, sumWidths_cons, hslice]
              all_goals rw [ih segs' (inc :: incs') hsegs' hv] <;> omega
            · simp only [if_neg hb3, List.length_append, sumWidths_cons, hslice]
              all_goals rw [ih (seg :: segs') incs' hwf hincs'] <;> omega

theorem firstBadRun_none_even {runs : List (Nat × Nat)} (h : firstBadRun runs = none) :
    ∀ p ∈ runs, p.1 % 2 = 0 ∧ p.2 % 2 = 0 := by
  induction runs with
  | nil => intro p hp; cases hp
  | cons q rest ih =>
    intro p hp
    rcases q with ⟨s, l⟩
    unfold firstBadRun at h
    by_cases h1 : s % 2 ≠ 0
    · rw [if_pos h1] at h
      cases h
    · rw [if_neg h1] at h
      by_cases h2 : l % 2 ≠ 0
      · rw [if_pos h2] at h
        cases h
      · rw [if_neg h2] at h
        rcases List.mem_cons.mp hp with hpp | hp2
        · subst hpp
          exact ⟨by omega, by omega⟩
        · exact ih h p hp2

theorem runs_sum : ∀ (pieces : List (Nat × Nat)) (rs : Option Nat) (rl : Nat)
    (pe : Option Nat), (rs = none → rl = 0) →
    ((runsFromState rs rl pe pieces).map Prod.snd).sum = rl + sumWidths pieces := by
  intro pieces
  induction pieces with
  | nil =>
    intro rs rl pe h0
    cases rs with
    | none => simp [runsFromState, sumWidths, h0 rfl]
    | some s => simp [runsFromState, sumWidths]
  | cons q rest ih =>
    intro rs rl pe h0
    rcases q with ⟨st, en⟩
    rcases rs with _ | s0
    · have hrl0 : rl = 0 := h0 rfl
      subst hrl0
      rcases pe with _ | p
      · rw [show runsFromState none 0 none ((st, en) :: rest) =
            runsFromState (some st) (0 + (en - st + 1)) (some en) rest from rfl]
        rw [ih _ _ _ (fun h => by cases h), sumWidths_cons]
        omega
      · rw [show runsFromState none 0 (some p) ((st, en) :: rest) =
            (if st ≠ saturatingAdd p 1 then
              [] ++ runsFromState (some st) (en - st + 1) (some en) rest
            else runsFromState (some st) (0 + (en - st + 1)) (some en) rest) from rfl]
        by_cases hbrk : st ≠ saturatingAdd p 1
        · rw [if_pos hbrk, List.nil_append]
          rw [ih _ _ _ (fun h => by cases h), sumWidths_cons]
          omega
        · rw [if_neg hbrk]
          rw [ih _ _ _ (fun h => by cases h), sumWidths_cons] <;> omega
    · rcases pe with _ | p
      · rw [show runsFromState (some s0) rl none ((st, en) :: rest) =
            runsFromState (some s0) (rl + (en - st + 1)) (some en) rest from rfl]
        rw [ih _ _ _ (fun h => by cases h), sumWidths_cons]
        omega
      · rw [show runsFromState (some s0) rl (some p) ((st, en) :: rest) =
            (if st ≠ saturatingAdd p 1 then
              [(s0, rl)] ++ runsFromState (some st) (en - st + 1) (some en) rest
            else runsFromState (some s0) (rl + (en - st + 1)) (some en) rest) from rfl]
        by_cases hbrk : st ≠ saturatingAdd p 1
        · rw [if_pos hbrk]
          simp only [List.singleton_append, List.map_cons, List.sum_cons]
          rw [ih _ _ _ (fun h => by cases h), sumWidths_cons] <;> omega
        · rw [if_neg hbrk]
          rw [ih _ _ _ (fun h => by cases h), sumWidths_cons] <;> omega

theorem even_run_sum {runs : List (Nat × Nat)} (h : ∀ p ∈ runs, p.2 % 2 = 0) :
    (runs.map Prod.snd).sum % 2 = 0 := by
  induction runs with
  | nil => rfl
  | cons q rest ih =>
    simp only [List.map_cons, List.sum_cons]
    have h1 := h q (List.mem_cons_self q rest)
    have h2 := ih (fun p hp => h p (List.mem_cons_of_mem q hp))
    omega

end H3xy

namespace H3xy

theorem from_start_end_ok {a b : Nat} {r : Range} (h : Range.from_start_end a b = .ok r) :
    a ≤ b ∧ r.start = a ∧ r.«end» = b := by
  unfold Range.from_start_end at h
  by_cases h1 : a > b
  · rw [if_pos h1] at h
    cases h
  · rw [if_neg h1] at h
    by_cases h2 : a = 0 ∧ b = U32MAX
    · rw [if_pos h2] at h
      cases h
    · rw [if_neg h2] at h
      obtain rfl := Except.ok.inj h
      exact ⟨by omega, rfl, rfl⟩

theorem subtractRangesGo_valid (range : Range) : ∀ (excl : List Range) (cursor : Nat),
    ∀ r ∈ subtractRangesGo range cursor excl, r.start ≤ r.«end» := by
  intro excl
  induction excl with
  | nil =>
    intro cursor r hr
    unfold subtractRangesGo at hr
    by_cases hc : cursor ≤ range.«end»
    · rw [if_pos hc] at hr
      rcases hfe : Range.from_start_end cursor range.«end» with e | r0
      · rw [hfe] at hr
        cases hr
      · rw [hfe] at hr
        simp only [List.mem_singleton] at hr
        subst hr
        obtain ⟨h1, h2, h3⟩ := from_start_end_ok hfe
        omega
    · rw [if_neg hc] at hr
      cases hr
  | cons ex rest ih =>
    intro cursor r hr
    unfold subtractRangesGo at hr
    by_cases hc1 : ex.«end» < cursor
    · rw [if_pos hc1] at hr
      exact ih cursor r hr
    · rw [if_neg hc1] at hr
      by_cases hc2 : ex.start > range.«end»
      · rw [if_pos hc2] at hr
        by_cases hc : cursor ≤ range.«end»
        · rw [if_pos hc] at hr
          rcases hfe : Range.from_start_end cursor range.«end» with e | r0
          · rw [hfe] at hr
            cases hr
          · rw [hfe] at hr
            simp only [List.mem_singleton] at hr
            subst hr
            obtain ⟨h1, h2, h3⟩ := from_start_end_ok hfe
            omega
        · rw [if_neg hc] at hr
          cases hr
      · rw [if_neg hc2] at hr
        have hhead : ∀ x ∈ (if cursor < max ex.start range.start then
              match Range.from_start_end cursor (max ex.start range.start - 1) with
              | .ok r => [r]
              | .error _ => ([] : List Range)
            else []), x.start ≤ x.«end» := by
          intro x hx
          by_cases hch : cursor < max ex.start range.start
          · rw [if_pos hch] at hx
            rcases hfe : Range.from_start_end cursor (max ex.start range.start - 1)
              with e | r0
            · rw [hfe] at hx
              cases hx
            · rw [hfe] at hx
              simp only [List.mem_singleton] at hx
              subst hx
              obtain ⟨h1, h2, h3⟩ := from_start_end_ok hfe
              omega
          · rw [if_neg hch] at hx
            cases hx
        by_cases hu : min ex.«end» range.«end» = U32MAX
        · simp only [if_pos hu] at hr
          exact hhead r hr
        · simp only [if_neg hu] at hr
          by_cases hv2 : min ex.«end» range.«end» + 1 > range.«end»
          · simp only [if_pos hv2] at hr
            exact hhead r hr
          · simp only [if_neg hv2] at hr
            rcases List.mem_append.mp hr with h | h
            · exact hhead r h
            · exact ih _ r h

theorem subtract_ranges_valid (range : Range) (hr : range.start ≤ range.«end»)
    (excludes : List Range) : ∀ r ∈ subtract_ranges range excludes, r.start ≤ r.«end» := by
  intro r hrm
  unfold subtract_ranges at hrm
  by_cases he : excludes.isEmpty
  · rw [if_pos he] at hrm
    simp only [List.mem_singleton] at hrm
    subst hrm
    exact hr
  · rw [if_neg he] at hrm
    exact subtractRangesGo_valid range excludes range.start r hrm

theorem foldl_min_choice : ∀ (as : List Nat) (a : Nat),
    as.foldl min a = a ∨ as.foldl min a ∈ as := by
  intro as
  induction as with
  | nil => intro a; exact Or.inl rfl
  | cons b bs ih =>
    intro a
    rw [List.foldl_cons]
    rcases ih (min a b) with h | h
    · rw [h]
      rcases Nat.le_total a b with hab | hab
      · exact Or.inl (by omega)
      · refine Or.inr ?_
        rw [show min a b = b by omega]
        exact List.mem_cons_self b bs
    · exact Or.inr (List.mem_cons_of_mem b h)

theorem foldl_max_ge_base : ∀ (as : List Nat) (a : Nat), a ≤ as.foldl max a := by
  intro as
  induction as with
  | nil => intro a; exact le_refl a
  | cons b bs ih =>
    intro a
    rw [List.foldl_cons]
    exact le_trans (by omega) (ih (max a b))

theorem foldl_max_ge_mem : ∀ (as : List Nat) (a x : Nat), x ∈ as → x ≤ as.foldl max a := by
  intro as
  induction as with
  | nil => intro a x h; cases h
  | cons b bs ih =>
    intro a x h
    rw [List.foldl_cons]
    rcases List.mem_cons.mp h with rfl | h2
    · exact le_trans (by omega) (foldl_max_ge_base bs (max a x))
    · exact ih (max a b) x h2

theorem min_le_max_address {hf : HexFile} (hwf : ∀ s ∈ hf.segments, segWF s = true)
    {mn mx : Nat} (hmn : hf.min_address = some mn) (hmx : hf.max_address = some mx) :
    mn ≤ mx := by
  unfold HexFile.min_address at hmn
  unfold HexFile.max_address at hmx
  have hmem := List.min?_mem (fun a b => by omega : ∀ a b : Nat, min a b = a ∨ min a b = b) hmn
  rcases List.mem_map.mp hmem with ⟨s, hs, hseq⟩
  have hsseg : s ∈ hf.segments := (List.mem_filter.mp hs).1
  have hse := segWF_start_le_end (hwf s hsseg)
  have hub := (List.max?_eq_some_iff (fun x => Nat.le_refl x)
    (fun a b => by omega : ∀ a b : Nat, max a b = a ∨ max a b = b)
    (fun a b c => by omega : ∀ a b c : Nat, max b c ≤ a ↔ b ≤ a ∧ c ≤ a)).mp hmx
  have hend : s.end_address ≤ mx := hub.2 s.end_address (List.mem_map_of_mem _ hs)
  omega

end H3xy

namespace H3xy

theorem emitF_nil_incs (f : Nat) (segs : List Segment) : emitF f segs [] = [] := by
  cases f <;> cases segs <;> rfl

theorem piecesF_nil_incs (f : Nat) (segs : List Segment) :
    overlapPiecesF f segs [] = [] := by
  cases f <;> cases segs <;> rfl

theorem pieces_nil_incs (segs : List Segment) : overlapPieces segs [] = [] := by
  unfold overlapPieces
  exact piecesF_nil_incs _ _

theorem collect_eq_runs (hf : HexFile) (options : ChecksumOptions)
    (halg : needsWordAlignment options.algorithm = true)
    (hforced : options.forced_range = none)
    (hwfn : ∀ s ∈ hf.normalized_lossy.segments, segWF s = true)
    (hnotfull : ¬(options.range = none ∧ hf.normalized_lossy.min_address = some 0 ∧
      hf.normalized_lossy.max_address = some U32MAX)) :
    hf.collect_data_for_checksum options =
      match firstBadRun (checksumRuns hf options) with
      | some e => .error e
      | none => .ok (checksumPayload hf options) := by
  unfold HexFile.collect_data_for_checksum checksumRuns checksumPayload
  rw [halg]
  simp only [hforced, pure_bind]
  rcases hr : options.range with _ | r
  · simp only [pure_bind]
    rcases hmn : hf.normalized_lossy.min_address with _ | mn
    · simp only [pure_bind, runsFromState, firstBadRun]
      rfl
    · rcases hmx : hf.normalized_lossy.max_address with _ | mx
      · simp only [pure_bind, runsFromState, firstBadRun]
        rfl
      · have hle : mn ≤ mx := min_le_max_address hwfn hmn hmx
        have hnf : ¬(mn = 0 ∧ mx = U32MAX) := by
          intro hc
          exact hnotfull ⟨hr, by rw [hmn, hc.1], by rw [hmx, hc.2]⟩
        have hfse : Range.from_start_end mn mx = .ok ⟨mn, mx⟩ := by
          unfold Range.from_start_end
          rw [if_neg (by omega), if_neg hnf]
        dsimp only
        rw [hfse]
        simp only [pure_bind, if_pos (And.intro hle hnf)]
        by_cases hie : (subtract_ranges ⟨mn, mx⟩
            (merge_ranges (options.exclude_ranges ++ options.target_exclude.toList))).isEmpty
        · rw [if_pos hie]
          rw [List.isEmpty_eq_true] at hie
          rw [hie, pieces_nil_incs, emitF_nil_incs]
          rfl
        · rw [if_neg hie]
          rw [if_neg (show ¬((none : Option ForcedRange).isSome = true) by simp)]
          unfold collectLoop
          rw [collectLoopF_eq_runs]
          rw [List.nil_append]
          rfl
  · simp only [pure_bind]
    by_cases hie : (subtract_ranges r
        (merge_ranges (options.exclude_ranges ++ options.target_exclude.toList))).isEmpty
    · rw [if_pos hie]
      rw [List.isEmpty_eq_true] at hie
      rw [hie, pieces_nil_incs, emitF_nil_incs]
      rfl
    · rw [if_neg hie]
      rw [if_neg (show ¬((none : Option ForcedRange).isSome = true) by simp)]
      unfold collectLoop
      rw [collectLoopF_eq_runs]
      rw [List.nil_append]
      rfl

theorem payload_even (hf : HexFile) (options : ChecksumOptions)
    (hforced : options.forced_range = none)
    (hwfn : ∀ s ∈ hf.normalized_lossy.segments, segWF s = true)
    (hrange : ∀ r, options.range = some r → r.start ≤ r.«end»)
    (hnone : firstBadRun (checksumRuns hf options) = none) :
    (checksumPayload hf options).length % 2 = 0 := by
  unfold checksumRuns at hnone
  simp only [hforced] at hnone
  unfold checksumPayload
  dsimp only at hnone ⊢
  rcases hr : options.range with _ | r
  · rw [hr] at hnone
    rcases hmn : hf.normalized_lossy.min_address with _ | mn
    · rw [hmn] at hnone
      rfl
    · rcases hmx : hf.normalized_lossy.max_address with _ | mx
      · rw [hmn, hmx] at hnone
        rfl
      · rw [hmn, hmx] at hnone
        dsimp only at hnone ⊢
        by_cases hok : mn ≤ mx ∧ ¬(mn = 0 ∧ mx = U32MAX)
        · rw [if_pos hok] at hnone
          dsimp only at hnone
          rw [if_pos hok]
          have hval := subtract_ranges_valid ⟨mn, mx⟩ hok.1
            (merge_ranges (options.exclude_ranges ++ options.target_exclude.toList))
          rw [emitF_length _ _ _ hwfn hval]
          have hsum := runs_sum (overlapPieces hf.normalized_lossy.segments
            (subtract_ranges ⟨mn, mx⟩ (merge_ranges
              (options.exclude_ranges ++ options.target_exclude.toList))))
            none 0 none (fun _ => rfl)
          have heven := even_run_sum (fun p hp => (firstBadRun_none_even hnone p hp).2)
          unfold overlapPieces at hsum heven
          omega
        · rw [if_neg hok] at hnone
          rw [if_neg hok]
          rfl
  · rw [hr] at hnone
    dsimp only at hnone ⊢
    have hval := subtract_ranges_valid r (hrange r hr)
      (merge_ranges (options.exclude_ranges ++ options.target_exclude.toList))
    rw [emitF_length _ _ _ hwfn hval]
    have hsum := runs_sum (overlapPieces hf.normalized_lossy.segments
      (subtract_ranges r (merge_ranges
        (options.exclude_ranges ++ options.target_exclude.toList))))
      none 0 none (fun _ => rfl)
    have heven := even_run_sum (fun p hp => (firstBadRun_none_even hnone p hp).2)
    unfold overlapPieces at hsum heven
    omega

end H3xy

namespace H3xy

theorem chainWF_suffix : ∀ (pre l : List Segment), chainWF (pre ++ l) = true →
    chainWF l = true := by
  intro pre
  induction pre with
  | nil => intro l h; exact h
  | cons x xs ih =>
    intro l h
    rw [List.cons_append] at h
    exact ih l (chainFrom_chainWF (chainWF_head h).2)

theorem skipSegsBefore_suffix (addr : Nat) : ∀ l : List Segment,
    ∃ pre, pre ++ skipSegsBefore addr l = l := by
  intro l
  induction l with
  | nil => exact ⟨[], rfl⟩
  | cons seg rest ih =>
    by_cases hc : seg.end_address < addr
    · obtain ⟨pre, hp⟩ := ih
      refine ⟨seg :: pre, ?_⟩
      simp only [skipSegsBefore, if_pos hc]
      rw [List.cons_append, hp]
    · refine ⟨[], ?_⟩
      simp only [skipSegsBefore, if_neg hc, List.nil_append]

theorem skipSegsBefore_inv (addr : Nat) : ∀ l : List Segment, chainWF l = true →
    ∀ s ∈ skipSegsBefore addr l, addr ≤ s.end_address := by
  intro l
  induction l with
  | nil => intro _ s hs; simp [skipSegsBefore] at hs
  | cons seg rest ih =>
    intro hchain s hs
    obtain ⟨hwf, hfrom⟩ := chainWF_head hchain
    by_cases hc : seg.end_address < addr
    · rw [show skipSegsBefore addr (seg :: rest) = skipSegsBefore addr rest from by
        simp only [skipSegsBefore, if_pos hc]] at hs
      exact ih (chainFrom_chainWF hfrom) s hs
    · rw [show skipSegsBefore addr (seg :: rest) = seg :: rest from by
        simp only [skipSegsBefore, if_neg hc]] at hs
      rcases List.mem_cons.mp hs with rfl | hs2
      · omega
      · have hge := chainFrom_all_ge hfrom s hs2
        have hwfs := chainWF_all_wf (chainFrom_chainWF hfrom) s hs2
        have := segWF_start_le_end hwfs
        omega

theorem foldl_append_mem : ∀ (l : List Segment) (h : HexFile) (s : Segment),
    s ∈ (l.foldl HexFile.append_segment h).segments → s ∈ h.segments ∨ s ∈ l := by
  intro l
  induction l with
  | nil => intro h s hs; exact Or.inl hs
  | cons x xs ih =>
    intro h s hs
    rw [List.foldl_cons] at hs
    rcases ih (h.append_segment x) s hs with hh | hh
    · unfold HexFile.append_segment at hh
      by_cases hx : x.is_empty
      · rw [if_pos hx] at hh
        exact Or.inl hh
      · rw [if_neg hx] at hh
        rcases List.mem_append.mp hh with h1 | h1
        · exact Or.inl h1
        · rw [List.mem_singleton] at h1
          exact Or.inr (by rw [h1]; exact List.mem_cons_self x xs)
    · exact Or.inr (List.mem_cons_of_mem x hh)

theorem forcedEmitRangeF_spec (r : Range) (hre : r.«end» ≤ U32MAX) :
    ∀ (fuel addr : Nat) (segs : List Segment) (data : List Nat),
    chainWF segs = true →
    (∀ s ∈ segs, addr ≤ s.end_address) →
    segs.length * (r.«end» + 2) + (r.«end» + 1 - addr) ≤ fuel →
    (forcedEmitRangeF r fuel addr segs data).2.length
        = data.length + (r.«end» + 1 - addr) ∧
      ∃ pre, pre ++ (forcedEmitRangeF r fuel addr segs data).1 = segs := by
  intro fuel
  induction fuel with
  | zero =>
    intro addr segs data hchain hinv hfuel
    have hz : segs.length * (r.«end» + 2) = 0 ∧ r.«end» + 1 - addr = 0 := by omega
    have hs0 : segs = [] := by
      rcases Nat.mul_eq_zero.mp hz.1 with h | h
      · exact List.length_eq_zero.mp h
      · omega
    subst hs0
    refine ⟨?_, [], rfl⟩
    show data.length = data.length + (r.«end» + 1 - addr)
    omega
  | succ fuel ih =>
    intro addr segs data hchain hinv hfuel
    by_cases haddr : addr ≤ r.«end»
    · cases segs with
      | nil =>
        simp only [forcedEmitRangeF, if_pos haddr]
        refine ⟨?_, [], rfl⟩
        rw [List.length_append, List.length_replicate]
        omega
      | cons seg rest =>
        obtain ⟨hwfseg, hfrom⟩ := chainWF_head hchain
        have hB := segWF_bound hwfseg
        have hP := segWF_len_pos hwfseg
        have hE := segWF_end_address hwfseg
        have hSE := segWF_start_le_end hwfseg
        have hinvh : addr ≤ seg.end_address := hinv seg (List.mem_cons_self seg rest)
        by_cases h1 : seg.start_address > r.«end»
        · simp only [forcedEmitRangeF, if_pos haddr, if_pos h1]
          refine ⟨?_, [], rfl⟩
          rw [List.length_append, List.length_replicate]
          omega
        · by_cases h2 : seg.start_address > addr
          · simp only [forcedEmitRangeF, if_pos haddr, if_neg h1, if_pos h2]
            rw [show saturatingSub seg.start_address 1 = seg.start_address - 1 from rfl]
            generalize hG : min (seg.start_address - 1) r.«end» = G
            have hGa : addr ≤ G := by omega
            have hGr : G ≤ r.«end» := by omega
            rw [show saturatingAdd G 1 = G + 1 from by
              unfold saturatingAdd; exact Nat.min_eq_left (by omega)]
            have hinv2 : ∀ s ∈ seg :: rest, G + 1 ≤ s.end_address := by
              intro s hs
              rcases List.mem_cons.mp hs with rfl | hs2
              · omega
              · have hge := chainFrom_all_ge hfrom s hs2
                have hwfs := chainWF_all_wf (chainFrom_chainWF hfrom) s hs2
                have := segWF_start_le_end hwfs
                omega
            have hfuel2 : (seg :: rest).length * (r.«end» + 2)
                + (r.«end» + 1 - (G + 1)) ≤ fuel := by omega
            obtain ⟨hlen, pre, hpre⟩ := ih (G + 1) (seg :: rest)
              (data ++ List.replicate (G - addr + 1) 0xFF) hchain hinv2 hfuel2
            refine ⟨?_, pre, hpre⟩
            rw [hlen, List.length_append, List.length_replicate]
            omega
          · simp only [forcedEmitRangeF, if_pos haddr, if_neg h1, if_neg h2]
            rw [show max addr seg.start_address = addr from by omega]
            generalize hM : min seg.end_address r.«end» = M
            have hMa : addr ≤ M := by omega
            have hMr : M ≤ r.«end» := by omega
            have hMs : M ≤ seg.end_address := by omega
            have hslice : ((seg.data.drop (addr - seg.start_address)).take
                (M - addr + 1)).length = M - addr + 1 := by
              rw [List.length_take, List.length_drop]
              omega
            by_cases hcap : M = U32MAX
            · rw [show checkedAdd M 1 = none from by
                unfold checkedAdd; rw [if_neg (by omega)]]
              dsimp only
              by_cases h3 : seg.end_address ≤ M
              · rw [if_pos h3]
                refine ⟨?_, [seg], rfl⟩
                show (data ++ _).length = _
                rw [List.length_append, hslice]
                omega
              · rw [if_neg h3]
                refine ⟨?_, [], rfl⟩
                show (data ++ _).length = _
                rw [List.length_append, hslice]
                omega
            · rw [show checkedAdd M 1 = some (M + 1) from by
                unfold checkedAdd; rw [if_pos (by omega)]]
              dsimp only
              by_cases h3 : seg.end_address ≤ M
              · rw [if_pos h3]
                have hchain2 := chainFrom_chainWF hfrom
                have hinv2 : ∀ s ∈ rest, M + 1 ≤ s.end_address := by
                  intro s hs
                  have hge := chainFrom_all_ge hfrom s hs
                  have hwfs := chainWF_all_wf hchain2 s hs
                  have := segWF_start_le_end hwfs
                  omega
                have hexp : (seg :: rest).length * (r.«end» + 2)
                    = rest.length * (r.«end» + 2) + (r.«end» + 2) := by
                  rw [List.length_cons]
                  ring
                have hfuel2 : rest.length * (r.«end» + 2)
                    + (r.«end» + 1 - (M + 1)) ≤ fuel := by omega
                obtain ⟨hlen, pre, hpre⟩ := ih (M + 1) rest
                  (data ++ (seg.data.drop (addr - seg.start_address)).take (M - addr + 1))
                  hchain2 hinv2 hfuel2
                refine ⟨?_, seg :: pre, ?_⟩
                · rw [hlen, List.length_append, hslice]
                  omega
                · rw [List.cons_append, hpre]
              · rw [if_neg h3]
                have hMe : M = r.«end» := by omega
                have hinv2 : ∀ s ∈ seg :: rest, M + 1 ≤ s.end_address := by
                  intro s hs
                  rcases List.mem_cons.mp hs with rfl | hs2
                  · omega
                  · have hge := chainFrom_all_ge hfrom s hs2
                    have hwfs := chainWF_all_wf (chainFrom_chainWF hfrom) s hs2
                    have := segWF_start_le_end hwfs
                    omega
                have hfuel2 : (seg :: rest).length * (r.«end» + 2)
                    + (r.«end» + 1 - (M + 1)) ≤ fuel := by omega
                obtain ⟨hlen, pre, hpre⟩ := ih (M + 1) (seg :: rest)
                  (data ++ (seg.data.drop (addr - seg.start_address)).take (M - addr + 1))
                  hchain hinv2 hfuel2
                refine ⟨?_, pre, hpre⟩
                rw [hlen, List.length_append, hslice]
                omega
    · simp only [forcedEmitRangeF, if_neg haddr]
      refine ⟨by omega, [], rfl⟩

theorem forcedEmitRange_spec (r : Range) (hre : r.«end» ≤ U32MAX) (segs : List Segment)
    (data : List Nat) (hchain : chainWF segs = true)
    (hinv : ∀ s ∈ segs, r.start ≤ s.end_address) :
    (forcedEmitRange r r.start segs data).2.length
        = data.length + (r.«end» + 1 - r.start) ∧
      ∃ pre, pre ++ (forcedEmitRange r r.start segs data).1 = segs := by
  unfold forcedEmitRange
  exact forcedEmitRangeF_spec r hre
    (segs.length * (r.«end» + 2) + (r.«end» + 1 - r.start)) r.start segs data
    hchain hinv (le_refl _)

theorem forcedFold_length : ∀ (incs : List Range) (segs : List Segment) (data : List Nat),
    chainWF segs = true →
    (∀ q ∈ incs, q.start ≤ q.«end» ∧ q.«end» ≤ U32MAX) →
    (incs.foldl (fun (st : List Segment × List Nat) q =>
        forcedEmitRange q q.start (skipSegsBefore q.start st.1) st.2) (segs, data)).2.length
      = data.length + (incs.map Range.length).sum := by
  intro incs
  induction incs with
  | nil =>
    intro segs data _ _
    simp
  | cons q rest ih =>
    intro segs data hchain hval
    rw [List.foldl_cons]
    have hq := hval q (List.mem_cons_self q rest)
    obtain ⟨pre0, hpre0⟩ := skipSegsBefore_suffix q.start segs
    have hchain0 : chainWF (skipSegsBefore q.start segs) = true :=
      chainWF_suffix pre0 _ (by rw [hpre0]; exact hchain)
    have hinv0 := skipSegsBefore_inv q.start segs hchain
    obtain ⟨hlen1, pre1, hpre1⟩ :=
      forcedEmitRange_spec q hq.2 (skipSegsBefore q.start segs) data hchain0 hinv0
    rcases hX : forcedEmitRange q q.start (skipSegsBefore q.start segs) data
      with ⟨segs1, data1⟩
    rw [hX] at hlen1 hpre1
    dsimp only at hlen1 hpre1
    have hchain1 : chainWF segs1 = true :=
      chainWF_suffix pre1 segs1 (by rw [hpre1]; exact hchain0)
    rw [ih segs1 data1 hchain1 (fun p hp => hval p (List.mem_cons_of_mem q hp))]
    rw [hlen1]
    simp only [List.map_cons, List.sum_cons]
    have hL : Range.length q = q.«end» - q.start + 1 := rfl
    omega

theorem mergeRangesFrom_valid : ∀ (l : List Range) (last : Range),
    last.start ≤ last.«end» → (∀ q ∈ l, q.start ≤ q.«end») →
    ∀ q ∈ mergeRangesFrom last l, q.start ≤ q.«end» := by
  intro l
  induction l with
  | nil =>
    intro last hl _ q hq
    rw [show mergeRangesFrom last [] = [last] from rfl, List.mem_singleton] at hq
    rw [hq]
    exact hl
  | cons x xs ih =>
    intro last hl hall q hq
    simp only [mergeRangesFrom] at hq
    split at hq
    · refine ih ⟨last.start, max last.«end» x.«end»⟩ ?_
        (fun p hp => hall p (List.mem_cons_of_mem x hp)) q hq
      show last.start ≤ max last.«end» x.«end»
      omega
    · rcases List.mem_cons.mp hq with rfl | hq2
      · exact hl
      · exact ih x (hall x (List.mem_cons_self x xs))
          (fun p hp => hall p (List.mem_cons_of_mem x hp)) q hq2

theorem merge_ranges_valid (ranges : List Range)
    (hall : ∀ q ∈ ranges, q.start ≤ q.«end») :
    ∀ q ∈ merge_ranges ranges, q.start ≤ q.«end» := by
  have hperm : ∀ q ∈ sortRangesByStart ranges, q.start ≤ q.«end» := by
    intro q hq
    unfold sortRangesByStart at hq
    exact hall q ((List.perm_insertionSort _ ranges).mem_iff.mp hq)
  unfold merge_ranges
  rcases hs : sortRangesByStart ranges with _ | ⟨x, xs⟩
  · intro q hq
    cases hq
  · rw [hs] at hperm
    exact mergeRangesFrom_valid xs x (hperm x (List.mem_cons_self x xs))
      (fun p hp => hperm p (List.mem_cons_of_mem x hp))

theorem subtractGo_start_ge (range : Range) : ∀ (excludes : List Range) (cursor : Nat),
    ∀ q ∈ subtractRangesGo range cursor excludes, cursor ≤ q.start := by
  intro excludes
  induction excludes with
  | nil =>
    intro cursor q hq
    unfold subtractRangesGo at hq
    by_cases hc : cursor ≤ range.«end»
    · rw [if_pos hc] at hq
      rcases hfe : Range.from_start_end cursor range.«end» with e | r0
      · rw [hfe] at hq
        cases hq
      · rw [hfe] at hq
        rw [List.mem_singleton] at hq
        subst hq
        obtain ⟨h1, h2, h3⟩ := from_start_end_ok hfe
        omega
    · rw [if_neg hc] at hq
      cases hq
  | cons ex rest ih =>
    intro cursor q hq
    unfold subtractRangesGo at hq
    by_cases hc1 : ex.«end» < cursor
    · rw [if_pos hc1] at hq
      exact ih cursor q hq
    · rw [if_neg hc1] at hq
      by_cases hc2 : ex.start > range.«end»
      · rw [if_pos hc2] at hq
        by_cases hc : cursor ≤ range.«end»
        · rw [if_pos hc] at hq
          rcases hfe : Range.from_start_end cursor range.«end» with e | r0
          · rw [hfe] at hq
            cases hq
          · rw [hfe] at hq
            rw [List.mem_singleton] at hq
            subst hq
            obtain ⟨h1, h2, h3⟩ := from_start_end_ok hfe
            omega
        · rw [if_neg hc] at hq
          cases hq
      · rw [if_neg hc2] at hq
        have hhead : ∀ x ∈ (if cursor < max ex.start range.start then
              match Range.from_start_end cursor (max ex.start range.start - 1) with
              | .ok r => [r]
              | .error _ => ([] : List Range)
            else []), cursor ≤ x.start := by
          intro x hx
          by_cases hch : cursor < max ex.start range.start
          · rw [if_pos hch] at hx
            rcases hfe : Range.from_start_end cursor (max ex.start range.start - 1)
              with e | r0
            · rw [hfe] at hx
              cases hx
            · rw [hfe] at hx
              rw [List.mem_singleton] at hx
              subst hx
              obtain ⟨h1, h2, h3⟩ := from_start_end_ok hfe
              omega
          · rw [if_neg hch] at hx
            cases hx
        by_cases hu : min ex.«end» range.«end» = U32MAX
        · simp only [if_pos hu] at hq
          exact hhead q hq
        · simp only [if_neg hu] at hq
          by_cases hv2 : min ex.«end» range.«end» + 1 > range.«end»
          · simp only [if_pos hv2] at hq
            exact hhead q hq
          · simp only [if_neg hv2] at hq
            rcases List.mem_append.mp hq with h | h
            · exact hhead q h
            · have hrec := ih (min ex.«end» range.«end» + 1) q h
              omega

theorem subtractGo_end_le (range : Range) (hr : range.start ≤ range.«end») :
    ∀ (excludes : List Range) (cursor : Nat),
    ∀ q ∈ subtractRangesGo range cursor excludes, q.«end» ≤ range.«end» := by
  intro excludes
  induction excludes with
  | nil =>
    intro cursor q hq
    unfold subtractRangesGo at hq
    by_cases hc : cursor ≤ range.«end»
    · rw [if_pos hc] at hq
      rcases hfe : Range.from_start_end cursor range.«end» with e | r0
      · rw [hfe] at hq
        cases hq
      · rw [hfe] at hq
        rw [List.mem_singleton] at hq
        subst hq
        obtain ⟨h1, h2, h3⟩ := from_start_end_ok hfe
        omega
    · rw [if_neg hc] at hq
      cases hq
  | cons ex rest ih =>
    intro cursor q hq
    unfold subtractRangesGo at hq
    by_cases hc1 : ex.«end» < cursor
    · rw [if_pos hc1] at hq
      exact ih cursor q hq
    · rw [if_neg hc1] at hq
      by_cases hc2 : ex.start > range.«end»
      · rw [if_pos hc2] at hq
        by_cases hc : cursor ≤ range.«end»
        · rw [if_pos hc] at hq
          rcases hfe : Range.from_start_end cursor range.«end» with e | r0
          · rw [hfe] at hq
            cases hq
          · rw [hfe] at hq
            rw [List.mem_singleton] at hq
            subst hq
            obtain ⟨h1, h2, h3⟩ := from_start_end_ok hfe
            omega
        · rw [if_neg hc] at hq
          cases hq
      · rw [if_neg hc2] at hq
        have hhead : ∀ x ∈ (if cursor < max ex.start range.start then
              match Range.from_start_end cursor (max ex.start range.start - 1) with
              | .ok r => [r]
              | .error _ => ([] : List Range)
            else []), x.«end» ≤ range.«end» := by
          intro x hx
          by_cases hch : cursor < max ex.start range.start
          · rw [if_pos hch] at hx
            rcases hfe : Range.from_start_end cursor (max ex.start range.start - 1)
              with e | r0
            · rw [hfe] at hx
              cases hx
            · rw [hfe] at hx
              rw [List.mem_singleton] at hx
              subst hx
              obtain ⟨h1, h2, h3⟩ := from_start_end_ok hfe
              omega
          · rw [if_neg hch] at hx
            cases hx
        by_cases hu : min ex.«end» range.«end» = U32MAX
        · simp only [if_pos hu] at hq
          exact hhead q hq
        · simp only [if_neg hu] at hq
          by_cases hv2 : min ex.«end» range.«end» + 1 > range.«end»
          · simp only [if_pos hv2] at hq
            exact hhead q hq
          · simp only [if_neg hv2] at hq
            rcases List.mem_append.mp hq with h | h
            · exact hhead q h
            · exact ih (min ex.«end» range.«end» + 1) q h

theorem rangeGapped_cons (a : Range) (l : List Range) (hl : rangeGapped l)
    (hgap : ∀ b rest2, l = b :: rest2 → a.«end» + 2 ≤ b.start) :
    rangeGapped (a :: l) := by
  cases l with
  | nil => exact True.intro
  | cons b rest => exact ⟨hgap b rest rfl, hl⟩

theorem subtractGo_gapped (range : Range) (hr : range.start ≤ range.«end») :
    ∀ (excludes : List Range) (cursor : Nat),
    (∀ ex ∈ excludes, ex.start ≤ ex.«end») → range.start ≤ cursor →
    rangeGapped (subtractRangesGo range cursor excludes) := by
  intro excludes
  induction excludes with
  | nil =>
    intro cursor _ _
    unfold subtractRangesGo
    by_cases hc : cursor ≤ range.«end»
    · rw [if_pos hc]
      rcases hfe : Range.from_start_end cursor range.«end» with e | r0
      · exact True.intro
      · exact True.intro
    · rw [if_neg hc]
      exact True.intro
  | cons ex rest ih =>
    intro cursor hexv hcur
    unfold subtractRangesGo
    by_cases hc1 : ex.«end» < cursor
    · rw [if_pos hc1]
      exact ih cursor (fun p hp => hexv p (List.mem_cons_of_mem ex hp)) hcur
    · rw [if_neg hc1]
      by_cases hc2 : ex.start > range.«end»
      · rw [if_pos hc2]
        by_cases hc : cursor ≤ range.«end»
        · rw [if_pos hc]
          rcases hfe : Range.from_start_end cursor range.«end» with e | r0
          · exact True.intro
          · exact True.intro
        · rw [if_neg hc]
          exact True.intro
      · rw [if_neg hc2]
        have hxx := hexv ex (List.mem_cons_self ex rest)
        have hee : max ex.start range.start ≤ min ex.«end» range.«end» := by omega
        by_cases hu : min ex.«end» range.«end» = U32MAX
        · simp only [if_pos hu]
          by_cases hch : cursor < max ex.start range.start
          · rw [if_pos hch]
            rcases hfe : Range.from_start_end cursor (max ex.start range.start - 1)
              with e | r0
            · exact True.intro
            · exact True.intro
          · rw [if_neg hch]
            exact True.intro
        · simp only [if_neg hu]
          by_cases hv2 : min ex.«end» range.«end» + 1 > range.«end»
          · simp only [if_pos hv2]
            by_cases hch : cursor < max ex.start range.start
            · rw [if_pos hch]
              rcases hfe : Range.from_start_end cursor (max ex.start range.start - 1)
                with e | r0
              · exact True.intro
              · exact True.intro
            · rw [if_neg hch]
              exact True.intro
          · simp only [if_neg hv2]
            have hrest := ih (min ex.«end» range.«end» + 1)
              (fun p hp => hexv p (List.mem_cons_of_mem ex hp)) (by omega)
            by_cases hch : cursor < max ex.start range.start
            · rw [if_pos hch]
              rcases hfe : Range.from_start_end cursor (max ex.start range.start - 1)
                with e | r0
              · rw [List.nil_append]
                exact hrest
              · rw [List.singleton_append]
                refine rangeGapped_cons r0 _ hrest ?_
                intro b rest2 heq
                have hb := subtractGo_start_ge range rest
                  (min ex.«end» range.«end» + 1) b
                  (by rw [heq]; exact List.mem_cons_self b rest2)
                obtain ⟨h1, h2, h3⟩ := from_start_end_ok hfe
                omega
            · rw [if_neg hch]
              rw [List.nil_append]
              exact hrest

theorem subtract_ranges_end_le (range : Range) (hr : range.start ≤ range.«end»)
    (excludes : List Range) : ∀ q ∈ subtract_ranges range excludes,
    q.«end» ≤ range.«end» := by
  intro q hq
  unfold subtract_ranges at hq
  by_cases he : excludes.isEmpty
  · rw [if_pos he] at hq
    rw [List.mem_singleton] at hq
    rw [hq]
  · rw [if_neg he] at hq
    exact subtractGo_end_le range hr excludes range.start q hq

theorem subtract_ranges_gapped (range : Range) (hr : range.start ≤ range.«end»)
    (excludes : List Range) (hexv : ∀ ex ∈ excludes, ex.start ≤ ex.«end») :
    rangeGapped (subtract_ranges range excludes) := by
  unfold subtract_ranges
  by_cases he : excludes.isEmpty
  · rw [if_pos he]
    exact True.intro
  · rw [if_neg he]
    exact subtractGo_gapped range hr excludes range.start hexv (le_refl _)

theorem runsFromState_gapped : ∀ (l : List Range) (s rl p : Nat),
    (∀ q ∈ l, q.start ≤ q.«end» ∧ q.«end» ≤ U32MAX) → rangeGapped l →
    (∀ b rest2, l = b :: rest2 → p + 2 ≤ b.start) →
    runsFromState (some s) rl (some p) (l.map (fun q => (q.start, q.«end»))) =
      (s, rl) :: l.map (fun q => (q.start, Range.length q)) := by
  intro l
  induction l with
  | nil => intro s rl p _ _ _; rfl
  | cons q rest ih =>
    intro s rl p hval hgap hhead
    have hq := hval q (List.mem_cons_self q rest)
    have hp2 : p + 2 ≤ q.start := hhead q rest rfl
    rw [List.map_cons]
    simp only [runsFromState]
    have hne : q.start ≠ saturatingAdd p 1 := by
      unfold saturatingAdd
      omega
    rw [if_pos hne]
    have hg : rangeGapped rest := by
      cases rest with
      | nil => exact True.intro
      | cons b r2 => exact hgap.2
    have hh : ∀ b rest2, rest = b :: rest2 → q.«end» + 2 ≤ b.start := by
      intro b rest2 heq
      subst heq
      exact hgap.1
    rw [ih q.start (q.«end» - q.start + 1) q.«end»
      (fun p2 hp => hval p2 (List.mem_cons_of_mem q hp)) hg hh]
    rfl

theorem runsFromState_sep (l : List Range)
    (hval : ∀ q ∈ l, q.start ≤ q.«end» ∧ q.«end» ≤ U32MAX) (hgap : rangeGapped l) :
    runsFromState none 0 none (l.map (fun q => (q.start, q.«end»))) =
      l.map (fun q => (q.start, Range.length q)) := by
  cases l with
  | nil => rfl
  | cons q rest =>
    rw [List.map_cons]
    simp only [runsFromState]
    have hg : rangeGapped rest := by
      cases rest with
      | nil => exact True.intro
      | cons b r2 => exact hgap.2
    have hh : ∀ b rest2, rest = b :: rest2 → q.«end» + 2 ≤ b.start := by
      intro b rest2 heq
      subst heq
      exact hgap.1
    rw [runsFromState_gapped rest q.start (0 + (q.«end» - q.start + 1)) q.«end»
      (fun p2 hp => hval p2 (List.mem_cons_of_mem q hp)) hg hh]
    simp only [Nat.zero_add]
    rfl

theorem except_forIn_finalize : ∀ (l : List Range) (init : PUnit)
    (f : Range → PUnit → Except OpsError (ForInStep PUnit)),
    (∀ q b, f q b = finalize_run true q.start q.length >>= fun _ =>
      pure (ForInStep.yield b)) →
    ForIn.forIn (m := Except OpsError) l init f =
      match firstBadRun (l.map (fun q => (q.start, Range.length q))) with
      | some e => Except.error e
      | none => pure PUnit.unit := by
  intro l
  induction l with
  | nil =>
    intro init f hstep
    cases init
    rfl
  | cons q rest ih =>
    intro init f hstep
    rw [List.forIn_cons, hstep, List.map_cons]
    unfold finalize_run
    rw [if_neg (by decide : ¬ ((!true) = true))]
    by_cases h1 : q.start % 2 ≠ 0
    · rw [if_pos h1]
      rw [show firstBadRun ((q.start, Range.length q) ::
          rest.map (fun p => (p.start, Range.length p)))
          = some (OpsError.AddressNotDivisible q.start 2) from by
        unfold firstBadRun; rw [if_pos h1]]
      rfl
    · rw [if_neg h1]
      by_cases h2 : Range.length q % 2 ≠ 0
      · rw [if_pos h2]
        rw [show firstBadRun ((q.start, Range.length q) ::
            rest.map (fun p => (p.start, Range.length p)))
            = some (OpsError.LengthNotMultiple (Range.length q) 2) from by
          unfold firstBadRun; rw [if_neg h1, if_pos h2]]
        rfl
      · rw [if_neg h2]
        rw [show firstBadRun ((q.start, Range.length q) ::
            rest.map (fun p => (p.start, Range.length p)))
            = firstBadRun (rest.map (fun p => (p.start, Range.length p))) from by
          simp only [firstBadRun]; rw [if_neg h1, if_neg h2]]
        show ForIn.forIn rest init f = _
        exact ih init f hstep

theorem forced_collect_cases (cold : Except OpsError (List Nat)) (WS : List Segment)
    (RNG : Range) (excl : List Range)
    (hchainW : chainWF WS = true)
    (hrv : RNG.start ≤ RNG.«end» ∧ RNG.«end» ≤ U32MAX)
    (hexv : ∀ ex ∈ excl, ex.start ≤ ex.«end»)
    (hcol : cold =
      (if (subtract_ranges RNG (merge_ranges excl)).isEmpty = true then pure []
       else
         (ForIn.forIn (subtract_ranges RNG (merge_ranges excl)) PUnit.unit
             (fun q b => finalize_run true q.start q.length >>= fun _ =>
               pure (ForInStep.yield b))) >>= fun _ =>
           pure ((subtract_ranges RNG (merge_ranges excl)).foldl
             (fun (st : List Segment × List Nat) q =>
               forcedEmitRange q q.start (skipSegsBefore q.start st.1) st.2)
             (WS, [])).2)) :
    (∃ e0, cold = .error e0 ∧
        firstBadRun ((subtract_ranges RNG (merge_ranges excl)).map
          (fun q => (q.start, Range.length q))) = some e0) ∨
      (∃ d, cold = .ok d ∧
        firstBadRun ((subtract_ranges RNG (merge_ranges excl)).map
          (fun q => (q.start, Range.length q))) = none ∧ d.length % 2 = 0) := by
  have hmv := merge_ranges_valid excl hexv
  have hincv := subtract_ranges_valid RNG hrv.1 (merge_ranges excl)
  have hince := subtract_ranges_end_le RNG hrv.1 (merge_ranges excl)
  have hvv : ∀ q ∈ subtract_ranges RNG (merge_ranges excl),
      q.start ≤ q.«end» ∧ q.«end» ≤ U32MAX :=
    fun q hq => ⟨hincv q hq, le_trans (hince q hq) hrv.2⟩
  by_cases hie : (subtract_ranges RNG (merge_ranges excl)).isEmpty = true
  · rw [if_pos hie] at hcol
    have hnil := hie
    rw [List.isEmpty_eq_true] at hnil
    refine Or.inr ⟨[], hcol, ?_, rfl⟩
    rw [hnil]
    rfl
  · rw [if_neg hie] at hcol
    rw [except_forIn_finalize _ _ _ (fun q b => rfl)] at hcol
    rcases hfbm : firstBadRun ((subtract_ranges RNG (merge_ranges excl)).map
        (fun q => (q.start, Range.length q))) with _ | e0
    · rw [hfbm] at hcol
      simp only [pure_bind] at hcol
      refine Or.inr ⟨_, hcol, hfbm, ?_⟩
      rw [forcedFold_length (subtract_ranges RNG (merge_ranges excl)) WS [] hchainW hvv]
      have hsum := even_run_sum
        (fun p hp => (firstBadRun_none_even hfbm p hp).2)
      have hms : (((subtract_ranges RNG (merge_ranges excl)).map
          (fun q => (q.start, Range.length q))).map Prod.snd) =
          (subtract_ranges RNG (merge_ranges excl)).map Range.length := by
        rw [List.map_map]
        rfl
      rw [hms] at hsum
      simp only [List.length_nil]
      omega
    · rw [hfbm] at hcol
      refine Or.inl ⟨e0, ?_, hfbm⟩
      rw [hcol]
      rfl

theorem collect_parity_cases (hf : HexFile) (options : ChecksumOptions)
    (halg : needsWordAlignment options.algorithm = true)
    (hstarts : ∀ s ∈ hf.segments, s.start_address ≤ U32MAX)
    (hrange : ∀ q, options.range = some q → q.start ≤ q.«end» ∧ q.«end» ≤ U32MAX)
    (hfrng : ∀ fr, options.forced_range = some fr →
      fr.range.start ≤ fr.range.«end» ∧ fr.range.«end» ≤ U32MAX)
    (hexr : ∀ ex ∈ options.exclude_ranges ++ options.target_exclude.toList,
      ex.start ≤ ex.«end»)
    (hnotfull : ¬(options.forced_range = none ∧ options.range = none ∧
      hf.normalized_lossy.min_address = some 0 ∧
      hf.normalized_lossy.max_address = some U32MAX)) :
    (∃ e0, hf.collect_data_for_checksum options = .error e0 ∧
        firstBadRun (checksumRuns hf options) = some e0) ∨
      (∃ d, hf.collect_data_for_checksum options = .ok d ∧
        firstBadRun (checksumRuns hf options) = none ∧ d.length % 2 = 0) := by
  rcases hfo : options.forced_range with _ | forced
  · have hwfn : ∀ s ∈ hf.normalized_lossy.segments, segWF s = true :=
      chainWF_all_wf (normalized_lossy_chainWF hf hstarts)
    have hnf2 : ¬(options.range = none ∧ hf.normalized_lossy.min_address = some 0 ∧
        hf.normalized_lossy.max_address = some U32MAX) :=
      fun hc => hnotfull ⟨hfo, hc.1, hc.2.1, hc.2.2⟩
    have hcol := collect_eq_runs hf options halg hfo hwfn hnf2
    rcases hfb : firstBadRun (checksumRuns hf options) with _ | e0
    · refine Or.inr ⟨checksumPayload hf options, ?_, rfl, ?_⟩
      · rw [hcol, hfb]
      · exact payload_even hf options hfo hwfn (fun q hq => (hrange q hq).1) hfb
    · refine Or.inl ⟨e0, ?_, rfl⟩
      rw [hcol, hfb]
  · have hfrv := hfrng forced hfo
    obtain ⟨fill, hbpf⟩ : ∃ fill,
        build_pattern_data forced.range forced.pattern = .ok fill := by
      unfold build_pattern_data
      by_cases h0 : forced.range.length = 0
      · rw [if_pos h0]
        exact ⟨_, rfl⟩
      · rw [if_neg h0]
        exact ⟨_, rfl⟩
    have hnstarts : ∀ s ∈ hf.normalized_lossy.segments, s.start_address ≤ U32MAX := by
      intro s hs
      have hwf := chainWF_all_wf (normalized_lossy_chainWF hf hstarts) s hs
      have hb1 := segWF_bound hwf
      have hb2 := segWF_len_pos hwf
      omega
    have hcs : ∀ s ∈ (hf.normalized_lossy.segments.foldl HexFile.append_segment
        (HexFile.new.append_segment ⟨forced.range.start, fill⟩)).segments,
        s.start_address ≤ U32MAX := by
      intro s hs
      rcases foldl_append_mem _ _ s hs with hh | hh
      · unfold HexFile.new HexFile.append_segment at hh
        by_cases hfe : (⟨forced.range.start, fill⟩ : Segment).is_empty
        · rw [if_pos hfe] at hh
          cases hh
        · rw [if_neg hfe] at hh
          have hh2 : s = ⟨forced.range.start, fill⟩ := by simpa using hh
          rw [hh2]
          show forced.range.start ≤ U32MAX
          omega
      · exact hnstarts s hh
    have hchainW := normalized_lossy_chainWF _ hcs
    rcases hor : options.range with _ | r
    · have hcol : hf.collect_data_for_checksum options =
          (if (subtract_ranges forced.range (merge_ranges
              (options.exclude_ranges ++ options.target_exclude.toList))).isEmpty = true
            then pure []
           else
             (ForIn.forIn (subtract_ranges forced.range (merge_ranges
                 (options.exclude_ranges ++ options.target_exclude.toList))) PUnit.unit
                 (fun q b => finalize_run true q.start q.length >>= fun _ =>
                   pure (ForInStep.yield b))) >>= fun _ =>
               pure ((subtract_ranges forced.range (merge_ranges
                   (options.exclude_ranges ++ options.target_exclude.toList))).foldl
                 (fun (st : List Segment × List Nat) q =>
                   forcedEmitRange q q.start (skipSegsBefore q.start st.1) st.2)
                 ((hf.normalized_lossy.segments.foldl HexFile.append_segment
                   (HexFile.new.append_segment
                     ⟨forced.range.start, fill⟩)).normalized_lossy.segments, [])).2) := by
        unfold HexFile.collect_data_for_checksum
        rw [halg]
        simp only [hfo, hor, hbpf, bind, Except.bind, pure, Except.pure]
        rfl
      have hcore := forced_collect_cases (hf.collect_data_for_checksum options)
        (hf.normalized_lossy.segments.foldl HexFile.append_segment
          (HexFile.new.append_segment ⟨forced.range.start, fill⟩)).normalized_lossy.segments
        forced.range (options.exclude_ranges ++ options.target_exclude.toList)
        hchainW hfrv hexr hcol
      have hmv := merge_ranges_valid
        (options.exclude_ranges ++ options.target_exclude.toList) hexr
      have hincv := subtract_ranges_valid forced.range hfrv.1
        (merge_ranges (options.exclude_ranges ++ options.target_exclude.toList))
      have hince := subtract_ranges_end_le forced.range hfrv.1
        (merge_ranges (options.exclude_ranges ++ options.target_exclude.toList))
      have hvv : ∀ q ∈ subtract_ranges forced.range
          (merge_ranges (options.exclude_ranges ++ options.target_exclude.toList)),
          q.start ≤ q.«end» ∧ q.«end» ≤ U32MAX :=
        fun q hq => ⟨hincv q hq, le_trans (hince q hq) hfrv.2⟩
      have hgap := subtract_ranges_gapped forced.range hfrv.1
        (merge_ranges (options.exclude_ranges ++ options.target_exclude.toList)) hmv
      have hruns : firstBadRun (checksumRuns hf options) =
          firstBadRun ((subtract_ranges forced.range
            (merge_ranges (options.exclude_ranges ++ options.target_exclude.toList))).map
            (fun q => (q.start, Range.length q))) := by
        unfold checksumRuns
        simp only [hfo, hor]
        rw [runsFromState_sep _ hvv hgap]
      rcases hcore with ⟨e0, hc1, hc2⟩ | ⟨d, hc1, hc2, hc3⟩
      · exact Or.inl ⟨e0, hc1, by rw [hruns]; exact hc2⟩
      · exact Or.inr ⟨d, hc1, by rw [hruns]; exact hc2, hc3⟩
    · have hrv := hrange r hor
      have hcol : hf.collect_data_for_checksum options =
          (if (subtract_ranges r (merge_ranges
              (options.exclude_ranges ++ options.target_exclude.toList))).isEmpty = true
            then pure []
           else
             (ForIn.forIn (subtract_ranges r (merge_ranges
                 (options.exclude_ranges ++ options.target_exclude.toList))) PUnit.unit
                 (fun q b => finalize_run true q.start q.length >>= fun _ =>
                   pure (ForInStep.yield b))) >>= fun _ =>
               pure ((subtract_ranges r (merge_ranges
                   (options.exclude_ranges ++ options.target_exclude.toList))).foldl
                 (fun (st : List Segment × List Nat) q =>
                   forcedEmitRange q q.start (skipSegsBefore q.start st.1) st.2)
                 ((hf.normalized_lossy.segments.foldl HexFile.append_segment
                   (HexFile.new.append_segment
                     ⟨forced.range.start, fill⟩)).normalized_lossy.segments, [])).2) := by
        unfold HexFile.collect_data_for_checksum
        rw [halg]
        simp only [hfo, hor, hbpf, bind, Except.bind, pure, Except.pure]
        rfl
      have hcore := forced_collect_cases (hf.collect_data_for_checksum options)
        (hf.normalized_lossy.segments.foldl HexFile.append_segment
          (HexFile.new.append_segment ⟨forced.range.start, fill⟩)).normalized_lossy.segments
        r (options.exclude_ranges ++ options.target_exclude.toList)
        hchainW hrv hexr hcol
      have hmv := merge_ranges_valid
        (options.exclude_ranges ++ options.target_exclude.toList) hexr
      have hincv := subtract_ranges_valid r hrv.1
        (merge_ranges (options.exclude_ranges ++ options.target_exclude.toList))
      have hince := subtract_ranges_end_le r hrv.1
        (merge_ranges (options.exclude_ranges ++ options.target_exclude.toList))
      have hvv : ∀ q ∈ subtract_ranges r
          (merge_ranges (options.exclude_ranges ++ options.target_exclude.toList)),
          q.start ≤ q.«end» ∧ q.«end» ≤ U32MAX :=
        fun q hq => ⟨hincv q hq, le_trans (hince q hq) hrv.2⟩
      have hgap := subtract_ranges_gapped r hrv.1
        (merge_ranges (options.exclude_ranges ++ options.target_exclude.toList)) hmv
      have hruns : firstBadRun (checksumRuns hf options) =
          firstBadRun ((subtract_ranges r
            (merge_ranges (options.exclude_ranges ++ options.target_exclude.toList))).map
            (fun q => (q.start, Range.length q))) := by
        unfold checksumRuns
        simp only [hfo, hor]
        rw [runsFromState_sep _ hvv hgap]
      rcases hcore with ⟨e0, hc1, hc2⟩ | ⟨d, hc1, hc2, hc3⟩
      · exact Or.inl ⟨e0, hc1, by rw [hruns]; exact hc2⟩
      · exact Or.inr ⟨d, hc1, by rw [hruns]; exact hc2, hc3⟩

end H3xy

namespace H3xy

/-- C8 counterexample: an image whose span is exactly the full u32 address
space makes `calculate_checksum` fail with `AddressOverflow` from the
default-range construction, even though every maximal contiguous run is
even-aligned with even length. -/
theorem c8_full_span_counterexample :
    (HexFile.calculate_checksum ⟨[⟨0, [1, 2]⟩, ⟨4294967294, [3, 4]⟩]⟩
        ⟨.WordSumBe, none, false, none, [], none⟩) = .error .AddressOverflow ∧
      firstBadRun (checksumRuns ⟨[⟨0, [1, 2]⟩, ⟨4294967294, [3, 4]⟩]⟩
        ⟨.WordSumBe, none, false, none, [], none⟩) = none := by
  exact ⟨by rfl, by rfl⟩

/-- C8 (amended): for the word-sum algorithms, `calculate_checksum` returns
an error exactly when some maximal contiguous run of payload bytes is bad:
the first such run gives `AddressNotDivisible` for an odd start and
`LengthNotMultiple` for an odd length; with only even-aligned, even-length
runs it succeeds — unless neither an explicit range nor a forced range is
given and the image spans the whole u32 space, where the default range
construction itself fails.  With a forced range the payload runs are the
included sub-ranges themselves (gaps are pattern-filled) and the
equivalence holds unconditionally.  The side conditions only encode u32
representability of the option ranges (the Rust `Range` type invariant). -/
theorem c8_word_sum_error_iff (hf : HexFile) (options : ChecksumOptions) (e : OpsError)
    (halg : needsWordAlignment options.algorithm = true)
    (hstarts : ∀ s ∈ hf.segments, s.start_address ≤ U32MAX)
    (hrange : ∀ q, options.range = some q → q.start ≤ q.«end» ∧ q.«end» ≤ U32MAX)
    (hfrng : ∀ fr, options.forced_range = some fr →
      fr.range.start ≤ fr.range.«end» ∧ fr.range.«end» ≤ U32MAX)
    (hexr : ∀ ex ∈ options.exclude_ranges ++ options.target_exclude.toList,
      ex.start ≤ ex.«end»)
    (hnotfull : ¬(options.forced_range = none ∧ options.range = none ∧
      hf.normalized_lossy.min_address = some 0 ∧
      hf.normalized_lossy.max_address = some U32MAX)) :
    hf.calculate_checksum options = .error e ↔
      firstBadRun (checksumRuns hf options) = some e := by
  have hcases := collect_parity_cases hf options halg hstarts hrange hfrng hexr hnotfull
  unfold HexFile.calculate_checksum
  cases halgo : options.algorithm
  case WordSumBe =>
    rcases hcases with ⟨e0, hc, hr⟩ | ⟨d, hc, hr, hpar⟩
    · rw [hc, hr]
      simp [bind, Except.bind]
    · rw [hc, hr]
      have hws : word_sum_be d = .ok (wordSumGo true d 0) := by
        unfold word_sum_be
        rw [if_neg (by omega)]
      simp [bind, Except.bind, pure, Except.pure, hws]
  case WordSumLe =>
    rcases hcases with ⟨e0, hc, hr⟩ | ⟨d, hc, hr, hpar⟩
    · rw [hc, hr]
      simp [bind, Except.bind]
    · rw [hc, hr]
      have hws : word_sum_le d = .ok (wordSumGo false d 0) := by
        unfold word_sum_le
        rw [if_neg (by omega)]
      simp [bind, Except.bind, pure, Except.pure, hws]
  case WordSumBeTwosComplement =>
    rcases hcases with ⟨e0, hc, hr⟩ | ⟨d, hc, hr, hpar⟩
    · rw [hc, hr]
      simp [bind, Except.bind]
    · rw [hc, hr]
      have hws : word_sum_be d = .ok (wordSumGo true d 0) := by
        unfold word_sum_be
        rw [if_neg (by omega)]
      simp [bind, Except.bind, pure, Except.pure, hws]
  case WordSumLeTwosComplement =>
    rcases hcases with ⟨e0, hc, hr⟩ | ⟨d, hc, hr, hpar⟩
    · rw [hc, hr]
      simp [bind, Except.bind]
    · rw [hc, hr]
      have hws : word_sum_le d = .ok (wordSumGo false d 0) := by
        unfold word_sum_le
        rw [if_neg (by omega)]
      simp [bind, Except.bind, pure, Except.pure, hws]
  all_goals rw [halgo] at halg
  all_goals simp [needsWordAlignment] at halg

/-- Witness for C8 at a concrete forced-range computation whose single
include range [1, 4] starts at an odd address. -/
theorem c8_word_sum_error_iff_witness :
    (needsWordAlignment (ChecksumOptions.mk .WordSumBe none false
        (some ⟨⟨1, 4⟩, []⟩) [] none).algorithm = true ∧
      (∀ s ∈ (⟨[⟨2, [1, 2, 3]⟩]⟩ : HexFile).segments, s.start_address ≤ U32MAX) ∧
      (∀ q, (ChecksumOptions.mk .WordSumBe none false
          (some ⟨⟨1, 4⟩, []⟩) [] none).range = some q →
        q.start ≤ q.«end» ∧ q.«end» ≤ U32MAX) ∧
      (∀ fr, (ChecksumOptions.mk .WordSumBe none false
          (some ⟨⟨1, 4⟩, []⟩) [] none).forced_range = some fr →
        fr.range.start ≤ fr.range.«end» ∧ fr.range.«end» ≤ U32MAX) ∧
      (∀ ex ∈ (ChecksumOptions.mk .WordSumBe none false
            (some ⟨⟨1, 4⟩, []⟩) [] none).exclude_ranges ++
          (ChecksumOptions.mk .WordSumBe none false
            (some ⟨⟨1, 4⟩, []⟩) [] none).target_exclude.toList,
        ex.start ≤ ex.«end») ∧
      ¬((ChecksumOptions.mk .WordSumBe none false
          (some ⟨⟨1, 4⟩, []⟩) [] none).forced_range = none ∧
        (ChecksumOptions.mk .WordSumBe none false
          (some ⟨⟨1, 4⟩, []⟩) [] none).range = none ∧
        (⟨[⟨2, [1, 2, 3]⟩]⟩ : HexFile).normalized_lossy.min_address = some 0 ∧
        (⟨[⟨2, [1, 2, 3]⟩]⟩ : HexFile).normalized_lossy.max_address = some U32MAX)) ∧
    HexFile.calculate_checksum (⟨[⟨2, [1, 2, 3]⟩]⟩ : HexFile)
        (ChecksumOptions.mk .WordSumBe none false (some ⟨⟨1, 4⟩, []⟩) [] none) =
      .error (.AddressNotDivisible 1 2) ∧
    firstBadRun (checksumRuns (⟨[⟨2, [1, 2, 3]⟩]⟩ : HexFile)
        (ChecksumOptions.mk .WordSumBe none false (some ⟨⟨1, 4⟩, []⟩) [] none)) =
      some (.AddressNotDivisible 1 2) ∧
    (HexFile.calculate_checksum (⟨[⟨2, [1, 2, 3]⟩]⟩ : HexFile)
        (ChecksumOptions.mk .WordSumBe none false (some ⟨⟨1, 4⟩, []⟩) [] none) =
          .error (.AddressNotDivisible 1 2) ↔
      firstBadRun (checksumRuns (⟨[⟨2, [1, 2, 3]⟩]⟩ : HexFile)
        (ChecksumOptions.mk .WordSumBe none false (some ⟨⟨1, 4⟩, []⟩) [] none)) =
          some (.AddressNotDivisible 1 2)) :=
  ⟨⟨by decide, by decide, fun q h => Option.noConfusion h,
      fun fr h => by injection h with h2; subst h2; exact ⟨by decide, by decide⟩,
      fun ex h => absurd h (List.not_mem_nil ex),
      fun hc => Option.noConfusion hc.1⟩,
    by rfl, by rfl,
    c8_word_sum_error_iff _ _ _ (by decide) (by decide)
      (fun q h => Option.noConfusion h)
      (fun fr h => by injection h with h2; subst h2; exact ⟨by decide, by decide⟩)
      (fun ex h => absurd h (List.not_mem_nil ex))
      (fun hc => Option.noConfusion hc.1)⟩

end H3xy

namespace H3xy

/-- C1 counterexample: a stream with two overlapping data records parses to
an image that the writer (which emits the normalized, last-wins image) does
not reproduce; and the S-Record writer splits one segment across records
that the S-Record parser keeps as separate segments, so the exact
segment-list round-trip fails there too. -/
theorem c1_roundtrip_counterexample :
    parse_intel_hex (asciiBytes ":020000000102FB\n:02000000AAAAAA\n:00000001FF\n") =
      .ok ⟨[⟨0, [1, 2]⟩, ⟨0, [0xAA, 0xAA]⟩]⟩ ∧
    parse_intel_hex (write_intel_hex ⟨[⟨0, [1, 2]⟩, ⟨0, [0xAA, 0xAA]⟩]⟩
      IntelHexWriteOptions.default) = .ok ⟨[⟨0, [0xAA, 0xAA]⟩]⟩ ∧
    (⟨[⟨0, [0xAA, 0xAA]⟩]⟩ : HexFile) ≠ ⟨[⟨0, [1, 2]⟩, ⟨0, [0xAA, 0xAA]⟩]⟩ ∧
    (write_srec ⟨[⟨0x08000000, List.range 32⟩]⟩ SRecordWriteOptions.default).map
        (fun out => parse_srec out) =
      .ok (.ok ⟨[⟨0x08000000, (List.range 32).take 16⟩,
        ⟨0x08000010, (List.range 32).drop 16⟩]⟩) ∧
    (⟨[⟨0x08000000, (List.range 32).take 16⟩,
      ⟨0x08000010, (List.range 32).drop 16⟩]⟩ : HexFile) ≠ ⟨[⟨0x08000000, List.range 32⟩]⟩ :=
  ⟨rfl, rfl, by decide, rfl, by decide⟩

/-- C1 (amended): for the literal E1 input, parsing yields exactly one
segment at 0x08000000 holding the 32 bytes 0x00..0x1F, writing it as
Intel-HEX under default options and reparsing reproduces that image
exactly, and writing it as S-Record under default options and reparsing
reproduces it up to normalization. -/
theorem c1_roundtrip_e1 :
    parse_intel_hex (asciiBytes
        (":020000040800F2\r\n:10000000000102030405060708090A0B0C0D0E0F78\r\n" ++
          ":10001000101112131415161718191A1B1C1D1E1F68\r\n:00000001FF\r\n")) =
      .ok ⟨[⟨0x08000000, List.range 32⟩]⟩ ∧
    parse_intel_hex (write_intel_hex ⟨[⟨0x08000000, List.range 32⟩]⟩
      IntelHexWriteOptions.default) = .ok ⟨[⟨0x08000000, List.range 32⟩]⟩ ∧
    (write_srec ⟨[⟨0x08000000, List.range 32⟩]⟩ SRecordWriteOptions.default).map
        (fun out => (parse_srec out).map HexFile.normalized_lossy) =
      .ok (.ok ⟨[⟨0x08000000, List.range 32⟩]⟩) :=
  ⟨rfl, rfl, rfl⟩

end H3xy
